import Mathlib

/-!
# The agent loop of `ai-agent` (package `agent`)

A shallow embedding of `agent.go` (`NewAgent`, `Think`, `Run`, `listTools`) and
`tools.go` (`Calculator`, `parseFloat`), together with the parts of the Go
standard library (`strings`, `unicode/utf8`) that `Run` calls.

Go strings are byte sequences; they are modelled as lists of natural numbers
(each below 256 for a real string).  Everything is executable.
-/

namespace AiAgent

/-! ## Go strings and `unicode/utf8` -/

/-- A Go string: a sequence of bytes. -/
abbrev GoString := List Nat

/-- The replacement rune `utf8.RuneError` (U+FFFD). -/
def RuneError : Nat := 0xFFFD

/-- A UTF-8 continuation byte (`10xxxxxx`). -/
def isCont (b : Nat) : Bool := 0x80 ≤ b && b ≤ 0xBF

/-- Lowest second byte that `utf8.DecodeRune` accepts after the first byte `b0`. -/
def acceptLo (b0 : Nat) : Nat :=
  if b0 = 0xE0 then 0xA0 else if b0 = 0xF0 then 0x90 else 0x80

/-- Highest second byte that `utf8.DecodeRune` accepts after the first byte `b0`. -/
def acceptHi (b0 : Nat) : Nat :=
  if b0 = 0xED then 0x9F else if b0 = 0xF4 then 0x8F else 0xBF

/-- Go `utf8.DecodeRuneInString`: the first rune of `s` and its width in bytes.
The empty string gives `(RuneError, 0)`, an invalid or truncated encoding
`(RuneError, 1)`. -/
def decodeRune : GoString → Nat × Nat
  | [] => (RuneError, 0)
  | b0 :: rest =>
    if b0 < 0x80 then (b0, 1)
    else if 0xC2 ≤ b0 && b0 ≤ 0xDF then
      match rest with
      | b1 :: _ =>
        if isCont b1 then ((b0 - 0xC0) * 64 + (b1 - 0x80), 2) else (RuneError, 1)
      | [] => (RuneError, 1)
    else if 0xE0 ≤ b0 && b0 ≤ 0xEF then
      match rest with
      | b1 :: b2 :: _ =>
        if acceptLo b0 ≤ b1 && b1 ≤ acceptHi b0 && isCont b2 then
          (((b0 - 0xE0) * 64 + (b1 - 0x80)) * 64 + (b2 - 0x80), 3)
        else (RuneError, 1)
      | _ => (RuneError, 1)
    else if 0xF0 ≤ b0 && b0 ≤ 0xF4 then
      match rest with
      | b1 :: b2 :: b3 :: _ =>
        if acceptLo b0 ≤ b1 && b1 ≤ acceptHi b0 && isCont b2 && isCont b3 then
          ((((b0 - 0xF0) * 64 + (b1 - 0x80)) * 64 + (b2 - 0x80)) * 64 + (b3 - 0x80), 4)
        else (RuneError, 1)
      | _ => (RuneError, 1)
    else (RuneError, 1)

/-- Go `utf8.AppendRune`: the UTF-8 encoding of a rune; surrogates and values
above U+10FFFF are written as `RuneError`. -/
def encodeRune (r : Nat) : GoString :=
  if r < 0x80 then [r]
  else if r < 0x800 then [0xC0 + r / 64, 0x80 + r % 64]
  else if 0x10FFFF < r || (0xD800 ≤ r && r ≤ 0xDFFF) then [0xEF, 0xBF, 0xBD]
  else if r < 0x10000 then [0xE0 + r / 4096, 0x80 + r / 64 % 64, 0x80 + r % 64]
  else [0xF0 + r / 262144, 0x80 + r / 4096 % 64, 0x80 + r / 64 % 64, 0x80 + r % 64]

/-- The bytes of a source-code string literal (Go source is UTF-8). -/
def bytes (s : String) : GoString :=
  (s.data.map fun c => encodeRune c.toNat).flatten

/-- Go `utf8.RuneStart`: the byte is not a continuation byte. -/
def runeStart (b : Nat) : Bool := !isCont b

/-- The tail of `utf8.DecodeLastRuneInString`: the decoded rune is accepted only
when it ends exactly at the end of the string (`start+size == end`). -/
def lastCheck (d : Nat × Nat) (n : Nat) : Nat × Nat :=
  if d.2 = n then d else (RuneError, 1)

/-- Go `utf8.DecodeLastRuneInString`, on the REVERSED string: the backward scan
looks at up to three bytes before the last one for a rune start, decodes from
there (from index 0, or from `end-5`, when none is found) and checks that the
rune ends at the end of the string. -/
def decodeLastRuneRev : GoString → Nat × Nat
  | [] => (RuneError, 0)
  | b :: rest =>
    if b < 0x80 then (b, 1)
    else match rest with
      | [] => lastCheck (decodeRune [b]) 1
      | c1 :: rest1 =>
        if runeStart c1 then lastCheck (decodeRune [c1, b]) 2
        else match rest1 with
          | [] => lastCheck (decodeRune [c1, b]) 2
          | c2 :: rest2 =>
            if runeStart c2 then lastCheck (decodeRune [c2, c1, b]) 3
            else match rest2 with
              | [] => lastCheck (decodeRune [c2, c1, b]) 3
              | c3 :: rest3 =>
                if runeStart c3 then lastCheck (decodeRune [c3, c2, c1, b]) 4
                else match rest3 with
                  | [] => lastCheck (decodeRune [c3, c2, c1, b]) 4
                  | c4 :: _ => lastCheck (decodeRune [c4, c3, c2, c1, b]) 5

/-- Go `utf8.DecodeLastRuneInString`: the last rune of `s` and its width. -/
def decodeLastRune (s : GoString) : Nat × Nat := decodeLastRuneRev s.reverse

/-! ## Package `unicode` -/

/-- Go `unicode.IsSpace`: in Latin-1 the characters `\t \n \v \f \r`, space,
U+0085 and U+00A0; beyond it the code points with the White_Space property. -/
def isSpace (r : Nat) : Bool :=
  (0x09 ≤ r && r ≤ 0x0D) || r = 0x20 || r = 0x85 || r = 0xA0 || r = 0x1680 ||
  (0x2000 ≤ r && r ≤ 0x200A) || r = 0x2028 || r = 0x2029 || r = 0x202F ||
  r = 0x205F || r = 0x3000

/-- ASCII lower-casing of one byte (`c += 'a' - 'A'` for `'A' <= c <= 'Z'`). -/
def asciiLower (c : Nat) : Nat := if 0x41 ≤ c && c ≤ 0x5A then c + 0x20 else c

/-- Go `unicode.ToLower`.  Runes up to `unicode.MaxASCII` are handled by the
function itself; for the others it consults the Unicode case tables, which are
the parameter `tbl`. -/
def unicodeToLower (tbl : Nat → Nat) (r : Nat) : Nat :=
  if r ≤ 0x7F then asciiLower r else tbl r

/-! ## Package `strings` -/

/-- Go `strings.HasPrefix`. -/
def HasPrefix (s pre : GoString) : Bool := pre.isPrefixOf s

/-- Go `strings.Index`: byte index of the first occurrence of `sub` in `s`;
`none` stands for `-1`. -/
def Index : GoString → GoString → Option Nat
  | [], sub => if sub = [] then some 0 else none
  | c :: cs, sub =>
    if HasPrefix (c :: cs) sub then some 0 else (Index cs sub).map (· + 1)

/-- Go `strings.Contains` (`Index(s, substr) >= 0`). -/
def Contains (s sub : GoString) : Bool := (Index s sub).isSome

/-- Go `strings.Split(s, sep)` for a separator of one byte: the pieces between
the separators, always at least one piece. -/
def Split (sep : Nat) : GoString → List GoString
  | [] => [[]]
  | c :: cs =>
    if c = sep then [] :: Split sep cs
    else match Split sep cs with
      | l :: ls => (c :: l) :: ls
      | [] => [[c]]

/-- Go `strings.SplitN(s, sep, 2)` for a separator of one byte: the string
itself when it has no separator, else what stands before and after the first. -/
def SplitN2 (sep : Nat) (s : GoString) : List GoString :=
  match s.indexOf? sep with
  | none => [s]
  | some i => [s.take i, s.drop (i + 1)]

/-- Go `strings.TrimLeftFunc(s, unicode.IsSpace)`: drops leading runes while they
are white space.  The first argument bounds the number of runes. -/
def trimLeftSpace : Nat → GoString → GoString
  | 0, s => s
  | n + 1, s =>
    match s with
    | [] => []
    | _ :: _ =>
      if isSpace (decodeRune s).1 then trimLeftSpace n (s.drop (decodeRune s).2) else s

/-- Go `strings.TrimRightFunc(s, unicode.IsSpace)`, on the REVERSED string. -/
def trimRightSpaceRev : Nat → GoString → GoString
  | 0, rs => rs
  | n + 1, rs =>
    match rs with
    | [] => []
    | _ :: _ =>
      if isSpace (decodeLastRuneRev rs).1 then
        trimRightSpaceRev n (rs.drop (decodeLastRuneRev rs).2)
      else rs

/-- Go `strings.TrimSpace`: `s` without leading and trailing white space, as
defined by Unicode (the ASCII fast path of the library computes the same). -/
def TrimSpace (s : GoString) : GoString :=
  let l := trimLeftSpace s.length s
  (trimRightSpaceRev l.length l.reverse).reverse

/-- Go `strings.ContainsFunc(s, unicode.IsSpace)`: some rune of `s`, read as
`range s` reads it, is white space.  The first argument counts bytes still to
skip inside the current rune. -/
def containsSpace : Nat → GoString → Bool
  | _, [] => false
  | 0, b :: rest =>
    isSpace (decodeRune (b :: rest)).1 ||
      containsSpace ((decodeRune (b :: rest)).2 - 1) rest
  | k + 1, _ :: rest => containsSpace k rest

/-- Go `strings.Map(mapping, s)` for a mapping without negative results: every
rune of `s`, read as `range s` reads it, is replaced by the encoding of its
image.  The first argument counts bytes still to skip inside the current rune. -/
def mapRunes (mapping : Nat → Nat) : Nat → GoString → GoString
  | _, [] => []
  | 0, b :: rest =>
    encodeRune (mapping (decodeRune (b :: rest)).1) ++
      mapRunes mapping ((decodeRune (b :: rest)).2 - 1) rest
  | k + 1, _ :: rest => mapRunes mapping k rest

/-- Go `strings.Map`. -/
def Map (mapping : Nat → Nat) (s : GoString) : GoString := mapRunes mapping 0 s

/-- Go `strings.ToLower`: ASCII-only strings are lower-cased byte by byte, all
others go through `Map(unicode.ToLower, s)`. -/
def ToLower (tbl : Nat → Nat) (s : GoString) : GoString :=
  if s.all (fun c => c < 0x80) then s.map asciiLower else Map (unicodeToLower tbl) s

/-- Go slice expression `s[i:]`: `none` is the run-time panic for `i > len(s)`. -/
def sliceFrom (s : GoString) (i : Nat) : Option GoString :=
  if i ≤ s.length then some (s.drop i) else none

/-! ## `agent.go`: the data model -/

/-- A Go `error` value, identified by its message. -/
structure GoError where
  msg : GoString
deriving DecidableEq, Repr

/-- A Go `(string, error)` result; `none` in the second place is the nil error. -/
abbrev StrErr := GoString × Option GoError

/-- Interface `Tool`.  `Execute` may read and change the world `σ` (whatever the
tools and the model backend share outside the loop). -/
structure Tool (σ : Type) where
  Name : GoString
  Description : GoString
  Execute : σ → GoString → StrErr × σ

/-- A Go `map[string]Tool`: keys are unique, the list order is the order in
which `range` visits the entries. -/
abbrev ToolMap (σ : Type) := List (GoString × Tool σ)

/-- Go map assignment `m[k] = v`. -/
def mapSet {σ : Type} : ToolMap σ → GoString → Tool σ → ToolMap σ
  | [], k, v => [(k, v)]
  | (k0, v0) :: m, k, v => if k0 = k then (k, v) :: m else (k0, v0) :: mapSet m k v

/-- Go map read `v, ok := m[k]`; `none` is `ok == false`. -/
def mapGet {σ : Type} : ToolMap σ → GoString → Option (Tool σ)
  | [], _ => none
  | (k0, v0) :: m, k => if k0 = k then some v0 else mapGet m k

/-- Struct `Agent`. -/
structure Agent (σ : Type) where
  Model : GoString
  Tools : ToolMap σ

/-- `NewAgent` creates an agent with registered tools (lines 32-38). -/
def NewAgent {σ : Type} (model : GoString) (tools : List (Tool σ)) : Agent σ :=
  { Model := model, Tools := tools.foldl (fun toolMap t => mapSet toolMap t.Name t) [] }

/-- The chat-completion service behind `client.Chat.Completions.New`: given the
world, the model identifier and the prompt (sent as one user message) it
answers with an error or with the message contents of the response's choices. -/
abbrev Backend (σ : Type) := σ → GoString → GoString → Except GoError (List GoString) × σ

/-- `Agent.Think` (lines 40-57).  `none` is the run-time panic of
`resp.Choices[0]` on a response without choices. -/
def Think {σ : Type} (be : Backend σ) (a : Agent σ) (w : σ) (prompt : GoString) :
    Option StrErr × σ :=
  match be w a.Model prompt with
  | (.error err, w1) => (some ([], some err), w1)
  | (.ok [], w1) => (none, w1)
  | (.ok (choice :: _), w1) => (some (choice, none), w1)

/-- `Agent.listTools` (lines 141-147). -/
def listTools {σ : Type} (a : Agent σ) : GoString :=
  [10].intercalate
    (a.Tools.map fun kv => bytes "- " ++ kv.2.Name ++ bytes ": " ++ kv.2.Description)

/-! ## `agent.go`: `Run` -/

/-- What one call of `Run` does that can be observed from outside, in order:
the calls it makes and the lines it prints. -/
inductive Event where
  /-- `fmt.Println("🧩 Goal:", goal)`, line 61. -/
  | goal (goal : GoString)
  /-- The call `a.Think(ctx, prompt)`, line 73. -/
  | think (prompt : GoString)
  /-- `fmt.Println("\n🤔 Agent:", answer)`, line 79. -/
  | agentSays (answer : GoString)
  /-- `fmt.Println("⚠️  Invalid tool usage format")`, line 111. -/
  | invalidFormat
  /-- `fmt.Printf("🔧 Using tool: %s with input: %s\n", toolName, input)`, line 117. -/
  | usingTool (toolName input : GoString)
  /-- `fmt.Println("❌ Unknown tool:", toolName)`, line 120. -/
  | unknownTool (toolName : GoString)
  /-- The call `tool.Execute(input)`, line 124, on the tool registered as `toolName`. -/
  | execute (toolName input : GoString)
  /-- `fmt.Println("⚠️ Tool error:", err)`, line 126. -/
  | toolError (err : GoError)
  /-- `fmt.Println("✅ Final Answer:", answer)`, line 134. -/
  | finalAnswer (answer : GoString)
deriving DecidableEq, Repr

/-- The `use:` marker. -/
def marker : GoString := bytes "use:"

/-- The line scan of `Run` (lines 85-105): the value of `toolCommand` after the
`for _, line := range lines` loop; `none` is the panic of an out-of-range slice
expression. -/
def scanLines (tbl : Nat → Nat) : List GoString → Option GoString
  | [] => some []
  | l :: lines =>
    let line := TrimSpace l
    let lineLower := ToLower tbl line
    if HasPrefix lineLower marker then
      (sliceFrom line 4).map TrimSpace
    else if HasPrefix line (bytes "Use:") then
      (sliceFrom line 4).map TrimSpace
    else
      match Index lineLower marker with
      | some idx => (sliceFrom line (idx + 4)).map TrimSpace
      | none => scanLines tbl lines

/-- The outcome of looking for a command in a trimmed reply. -/
inductive Parsed where
  /-- No command text: the reply is the final answer (falls through to line 134). -/
  | noCommand
  /-- `len(parts) < 2`, lines 110-113. -/
  | malformed
  /-- The pair `toolName`, `input` of lines 114-115. -/
  | command (toolName input : GoString)
  /-- An out-of-range slice expression in the line scan. -/
  | panicked
deriving DecidableEq, Repr

/-- The command parser that `Run` inlines at lines 82-115 (the `ParseCommand` of
the specification), applied to the trimmed reply `answer`. -/
def ParseCommand (tbl : Nat → Nat) (answer : GoString) : Parsed :=
  if Contains answer marker || Contains (ToLower tbl answer) marker then
    match scanLines tbl (Split 10 answer) with
    | none => .panicked
    | some toolCommand =>
      if toolCommand ≠ [] then
        match SplitN2 32 toolCommand with
        | [p0, p1] => .command (TrimSpace p0) (TrimSpace p1)
        | _ => .malformed
      else .noCommand
  else .noCommand

/-- The variables of `Run` that live across iterations, and what has been
observed so far. -/
structure LoopState (σ : Type) where
  prompt : GoString
  world : σ
  trace : List Event

/-- How `Run` ends: it returns its `error` (`none` is nil), or it panics. -/
inductive Outcome where
  | returned (err : Option GoError)
  | panicked
deriving DecidableEq, Repr

/-- The result of one pass through the body of the `for` loop. -/
inductive Step (σ : Type) where
  /-- A `continue`: the loop goes on with this state. -/
  | next (st : LoopState σ)
  /-- A `return`, the `break` after the final answer, or a panic. -/
  | stop (out : Outcome) (st : LoopState σ)

/-- Lines 117-130: look the tool up, execute it, append its result to the
prompt.  Every path ends in `continue`. -/
def dispatch {σ : Type} (a : Agent σ) (prompt : GoString) (w : σ) (tr : List Event)
    (toolName input : GoString) : LoopState σ :=
  let tr1 := tr ++ [.usingTool toolName input]
  match mapGet a.Tools toolName with
  | none => { prompt := prompt, world := w, trace := tr1 ++ [.unknownTool toolName] }
  | some tool =>
    match tool.Execute w input with
    | ((_, some err), w1) =>
      { prompt := prompt, world := w1,
        trace := tr1 ++ [.execute toolName input, .toolError err] }
    | ((out, none), w1) =>
      { prompt := prompt ++ (bytes "\nTool " ++ toolName ++ bytes " returned: " ++ out ++
          bytes "\nContinue reasoning..."),
        world := w1, trace := tr1 ++ [.execute toolName input] }

/-- The body of the `for` loop of `Run` (lines 73-135). -/
def loopBody {σ : Type} (tbl : Nat → Nat) (be : Backend σ) (a : Agent σ)
    (st : LoopState σ) : Step σ :=
  match Think be a st.world st.prompt with
  | (none, w) =>
    .stop .panicked { st with world := w, trace := st.trace ++ [.think st.prompt] }
  | (some (_, some err), w) =>
    .stop (.returned (some err))
      { st with world := w, trace := st.trace ++ [.think st.prompt] }
  | (some (reply, none), w) =>
    let answer := TrimSpace reply
    let tr := st.trace ++ [.think st.prompt, .agentSays answer]
    match ParseCommand tbl answer with
    | .panicked => .stop .panicked { st with world := w, trace := tr }
    | .noCommand =>
      .stop (.returned none) { st with world := w, trace := tr ++ [.finalAnswer answer] }
    | .malformed => .next { st with world := w, trace := tr ++ [.invalidFormat] }
    | .command toolName input => .next (dispatch a st.prompt w tr toolName input)

/-- The `for` loop of `Run`, run for at most `fuel` iterations; `none` means
that the loop is still running after them. -/
def runLoop {σ : Type} (tbl : Nat → Nat) (be : Backend σ) (a : Agent σ) :
    Nat → LoopState σ → Option (Outcome × LoopState σ)
  | 0, _ => none
  | fuel + 1, st =>
    match loopBody tbl be a st with
    | .stop out st1 => some (out, st1)
    | .next st1 => runLoop tbl be a fuel st1

/-- The prompt built at lines 63-70. -/
def initialPrompt {σ : Type} (a : Agent σ) (goal : GoString) : GoString :=
  bytes "You are an autonomous agent.\nYour goal: " ++ goal ++
  bytes "\n\nAvailable tools:\n" ++ listTools a ++
  bytes "\n\nIf a tool is needed, reply with \"use:<toolname> <input>\"\nOtherwise, reply with your final answer."

/-- `Agent.Run` (lines 60-139), its loop bounded by `fuel` iterations. -/
def Run {σ : Type} (tbl : Nat → Nat) (be : Backend σ) (a : Agent σ) (fuel : Nat)
    (w : σ) (goal : GoString) : Option (Outcome × LoopState σ) :=
  runLoop tbl be a fuel
    { prompt := initialPrompt a goal, world := w, trace := [.goal goal] }

/-- The state in which the `for` loop of `Run` starts its iteration number `k`
(counted from 0); `none` when the loop has ended before. -/
def continues {σ : Type} (tbl : Nat → Nat) (be : Backend σ) (a : Agent σ) :
    Nat → LoopState σ → Option (LoopState σ)
  | 0, st => some st
  | k + 1, st =>
    match loopBody tbl be a st with
    | .next st1 => continues tbl be a k st1
    | .stop _ _ => none

/-- The prompts of the calls of `Think` in a trace, in order. -/
def thinkCalls : List Event → List GoString
  | [] => []
  | .think p :: tr => p :: thinkCalls tr
  | _ :: tr => thinkCalls tr

/-- The calls of `Tool.Execute` in a trace, in order: tool name and argument. -/
def toolCalls : List Event → List (GoString × GoString)
  | [] => []
  | .execute n i :: tr => (n, i) :: toolCalls tr
  | _ :: tr => toolCalls tr

/-! ## `tools.go`: the calculator -/

/-- What `Calculator.Execute` and `parseFloat` use of `float64` and of package
`fmt`.  The arithmetic and the formatting are library code, not code of this
repository, and are taken as a parameter. -/
structure Float64Lib where
  /-- The type `float64`. -/
  T : Type
  /-- `fmt.Sscanf(s, "%f", &result)`: the scanned value when `err == nil` and
  `n == 1`, else `none`. -/
  sscanf : GoString → Option T
  add : T → T → T
  sub : T → T → T
  mul : T → T → T
  div : T → T → T
  /-- The comparison `b == 0`. -/
  isZero : T → Bool
  /-- The comparison `result == float64(int64(result))`. -/
  int64Exact : T → Bool
  /-- `fmt.Sprintf("%.0f", x)`. -/
  fmt0 : T → GoString
  /-- `fmt.Sprintf("%.2f", x)`. -/
  fmt2 : T → GoString

/-- Function `parseFloat` (lines 69-79). -/
def parseFloat (F : Float64Lib) (s : GoString) : Except GoError F.T :=
  if s = [] then .error ⟨bytes "empty string"⟩
  else match F.sscanf s with
    | none => .error ⟨bytes "failed to parse: " ++ s⟩
    | some result => .ok result

/-- The test `char == '+' || char == '-' || char == '*' || char == '/'`. -/
def isOperator (char : Nat) : Bool :=
  char = 0x2B || char = 0x2D || char = 0x2A || char = 0x2F

/-- The loop `for i, char := range input` of `Calculator.Execute` (lines 21-30):
the first operator rune at a byte index above 0, with that index.  `skip` counts
the bytes still to pass inside the current rune, `i` is the byte index. -/
def findOperator : Nat → Nat → GoString → Option (Nat × Nat)
  | _, _, [] => none
  | 0, i, b :: rest =>
    if isOperator (decodeRune (b :: rest)).1 && 0 < i then
      some ((decodeRune (b :: rest)).1, i)
    else findOperator ((decodeRune (b :: rest)).2 - 1) (i + 1) rest
  | skip + 1, i, _ :: rest => findOperator skip (i + 1) rest

/-- Method `Calculator.Execute` (lines 12-67). -/
def Calculator.Execute (F : Float64Lib) (input0 : GoString) : StrErr :=
  let input := input0.filter (fun c => c ≠ 0x20)
  match findOperator 0 0 input with
  | none => ([], some ⟨bytes "no operator found"⟩)
  | some (char, opIndex) =>
    let op := encodeRune char
    let aStr := input.take opIndex
    let bStr := input.drop (opIndex + 1)
    match parseFloat F aStr with
    | .error _ => ([], some ⟨bytes "invalid first number: " ++ aStr⟩)
    | .ok a =>
      match parseFloat F bStr with
      | .error _ => ([], some ⟨bytes "invalid second number: " ++ bStr⟩)
      | .ok b =>
        if op = bytes "+" then (F.fmt0 (F.add a b), none)
        else if op = bytes "-" then (F.fmt0 (F.sub a b), none)
        else if op = bytes "*" then (F.fmt0 (F.mul a b), none)
        else if op = bytes "/" then
          if F.isZero b then ([], some ⟨bytes "divide by zero"⟩)
          else
            let result := F.div a b
            if F.int64Exact result then (F.fmt0 result, none)
            else (F.fmt2 result, none)
        else ([], some ⟨bytes "unknown operator: " ++ op⟩)

/-- Type `Calculator` as a `Tool` (lines 8-12); it does not touch the world. -/
def Calculator {σ : Type} (F : Float64Lib) : Tool σ :=
  { Name := bytes "calc"
    Description := bytes "Perform simple math operations, e.g. '2+2'"
    Execute := fun w input => (Calculator.Execute F input, w) }

/-! ## Stubs

Model backends and a stand-in for the float library, used to run the loop on
concrete inputs. -/

/-- A model stub that fails every call with the transport error `err`. -/
def failingBackend (err : GoError) : Backend Unit :=
  fun w _ _ => (.error err, w)

/-- A model stub that answers every call with the one choice `reply`. -/
def constantBackend (reply : GoString) : Backend Unit :=
  fun w _ _ => (.ok [reply], w)

/-- A model stub that plays a script and never fails: its `n`-th call (the
world counts the calls) answers with the `n`-th reply of the script, and with
`last` once the script is over. -/
def scriptedBackend (replies : List GoString) (last : GoString) : Backend Nat :=
  fun n _ _ => (.ok [replies.getD n last], n + 1)

/-- The value of a string of decimal digits, `none` when another byte occurs. -/
def digitsValue : Nat → GoString → Option Nat
  | acc, [] => some acc
  | acc, c :: cs =>
    if 0x30 ≤ c && c ≤ 0x39 then digitsValue (acc * 10 + (c - 0x30)) cs else none

/-- Decimal digits of a natural number. -/
def natDigits (n : Nat) : GoString := (Nat.toDigits 10 n).map Char.toNat

/-- A stand-in for the float library on the natural numbers written as decimal
digits, where `+` and `*` are exact: it scans digit strings only, and division
and subtraction are the truncated ones of the natural numbers.  It serves to
instantiate `Float64Lib` on concrete inputs and is no model of `float64`. -/
def natFloat : Float64Lib :=
  { T := Nat
    sscanf := fun s => if s = [] then none else digitsValue 0 s
    add := fun x y => x + y
    sub := fun x y => x - y
    mul := fun x y => x * y
    div := fun x y => x / y
    isZero := fun x => x == 0
    int64Exact := fun _ => true
    fmt0 := natDigits
    fmt2 := fun x => natDigits x ++ bytes ".00" }

/-- A decimal number `± mant / 10 ^ scale`, the values of the stand-in
`decFloat`. -/
structure Dec where
  neg : Bool
  mant : Nat
  scale : Nat
deriving DecidableEq

/-- The byte is a decimal digit. -/
def isDigit (c : Nat) : Bool := 0x30 ≤ c && c ≤ 0x39

/-- An optional sign at the head of a string: whether it is `-`, and the rest. -/
def scanSign (s : GoString) : Bool × GoString :=
  match s with
  | c :: r => if c = 0x2D then (true, r) else if c = 0x2B then (false, r) else (false, s)
  | [] => (false, s)

/-- The value of a string of decimal digits. -/
def decValue (ds : GoString) : Nat := (digitsValue 0 ds).getD 0

/-- Scanning a decimal number at the head of a string, the way `fmt.Sscanf` with
`%f` does: the token is an optional sign, digits, an optional point with
digits, and an optional exponent mark `e` or `E` with optional sign and digits;
what follows the token is ignored.  The token is a number when the mantissa has
a digit and the exponent mark, if there, is followed by a digit (so `1e` is
none). -/
def decScan (s : GoString) : Option Dec :=
  let sg := scanSign s
  let ip := sg.2.takeWhile isDigit
  let s2 := sg.2.dropWhile isDigit
  let fp := match s2 with
    | c :: r => if c = 0x2E then r.takeWhile isDigit else []
    | [] => []
  let s3 := match s2 with
    | c :: r => if c = 0x2E then r.dropWhile isDigit else s2
    | [] => []
  if ip = [] && fp = [] then none
  else
    let m := decValue (ip ++ fp)
    match s3 with
    | c :: r =>
      if c = 0x65 || c = 0x45 then
        let es := scanSign r
        let ed := es.2.takeWhile isDigit
        if ed = [] then none
        else if es.1 then some ⟨sg.1, m, fp.length + decValue ed⟩
        else some ⟨sg.1, m * 10 ^ decValue ed, fp.length⟩
      else some ⟨sg.1, m, fp.length⟩
    | [] => some ⟨sg.1, m, fp.length⟩

/-- Exact sum of two decimal numbers; a zero sum of opposite signs is `+0`. -/
def Dec.add (a b : Dec) : Dec :=
  let k := max a.scale b.scale
  let x := a.mant * 10 ^ (k - a.scale)
  let y := b.mant * 10 ^ (k - b.scale)
  if a.neg = b.neg then ⟨a.neg, x + y, k⟩
  else if x = y then ⟨false, 0, k⟩
  else if y < x then ⟨a.neg, x - y, k⟩
  else ⟨b.neg, y - x, k⟩

/-- Exact difference of two decimal numbers. -/
def Dec.sub (a b : Dec) : Dec := Dec.add a ⟨!b.neg, b.mant, b.scale⟩

/-- Exact product of two decimal numbers. -/
def Dec.mul (a b : Dec) : Dec := ⟨xor a.neg b.neg, a.mant * b.mant, a.scale + b.scale⟩

/-- Quotient of two decimal numbers, cut after 20 decimal places. -/
def Dec.div (a b : Dec) : Dec :=
  ⟨xor a.neg b.neg, a.mant * 10 ^ (b.scale + 20) / (b.mant * 10 ^ a.scale), 20⟩

/-- The numerator over `10 ^ d` of `m / 10 ^ k` rounded to `d` decimal places,
a tie going to the even neighbour. -/
def Dec.round (m k d : Nat) : Nat :=
  if k ≤ d then m * 10 ^ (d - k)
  else
    let u := 10 ^ (k - d)
    let q := m / u
    let r := m % u
    if u < 2 * r then q + 1
    else if 2 * r = u then (if q % 2 = 0 then q else q + 1)
    else q

/-- A decimal number printed without decimal places. -/
def Dec.fmt0 (a : Dec) : GoString :=
  (if a.neg then bytes "-" else []) ++ natDigits (Dec.round a.mant a.scale 0)

/-- A decimal number printed with two decimal places. -/
def Dec.fmt2 (a : Dec) : GoString :=
  (if a.neg then bytes "-" else []) ++ natDigits (Dec.round a.mant a.scale 2 / 100) ++
    bytes "." ++ natDigits (Dec.round a.mant a.scale 2 % 100 / 10) ++
    natDigits (Dec.round a.mant a.scale 2 % 10)

/-- A stand-in for the float library on decimal numbers with a sign: scanning
reads decimal notation with fractions and exponents, `+ - *` are exact, `/` is
cut after 20 decimal places, and printing rounds a tie to the even neighbour.
It agrees with `float64` on inputs whose operands and result are binary
fractions of few digits, such as `0.5 + 0.25` and `1 / 4`; it has no
hexadecimal notation, no infinities or NaN, and neither the range nor the
rounding of `float64`.  It serves to run `Calculator.Execute` on concrete
inputs. -/
def decFloat : Float64Lib :=
  { T := Dec
    sscanf := decScan
    add := Dec.add
    sub := Dec.sub
    mul := Dec.mul
    div := Dec.div
    isZero := fun x => x.mant == 0
    int64Exact := fun x => x.mant % 10 ^ x.scale == 0 && x.mant / 10 ^ x.scale < 2 ^ 63
    fmt0 := Dec.fmt0
    fmt2 := Dec.fmt2 }

/-- A second tool for tests of the registry: it returns its input. -/
def echoTool {σ : Type} : Tool σ :=
  { Name := bytes "echo"
    Description := bytes "Repeat the input"
    Execute := fun w input => ((input, none), w) }

/-- The agent that `main` builds: `agent.NewAgent("llama3", agent.Calculator{})`. -/
def mainAgent (σ : Type) (F : Float64Lib) : Agent σ :=
  NewAgent (bytes "llama3") [Calculator F]

/-- The goal that `main` passes to `Run`. -/
def mainGoal : GoString := bytes "Find the result of (4 + 5) * 2"

/-- A model stub whose response carries no choice at all (and no error). -/
def emptyBackend : Backend Unit :=
  fun w _ _ => (.ok [], w)

/-- An excerpt of the Unicode case tables that `unicode.ToLower` consults: the
entries of U+0130 (İ, lower case U+0069), U+212A (Kelvin sign, lower case
U+006B) and U+023A (Ⱥ, lower case U+2C65); every other code point is left as it
is. -/
def lowerExcerpt (r : Nat) : Nat :=
  if r = 0x130 then 0x69 else if r = 0x212A then 0x6B else if r = 0x23A then 0x2C65 else r

/-- The state a `Step` carries. -/
def Step.state {σ : Type} : Step σ → LoopState σ
  | .next st => st
  | .stop _ st => st

/-! ## Reference definitions

What the claims compare the code with. -/

/-- The line scan with the anywhere-in-line rule alone: `strings.Index` on the
lower-cased line, without the two start-of-line checks of lines 91-99. -/
def scanLinesIndexOnly (tbl : Nat → Nat) : List GoString → Option GoString
  | [] => some []
  | l :: lines =>
    let line := TrimSpace l
    match Index (ToLower tbl line) marker with
    | some idx => (sliceFrom line (idx + 4)).map TrimSpace
    | none => scanLinesIndexOnly tbl lines

/-- The number of events of a trace that report what became of a command: an
invalid format, an unknown tool, or the execution of a tool. -/
def reported : List Event → Nat
  | [] => 0
  | .invalidFormat :: tr => reported tr + 1
  | .unknownTool _ :: tr => reported tr + 1
  | .execute _ _ :: tr => reported tr + 1
  | _ :: tr => reported tr

/-- The final answers printed in a trace. -/
def finalAnswers : List Event → List GoString
  | [] => []
  | .finalAnswer ans :: tr => ans :: finalAnswers tr
  | _ :: tr => finalAnswers tr

/-- Lines 40-66 of `Calculator.Execute` for given operands and operator: what
the calculator answers once the input is split into the left operand `aStr`,
the operator rune `char` and the right operand `bStr`. -/
def Calculator.operate (F : Float64Lib) (aStr : GoString) (char : Nat) (bStr : GoString) :
    StrErr :=
  let op := encodeRune char
  match parseFloat F aStr with
  | .error _ => ([], some ⟨bytes "invalid first number: " ++ aStr⟩)
  | .ok a =>
    match parseFloat F bStr with
    | .error _ => ([], some ⟨bytes "invalid second number: " ++ bStr⟩)
    | .ok b =>
      if op = bytes "+" then (F.fmt0 (F.add a b), none)
      else if op = bytes "-" then (F.fmt0 (F.sub a b), none)
      else if op = bytes "*" then (F.fmt0 (F.mul a b), none)
      else if op = bytes "/" then
        if F.isZero b then ([], some ⟨bytes "divide by zero"⟩)
        else
          let result := F.div a b
          if F.int64Exact result then (F.fmt0 result, none)
          else (F.fmt2 result, none)
      else ([], some ⟨bytes "unknown operator: " ++ op⟩)

/-- A string with every space character (byte `0x20`) deleted. -/
def deleteSpaces (s : GoString) : GoString := s.filter (fun c => c ≠ 0x20)

/-- The first of the characters `+ - * /` at a byte index above 0, with its
index: a scan of the bytes, `i` being the index of the head of the string. -/
def firstOperator : Nat → GoString → Option (Nat × Nat)
  | _, [] => none
  | i, b :: rest =>
    if isOperator b && 0 < i then some (b, i) else firstOperator (i + 1) rest

/-! ## Lemmas on `unicode/utf8` -/

theorem decodeRune_ascii (b : Nat) (rest : GoString) (h : b < 0x80) :
    decodeRune (b :: rest) = (b, 1) := by
  simp [decodeRune, h]

theorem isSpace_RuneError : isSpace RuneError = false := by decide

theorem decodeRune_width_pos (b : Nat) (rest : GoString) :
    1 ≤ (decodeRune (b :: rest)).2 := by
  simp only [decodeRune]
  repeat' split
  all_goals simp

theorem decodeRune_width_le (s : GoString) : (decodeRune s).2 ≤ s.length := by
  cases s with
  | nil => simp [decodeRune]
  | cons b rest =>
    simp only [decodeRune]
    repeat' split
    all_goals simp

theorem decodeRune_cont_head (b : Nat) (rest : GoString) (h : isCont b = true) :
    decodeRune (b :: rest) = (RuneError, 1) := by
  simp only [isCont, Bool.and_eq_true, decide_eq_true_eq] at h
  have h1 : ¬ b < 0x80 := by omega
  have h2 : ¬ (0xC2 ≤ b ∧ b ≤ 0xDF) := by omega
  have h3 : ¬ (0xE0 ≤ b ∧ b ≤ 0xEF) := by omega
  have h4 : ¬ (0xF0 ≤ b ∧ b ≤ 0xF4) := by omega
  simp [decodeRune, h1, h2, h3, h4]

theorem acceptLo_ge (b0 : Nat) : 0x80 ≤ acceptLo b0 := by
  unfold acceptLo
  split_ifs <;> omega

theorem acceptHi_le (b0 : Nat) : acceptHi b0 ≤ 0xBF := by
  unfold acceptHi
  split_ifs <;> omega

theorem not_accept_of_start (b0 c : Nat) (hc : runeStart c = true) :
    (decide (acceptLo b0 ≤ c) && decide (c ≤ acceptHi b0)) = false := by
  have h1 := acceptLo_ge b0
  have h2 := acceptHi_le b0
  simp only [runeStart, isCont, Bool.not_eq_true', Bool.and_eq_false_iff,
    decide_eq_false_iff_not] at hc ⊢
  omega

theorem isCont_of_start (c : Nat) (hc : runeStart c = true) : isCont c = false := by
  simpa [runeStart] using hc

/-- A rune start after `s` does not change the first rune of `s`: a truncated
encoding is invalid in both. -/
theorem decodeRune_append_start (s t : GoString) (c : Nat) (hs : s ≠ [])
    (hc : runeStart c = true) : decodeRune (s ++ c :: t) = decodeRune s := by
  have h1 := isCont_of_start c hc
  rcases s with _ | ⟨b0, _ | ⟨b1, _ | ⟨b2, _ | ⟨b3, rest⟩⟩⟩⟩
  · exact absurd rfl hs
  · have h2 := not_accept_of_start b0 c hc
    simp only [decodeRune, List.cons_append, List.nil_append, h1, h2, Bool.false_and]
    repeat' split
    all_goals first | (simp_all; done) | (simp_all; omega)
  · simp only [decodeRune, List.cons_append, List.nil_append, h1, Bool.and_false]
    repeat' split
    all_goals simp_all
  · simp only [decodeRune, List.cons_append, List.nil_append, h1, Bool.and_false]
    repeat' split
    all_goals simp_all
  · simp only [decodeRune, List.cons_append]

/-! ## Lemmas on `strings.Map` and `strings.ToLower` -/

theorem mapRunes_nil (f : Nat → Nat) (k : Nat) : mapRunes f k [] = [] := by
  cases k <;> rfl

theorem mapRunes_skip (f : Nat → Nat) (k : Nat) (s : GoString) :
    mapRunes f k s = mapRunes f 0 (s.drop k) := by
  induction s generalizing k with
  | nil => simp [mapRunes_nil]
  | cons b rest ih =>
    cases k with
    | zero => rfl
    | succ k => simpa [mapRunes] using ih k

theorem mapRunes_step (f : Nat → Nat) (b : Nat) (rest : GoString) :
    mapRunes f 0 (b :: rest) = encodeRune (f (decodeRune (b :: rest)).1) ++
      mapRunes f 0 ((b :: rest).drop (decodeRune (b :: rest)).2) := by
  have hw := decodeRune_width_pos b rest
  obtain ⟨w, hw2⟩ : ∃ w, (decodeRune (b :: rest)).2 = w + 1 :=
    ⟨(decodeRune (b :: rest)).2 - 1, by omega⟩
  rw [mapRunes, mapRunes_skip, hw2]
  simp

theorem mapRunes_append_start_aux (f : Nat → Nat) (t : GoString) (c : Nat)
    (hc : runeStart c = true) (n : Nat) :
    ∀ s : GoString, s.length ≤ n →
      mapRunes f 0 (s ++ c :: t) = mapRunes f 0 s ++ mapRunes f 0 (c :: t) := by
  induction n with
  | zero =>
    intro s hs
    have : s = [] := List.length_eq_zero.mp (by omega)
    subst this
    simp [mapRunes]
  | succ n ih =>
    intro s hs
    cases s with
    | nil => simp [mapRunes]
    | cons b rest =>
      have hd := decodeRune_append_start (b :: rest) t c (by simp) hc
      have hle := decodeRune_width_le (b :: rest)
      have hpos := decodeRune_width_pos b rest
      rw [List.cons_append, mapRunes_step, mapRunes_step f b rest]
      rw [← List.cons_append, hd, List.append_assoc]
      congr 1
      rw [List.drop_append_of_le_length hle]
      apply ih
      simp only [List.length_drop, List.length_cons] at hs ⊢
      omega

/-- `Map` works rune by rune: it can be computed piecewise wherever the second
piece begins with a rune start. -/
theorem mapRunes_append_start (f : Nat → Nat) (s t : GoString) (c : Nat)
    (hc : runeStart c = true) :
    mapRunes f 0 (s ++ c :: t) = mapRunes f 0 s ++ mapRunes f 0 (c :: t) :=
  mapRunes_append_start_aux f t c hc s.length s (Nat.le_refl _)

theorem mapRunes_append_nil_or_start (f : Nat → Nat) (s t : GoString)
    (ht : ∀ c ∈ t.head?, runeStart c = true) :
    mapRunes f 0 (s ++ t) = mapRunes f 0 s ++ mapRunes f 0 t := by
  cases t with
  | nil => simp [mapRunes_nil]
  | cons c t => exact mapRunes_append_start f s t c (ht c (by simp))

theorem encodeRune_ascii (r : Nat) (h : r < 0x80) : encodeRune r = [r] := by
  simp [encodeRune, h]

theorem asciiLower_lt (c : Nat) (h : c < 0x80) : asciiLower c < 0x80 := by
  unfold asciiLower
  split_ifs with h1
  · simp only [Bool.and_eq_true, decide_eq_true_eq] at h1
    omega
  · exact h

theorem mapRunes_cons_ascii (tbl : Nat → Nat) (b : Nat) (rest : GoString) (h : b < 0x80) :
    mapRunes (unicodeToLower tbl) 0 (b :: rest) =
      asciiLower b :: mapRunes (unicodeToLower tbl) 0 rest := by
  rw [mapRunes_step, decodeRune_ascii b rest h]
  have : unicodeToLower tbl b = asciiLower b := by
    simp only [unicodeToLower]
    rw [if_pos (by omega)]
  simp [this, encodeRune_ascii _ (asciiLower_lt b h)]

theorem mapRunes_ascii (tbl : Nat → Nat) (s : GoString) (h : ∀ c ∈ s, c < 0x80) :
    mapRunes (unicodeToLower tbl) 0 s = s.map asciiLower := by
  induction s with
  | nil => rfl
  | cons b rest ih =>
    rw [mapRunes_cons_ascii tbl b rest (h b (by simp)), ih (fun c hc => h c (by simp [hc]))]
    rfl

/-- The ASCII fast path of `ToLower` computes what `Map(unicode.ToLower, s)` does. -/
theorem ToLower_eq_mapRunes (tbl : Nat → Nat) (s : GoString) :
    ToLower tbl s = mapRunes (unicodeToLower tbl) 0 s := by
  unfold ToLower
  split_ifs with h
  · rw [mapRunes_ascii tbl s (by simpa using h)]
  · rfl

theorem ToLower_ascii_append (tbl : Nat → Nat) (p s : GoString) (h : ∀ c ∈ p, c < 0x80) :
    ToLower tbl (p ++ s) = p.map asciiLower ++ ToLower tbl s := by
  simp only [ToLower_eq_mapRunes]
  induction p with
  | nil => rfl
  | cons b rest ih =>
    rw [List.cons_append, mapRunes_cons_ascii tbl b _ (h b (by simp)),
      ih (fun c hc => h c (by simp [hc]))]
    rfl

/-! ## Lemmas on `strings.HasPrefix`, `strings.Index` and `strings.Contains` -/

theorem HasPrefix_iff (s pre : GoString) : HasPrefix s pre = true ↔ pre <+: s := by
  simp [HasPrefix]

theorem Contains_cons (c : Nat) (cs sub : GoString) :
    Contains (c :: cs) sub = (HasPrefix (c :: cs) sub || Contains cs sub) := by
  simp only [Contains, Index]
  split_ifs with h
  · simp [h]
  · simp [h]

theorem Contains_iff (s sub : GoString) : Contains s sub = true ↔ sub <:+: s := by
  induction s with
  | nil =>
    simp only [Contains, Index]
    split_ifs with h
    · simp [h]
    · simp [h]
  | cons c cs ih =>
    rw [Contains_cons, Bool.or_eq_true, ih, HasPrefix_iff, List.infix_cons_iff]

theorem Index_isSome (s sub : GoString) : (Index s sub).isSome = Contains s sub := rfl

theorem Index_eq_none_iff (s sub : GoString) : Index s sub = none ↔ Contains s sub = false := by
  simp [Contains]

theorem Contains_of_HasPrefix (s pre : GoString) (h : HasPrefix s pre = true) :
    Contains s pre = true := by
  rw [Contains_iff]
  exact ((HasPrefix_iff s pre).mp h).isInfix

theorem Contains_mono (s sub X Y : GoString) (h : Contains s sub = true) :
    Contains (X ++ s ++ Y) sub = true := by
  rw [Contains_iff] at h ⊢
  exact h.trans ⟨X, Y, rfl⟩

theorem marker_eq : marker = [0x75, 0x73, 0x65, 0x3A] := by decide

theorem bytes_Use : bytes "Use:" = [0x55, 0x73, 0x65, 0x3A] := by decide

theorem HasPrefix_cons_cons (a b : Nat) (s pre : GoString) :
    HasPrefix (a :: s) (b :: pre) = (b == a && HasPrefix s pre) := by
  simp [HasPrefix, List.isPrefixOf]

theorem HasPrefix_nil (s : GoString) : HasPrefix s [] = true := by
  simp [HasPrefix]

theorem HasPrefix_nil_cons (b : Nat) (pre : GoString) : HasPrefix [] (b :: pre) = false := by
  simp [HasPrefix, List.isPrefixOf]

/-- The marker does not overlap itself: its first occurrence in `u ++ "use:" ++ x`
is at `len(u)` when `u` holds none. -/
theorem Index_first_marker (u x : GoString) (hu : Contains u marker = false) :
    Index (u ++ marker ++ x) marker = some u.length := by
  rw [marker_eq] at hu ⊢
  induction u with
  | nil =>
    simp [Index, HasPrefix_cons_cons, HasPrefix_nil]
  | cons c u ih =>
    rw [Contains_cons] at hu
    simp only [Bool.or_eq_false_iff] at hu
    have hp : HasPrefix (c :: u ++ [0x75, 0x73, 0x65, 0x3A] ++ x) [0x75, 0x73, 0x65, 0x3A]
        = false := by
      have h1 := hu.1
      rcases u with _ | ⟨d, _ | ⟨e, _ | ⟨g, rest⟩⟩⟩
      · simp [HasPrefix_cons_cons, HasPrefix_nil]
      · simp [HasPrefix_cons_cons, HasPrefix_nil]
      · simp [HasPrefix_cons_cons, HasPrefix_nil]
      · simp only [List.nil_append, List.cons_append, HasPrefix_cons_cons, HasPrefix_nil] at h1 ⊢
        exact h1
    simp only [List.cons_append, List.append_assoc] at hp ⊢
    rw [Index, hp]
    have := ih hu.2
    simp only [List.append_assoc, List.cons_append, List.nil_append] at this
    simp [this]

theorem Index_zero_of_HasPrefix (s sub : GoString) (h : HasPrefix s sub = true) :
    Index s sub = some 0 := by
  cases s with
  | nil =>
    have : sub = [] := by simpa [HasPrefix] using h
    simp [Index, this]
  | cons c cs => simp [Index, h]

/-! ## Lemmas on `utf8.DecodeLastRuneInString` and `strings.TrimSpace` -/

theorem decodeRune_width_le_four (s : GoString) : (decodeRune s).2 ≤ 4 := by
  cases s with
  | nil => simp [decodeRune]
  | cons b rest =>
    simp only [decodeRune]
    repeat' split
    all_goals simp

theorem lastCheck_space (d : Nat × Nat) (n : Nat) (h : isSpace (lastCheck d n).1 = true) :
    d.2 = n ∧ lastCheck d n = d := by
  unfold lastCheck at h ⊢
  split_ifs at h ⊢ with h1
  · exact ⟨h1, rfl⟩
  · simp [isSpace_RuneError] at h

/-- When the last rune is white space, `DecodeLastRuneInString` has decoded a
whole suffix `L` of the string. -/
theorem decodeLast_space (rs : GoString) (h : isSpace (decodeLastRuneRev rs).1 = true) :
    ∃ L rest, rs = L.reverse ++ rest ∧ L ≠ [] ∧ decodeRune L = decodeLastRuneRev rs ∧
      (decodeLastRuneRev rs).2 = L.length := by
  have fin : ∀ (L rest : GoString) (n : Nat), rs = L.reverse ++ rest → L ≠ [] → L.length = n →
      decodeLastRuneRev rs = lastCheck (decodeRune L) n →
      ∃ L rest, rs = L.reverse ++ rest ∧ L ≠ [] ∧ decodeRune L = decodeLastRuneRev rs ∧
        (decodeLastRuneRev rs).2 = L.length := by
    intro L rest n h1 h2 h3 h4
    rw [h4] at h
    obtain ⟨h5, h6⟩ := lastCheck_space _ _ h
    exact ⟨L, rest, h1, h2, by rw [h4, h6], by rw [h4, h6, h5, h3]⟩
  rcases rs with _ | ⟨b, rest⟩
  · simp [decodeLastRuneRev, isSpace_RuneError] at h
  by_cases hb : b < 0x80
  · exact ⟨[b], rest, by simp, by simp, by simp [decodeLastRuneRev, hb, decodeRune],
      by simp [decodeLastRuneRev, hb]⟩
  rcases rest with _ | ⟨c1, rest1⟩
  · exact fin [b] [] 1 (by simp) (by simp) rfl (by simp [decodeLastRuneRev, hb])
  by_cases h1 : runeStart c1 = true
  · exact fin [c1, b] rest1 2 (by simp) (by simp) rfl (by simp [decodeLastRuneRev, hb, h1])
  rcases rest1 with _ | ⟨c2, rest2⟩
  · exact fin [c1, b] [] 2 (by simp) (by simp) rfl (by simp [decodeLastRuneRev, hb, h1])
  by_cases h2 : runeStart c2 = true
  · exact fin [c2, c1, b] rest2 3 (by simp) (by simp) rfl
      (by simp [decodeLastRuneRev, hb, h1, h2])
  rcases rest2 with _ | ⟨c3, rest3⟩
  · exact fin [c2, c1, b] [] 3 (by simp) (by simp) rfl
      (by simp [decodeLastRuneRev, hb, h1, h2])
  by_cases h3 : runeStart c3 = true
  · exact fin [c3, c2, c1, b] rest3 4 (by simp) (by simp) rfl
      (by simp [decodeLastRuneRev, hb, h1, h2, h3])
  rcases rest3 with _ | ⟨c4, rest4⟩
  · exact fin [c3, c2, c1, b] [] 4 (by simp) (by simp) rfl
      (by simp [decodeLastRuneRev, hb, h1, h2, h3])
  · exact fin [c4, c3, c2, c1, b] rest4 5 (by simp) (by simp) rfl
      (by simp [decodeLastRuneRev, hb, h1, h2, h3])

theorem runeStart_of_space (L : GoString) (h : isSpace (decodeRune L).1 = true) :
    ∃ c L1, L = c :: L1 ∧ runeStart c = true := by
  cases L with
  | nil => simp [decodeRune, isSpace_RuneError] at h
  | cons c L1 =>
    refine ⟨c, L1, rfl, ?_⟩
    by_contra hc
    have hc2 : isCont c = true := by simpa [runeStart] using hc
    rw [decodeRune_cont_head c L1 hc2] at h
    simp [isSpace_RuneError] at h

theorem trimLeftSpace_mapRunes (f : Nat → Nat) (n : Nat) (s : GoString) :
    ∃ X, mapRunes f 0 s = X ++ mapRunes f 0 (trimLeftSpace n s) := by
  induction n generalizing s with
  | zero => exact ⟨[], rfl⟩
  | succ n ih =>
    cases s with
    | nil => exact ⟨[], rfl⟩
    | cons b rest =>
      simp only [trimLeftSpace]
      split_ifs with h
      · obtain ⟨X, hX⟩ := ih ((b :: rest).drop (decodeRune (b :: rest)).2)
        exact ⟨encodeRune (f (decodeRune (b :: rest)).1) ++ X, by
          rw [mapRunes_step, hX, List.append_assoc]⟩
      · exact ⟨[], rfl⟩

theorem trimRightSpaceRev_mapRunes (f : Nat → Nat) (n : Nat) (rs : GoString) :
    ∃ Y, mapRunes f 0 rs.reverse = mapRunes f 0 (trimRightSpaceRev n rs).reverse ++ Y := by
  induction n generalizing rs with
  | zero => exact ⟨[], by simp [trimRightSpaceRev]⟩
  | succ n ih =>
    cases rs with
    | nil => exact ⟨[], by simp [trimRightSpaceRev]⟩
    | cons b rest =>
      simp only [trimRightSpaceRev]
      split_ifs with h
      · obtain ⟨L, rest2, h1, h2, h3, h4⟩ := decodeLast_space (b :: rest) h
        rw [h4, h1, List.drop_left' (by simp)]
        rw [← h3] at h
        obtain ⟨c, L1, rfl, hc⟩ := runeStart_of_space L h
        obtain ⟨Y, hY⟩ := ih rest2
        refine ⟨Y ++ mapRunes f 0 (c :: L1), ?_⟩
        rw [List.reverse_append, List.reverse_reverse, mapRunes_append_start f _ _ c hc, hY,
          List.append_assoc]
      · exact ⟨[], by simp⟩

theorem TrimSpace_mapRunes (f : Nat → Nat) (s : GoString) :
    ∃ X Y, mapRunes f 0 s = X ++ mapRunes f 0 (TrimSpace s) ++ Y := by
  obtain ⟨X, hX⟩ := trimLeftSpace_mapRunes f s.length s
  obtain ⟨Y, hY⟩ := trimRightSpaceRev_mapRunes f (trimLeftSpace s.length s).length
    (trimLeftSpace s.length s).reverse
  rw [List.reverse_reverse] at hY
  exact ⟨X, Y, by rw [hX, hY, List.append_assoc]; rfl⟩

/-- Trimming a line cannot create a marker: what the lower-cased trimmed line
contains, the lower-cased line contains. -/
theorem Contains_ToLower_TrimSpace (tbl : Nat → Nat) (s sub : GoString)
    (h : Contains (ToLower tbl (TrimSpace s)) sub = true) :
    Contains (ToLower tbl s) sub = true := by
  rw [ToLower_eq_mapRunes] at h ⊢
  obtain ⟨X, Y, hXY⟩ := TrimSpace_mapRunes (unicodeToLower tbl) s
  rw [hXY]
  exact Contains_mono _ _ X Y h

/-! ## Lemmas on the line scan -/

theorem HasPrefix_Use_lower (tbl : Nat → Nat) (line : GoString)
    (h : HasPrefix line (bytes "Use:") = true) : HasPrefix (ToLower tbl line) marker = true := by
  rw [HasPrefix_iff] at h ⊢
  obtain ⟨rest, rfl⟩ := h
  rw [ToLower_ascii_append tbl _ rest (by rw [bytes_Use]; decide)]
  exact ⟨ToLower tbl rest, by rw [bytes_Use, marker_eq]; rfl⟩

/-- The three rules of the line scan fire on a line exactly when its
lower-cased trimmed form contains the marker. -/
theorem scanLines_cons_of_not_Contains (tbl : Nat → Nat) (l : GoString) (lines : List GoString)
    (h : Contains (ToLower tbl (TrimSpace l)) marker = false) :
    scanLines tbl (l :: lines) = scanLines tbl lines := by
  have h1 : HasPrefix (ToLower tbl (TrimSpace l)) marker = false := by
    by_contra hc
    rw [Contains_of_HasPrefix _ _ (by simpa using hc)] at h
    cases h
  have h2 : HasPrefix (TrimSpace l) (bytes "Use:") = false := by
    by_contra hc
    rw [HasPrefix_Use_lower tbl _ (by simpa using hc)] at h1
    cases h1
  have h3 : Index (ToLower tbl (TrimSpace l)) marker = none := (Index_eq_none_iff _ _).mpr h
  simp [scanLines, h1, h2, h3]

theorem scanLines_none_matched (tbl : Nat → Nat) (lines : List GoString)
    (h : ∀ l ∈ lines, Contains (ToLower tbl (TrimSpace l)) marker = false) :
    scanLines tbl lines = some [] := by
  induction lines with
  | nil => rfl
  | cons l lines ih =>
    rw [scanLines_cons_of_not_Contains tbl l lines (h l (by simp))]
    exact ih fun l2 hl2 => h l2 (by simp [hl2])

theorem ParseCommand_of_scan_nil (tbl : Nat → Nat) (answer : GoString)
    (h : scanLines tbl (Split 10 answer) = some []) : ParseCommand tbl answer = .noCommand := by
  unfold ParseCommand
  split_ifs
  · simp [h]
  · rfl

theorem Think_ok {σ : Type} (be : Backend σ) (a : Agent σ) (w w1 : σ)
    (prompt reply : GoString) (more : List GoString)
    (h : be w a.Model prompt = (.ok (reply :: more), w1)) :
    Think be a w prompt = (some (reply, none), w1) := by
  simp [Think, h]

/-! ## Lemmas on `strings.Split` -/

theorem Split_of_not_mem (sep : Nat) (s : GoString) (h : sep ∉ s) : Split sep s = [s] := by
  induction s with
  | nil => rfl
  | cons c cs ih =>
    have hc : ¬ c = sep := fun e => h (by simp [e])
    have hcs : sep ∉ cs := fun e => h (by simp [e])
    simp [Split, hc, ih hcs]

theorem Split_append_sep (sep : Nat) (l0 rest : GoString) (h : sep ∉ l0) :
    Split sep (l0 ++ sep :: rest) = l0 :: Split sep rest := by
  induction l0 with
  | nil => simp [Split]
  | cons c cs ih =>
    have hc : ¬ c = sep := fun e => h (by simp [e])
    have hcs : sep ∉ cs := fun e => h (by simp [e])
    simp [Split, hc, ih hcs]

theorem exists_first_sep (sep : Nat) (s : GoString) :
    sep ∉ s ∨ ∃ l0 rest, s = l0 ++ sep :: rest ∧ sep ∉ l0 := by
  induction s with
  | nil => exact Or.inl (by simp)
  | cons c cs ih =>
    by_cases hc : c = sep
    · exact Or.inr ⟨[], cs, by simp [hc], by simp⟩
    · rcases ih with h | ⟨l0, rest, h1, h2⟩
      · exact Or.inl (by simp [h, Ne.symm hc])
      · exact Or.inr ⟨c :: l0, rest, by simp [h1], by simp [h2, Ne.symm hc]⟩

theorem Split_mapRunes_aux (f : Nat → Nat) (n : Nat) :
    ∀ s : GoString, s.length ≤ n → ∀ l ∈ Split 10 s,
      ∃ X Y, mapRunes f 0 s = X ++ mapRunes f 0 l ++ Y := by
  induction n with
  | zero =>
    intro s hs l hl
    have : s = [] := List.length_eq_zero.mp (by omega)
    subst this
    simp only [Split, List.mem_singleton] at hl
    subst hl
    exact ⟨[], [], by simp⟩
  | succ n ih =>
    intro s hs l hl
    rcases exists_first_sep 10 s with h | ⟨l0, rest, rfl, h0⟩
    · rw [Split_of_not_mem 10 s h, List.mem_singleton] at hl
      subst hl
      exact ⟨[], [], by simp⟩
    · rw [Split_append_sep 10 l0 rest h0, List.mem_cons] at hl
      have hsplit := mapRunes_append_start f l0 rest 10 (by decide)
      rcases hl with rfl | hl
      · exact ⟨[], mapRunes f 0 (10 :: rest), by rw [hsplit]; simp⟩
      · obtain ⟨X, Y, hXY⟩ := ih rest (by simp at hs; omega) l hl
        refine ⟨mapRunes f 0 l0 ++ encodeRune (f 10) ++ X, Y, ?_⟩
        rw [hsplit, mapRunes_step, decodeRune_ascii 10 rest (by omega)]
        simp [hXY]

/-- What the lower-cased form of a line of `s` contains, the lower-cased form of
`s` contains. -/
theorem Contains_ToLower_line (tbl : Nat → Nat) (s l sub : GoString) (hl : l ∈ Split 10 s)
    (h : Contains (ToLower tbl l) sub = true) : Contains (ToLower tbl s) sub = true := by
  rw [ToLower_eq_mapRunes] at h ⊢
  obtain ⟨X, Y, hXY⟩ := Split_mapRunes_aux (unicodeToLower tbl) s.length s (Nat.le_refl _) l hl
  rw [hXY]
  exact Contains_mono _ _ X Y h

theorem scanLines_matched (tbl : Nat → Nat) (lines : List GoString) (cmd : GoString)
    (h : scanLines tbl lines = some cmd) (hne : cmd ≠ []) :
    ∃ l ∈ lines, Contains (ToLower tbl (TrimSpace l)) marker = true := by
  by_contra hc
  push_neg at hc
  have := scanLines_none_matched tbl lines (fun l hl => by simpa using hc l hl)
  rw [this] at h
  exact hne (by simpa using h.symm)

/-- A line that yields command text makes the test of line 82 succeed. -/
theorem outer_check_of_scan (tbl : Nat → Nat) (answer cmd : GoString)
    (h : scanLines tbl (Split 10 answer) = some cmd) (hne : cmd ≠ []) :
    (Contains answer marker || Contains (ToLower tbl answer) marker) = true := by
  obtain ⟨l, hl, hc⟩ := scanLines_matched tbl _ cmd h hne
  have := Contains_ToLower_line tbl answer l marker hl (Contains_ToLower_TrimSpace tbl l marker hc)
  simp [this]

/-! ## Lemmas for the format-then-parse round trip -/

theorem lastCheck_ascii (c n : Nat) (rest : GoString) (hc : c < 0x80) (hn : n ≠ 1) :
    lastCheck (decodeRune (c :: rest)) n = (RuneError, 1) := by
  rw [decodeRune_ascii c rest hc]
  simp [lastCheck, Ne.symm hn]

theorem lastCheck_cont (c n : Nat) (rest : GoString) (hc : runeStart c = false) :
    lastCheck (decodeRune (c :: rest)) n = (RuneError, 1) := by
  rw [decodeRune_cont_head c rest (by simpa [runeStart] using hc)]
  simp [lastCheck]

theorem runeStart_ascii (c : Nat) (hc : c < 0x80) : runeStart c = true := by
  simp only [runeStart, isCont, Bool.not_eq_true', Bool.and_eq_false_iff, decide_eq_false_iff_not]
  omega

theorem decodeRune_single (b : Nat) (hb : ¬ b < 0x80) : decodeRune [b] = (RuneError, 1) := by
  simp only [decodeRune, hb, if_false]
  repeat' split
  all_goals rfl

/-- An ASCII byte before the last rune does not change it. -/
theorem decodeLastRuneRev_append_ascii (rs more : GoString) (c : Nat) (hrs : rs ≠ [])
    (hc : c < 0x80) : decodeLastRuneRev (rs ++ c :: more) = decodeLastRuneRev rs := by
  have hs := runeStart_ascii c hc
  rcases rs with _ | ⟨b, rest⟩
  · exact absurd rfl hrs
  by_cases hb : b < 0x80
  · simp [decodeLastRuneRev, hb]
  rcases rest with _ | ⟨c1, rest1⟩
  · simp only [decodeLastRuneRev, hb, if_false, hs, if_true, List.nil_append, List.cons_append]
    rw [lastCheck_ascii c 2 [b] hc (by decide), decodeRune_single b hb]
    rfl
  by_cases h1 : runeStart c1 = true
  · simp [decodeLastRuneRev, hb, h1]
  rcases rest1 with _ | ⟨c2, rest2⟩
  · simp [decodeLastRuneRev, hb, h1, hs, lastCheck_ascii c 3 _ hc,
      lastCheck_cont c1 2 [b] (by simpa using h1)]
  by_cases h2 : runeStart c2 = true
  · simp [decodeLastRuneRev, hb, h1, h2]
  rcases rest2 with _ | ⟨c3, rest3⟩
  · simp [decodeLastRuneRev, hb, h1, h2, hs, lastCheck_ascii c 4 _ hc,
      lastCheck_cont c2 3 _ (by simpa using h2)]
  by_cases h3 : runeStart c3 = true
  · simp [decodeLastRuneRev, hb, h1, h2, h3]
  rcases rest3 with _ | ⟨c4, rest4⟩
  · simp [decodeLastRuneRev, hb, h1, h2, h3, hs, lastCheck_ascii c 5 _ hc,
      lastCheck_cont c3 4 _ (by simpa using h3)]
  · simp [decodeLastRuneRev, hb, h1, h2, h3]

theorem trimLeftSpace_length_le (n : Nat) (s : GoString) :
    (trimLeftSpace n s).length ≤ s.length := by
  induction n generalizing s with
  | zero => simp [trimLeftSpace]
  | succ n ih =>
    cases s with
    | nil => simp [trimLeftSpace]
    | cons b rest =>
      simp only [trimLeftSpace]
      split_ifs with h
      · refine (ih _).trans ?_
        simp
      · exact Nat.le_refl _

theorem trimRightSpaceRev_length_le (n : Nat) (rs : GoString) :
    (trimRightSpaceRev n rs).length ≤ rs.length := by
  induction n generalizing rs with
  | zero => simp [trimRightSpaceRev]
  | succ n ih =>
    cases rs with
    | nil => simp [trimRightSpaceRev]
    | cons b rest =>
      simp only [trimRightSpaceRev]
      split_ifs with h
      · refine (ih _).trans ?_
        simp
      · exact Nat.le_refl _

theorem trimLeftSpace_of_not_space (n : Nat) (s : GoString)
    (h : isSpace (decodeRune s).1 = false) : trimLeftSpace n s = s := by
  cases n with
  | zero => rfl
  | succ n =>
    cases s with
    | nil => rfl
    | cons b rest => simp [trimLeftSpace, h]

theorem trimRightSpaceRev_of_not_space (n : Nat) (rs : GoString)
    (h : isSpace (decodeLastRuneRev rs).1 = false) : trimRightSpaceRev n rs = rs := by
  cases n with
  | zero => rfl
  | succ n =>
    cases rs with
    | nil => rfl
    | cons b rest => simp [trimRightSpaceRev, h]

/-- A string without leading and trailing white space is left as it is. -/
theorem TrimSpace_of_not_space (s : GoString) (h1 : isSpace (decodeRune s).1 = false)
    (h2 : isSpace (decodeLastRune s).1 = false) : TrimSpace s = s := by
  unfold TrimSpace
  simp only [trimLeftSpace_of_not_space _ s h1]
  rw [trimRightSpaceRev_of_not_space _ _ h2, List.reverse_reverse]

/-- A non-empty string that `TrimSpace` leaves as it is has no white space at
either end. -/
theorem not_space_of_TrimSpace (s : GoString) (hs : s ≠ []) (h : TrimSpace s = s) :
    isSpace (decodeRune s).1 = false ∧ isSpace (decodeLastRune s).1 = false := by
  have hlen : ∀ l : GoString, (trimRightSpaceRev l.length l.reverse).reverse.length ≤ l.length := by
    intro l
    rw [List.length_reverse]
    exact (trimRightSpaceRev_length_le _ _).trans (by simp)
  have h1 : isSpace (decodeRune s).1 = false := by
    by_contra hc
    have hc2 : isSpace (decodeRune s).1 = true := by simpa using hc
    obtain ⟨b, rest, rfl⟩ := List.exists_cons_of_ne_nil hs
    have hw := decodeRune_width_pos b rest
    have : (TrimSpace (b :: rest)).length < (b :: rest).length := by
      unfold TrimSpace
      refine Nat.lt_of_le_of_lt (hlen _) ?_
      simp only [List.length_cons, trimLeftSpace, hc2, if_true]
      refine Nat.lt_of_le_of_lt (trimLeftSpace_length_le _ _) ?_
      simp only [List.length_drop, List.length_cons]
      omega
    rw [h] at this
    exact Nat.lt_irrefl _ this
  refine ⟨h1, ?_⟩
  by_contra hc
  have hc2 : isSpace (decodeLastRuneRev s.reverse).1 = true := by simpa [decodeLastRune] using hc
  obtain ⟨L, rest, e1, e2, e3, e4⟩ := decodeLast_space s.reverse hc2
  have hL : 1 ≤ L.length := by
    cases L with
    | nil => exact absurd rfl e2
    | cons x xs => simp
  have hrne : s.reverse ≠ [] := by simpa using hs
  obtain ⟨b, rest2, e5⟩ := List.exists_cons_of_ne_nil hrne
  have : (TrimSpace s).length < s.length := by
    unfold TrimSpace
    simp only [trimLeftSpace_of_not_space _ s h1]
    rw [List.length_reverse]
    obtain ⟨n, hn⟩ : ∃ n, s.length = n + 1 := by
      cases s with
      | nil => exact absurd rfl hs
      | cons x xs => exact ⟨xs.length, rfl⟩
    rw [hn]
    have hstep : trimRightSpaceRev (n + 1) s.reverse =
        trimRightSpaceRev n (s.reverse.drop (decodeLastRuneRev s.reverse).2) := by
      rw [e5] at hc2 ⊢
      simp [trimRightSpaceRev, hc2]
    rw [hstep]
    refine Nat.lt_of_le_of_lt (trimRightSpaceRev_length_le _ _) ?_
    rw [List.length_drop, List.length_reverse, e4]
    omega
  rw [h] at this
  exact Nat.lt_irrefl _ this

theorem trimLeftSpace_ascii_append (p T : GoString) (n : Nat) (hp : ∀ c ∈ p, c < 0x80)
    (hn : p.length ≤ n) (hT : isSpace (decodeRune T).1 = false) :
    trimLeftSpace n (p ++ T) = p.dropWhile (fun c => isSpace c) ++ T := by
  induction p generalizing n with
  | nil => simpa using trimLeftSpace_of_not_space n T hT
  | cons c p ih =>
    have hc : c < 0x80 := hp c (by simp)
    obtain ⟨m, rfl⟩ : ∃ m, n = m + 1 := ⟨n - 1, by simp at hn; omega⟩
    have hd : decodeRune (c :: (p ++ T)) = (c, 1) := decodeRune_ascii c _ hc
    by_cases hs : isSpace c = true
    · simp only [List.cons_append, trimLeftSpace, hd, hs, if_true, List.drop_succ_cons,
        List.drop_zero, List.dropWhile_cons]
      exact ih m (fun x hx => hp x (by simp [hx])) (by simp at hn; omega)
    · simp [trimLeftSpace, hd, hs, List.dropWhile_cons]

/-- `TrimSpace` on an ASCII prefix followed by text that starts with a rune that
is no white space and ends in `" " ++ a`, `a` without trailing white space. -/
theorem TrimSpace_core (p T1 a : GoString) (hp : ∀ c ∈ p, c < 0x80)
    (hT : isSpace (decodeRune (T1 ++ 32 :: a)).1 = false) (ha : a ≠ [])
    (hlast : isSpace (decodeLastRune a).1 = false) :
    TrimSpace (p ++ (T1 ++ 32 :: a)) = p.dropWhile (fun c => isSpace c) ++ (T1 ++ 32 :: a) := by
  unfold TrimSpace
  have hl : trimLeftSpace (p ++ (T1 ++ 32 :: a)).length (p ++ (T1 ++ 32 :: a)) =
      p.dropWhile (fun c => isSpace c) ++ (T1 ++ 32 :: a) :=
    trimLeftSpace_ascii_append p _ _ hp (by rw [List.length_append]; omega) hT
  simp only [hl]
  have hrev : (p.dropWhile (fun c => isSpace c) ++ (T1 ++ 32 :: a)).reverse =
      a.reverse ++ 32 :: (p.dropWhile (fun c => isSpace c) ++ T1).reverse := by
    simp
  have hd : decodeLastRuneRev (a.reverse ++ 32 :: (p.dropWhile (fun c => isSpace c) ++ T1).reverse) =
      decodeLastRuneRev a.reverse :=
    decodeLastRuneRev_append_ascii _ _ 32 (by simpa using ha) (by omega)
  rw [hrev, trimRightSpaceRev_of_not_space _ _ (by rw [hd]; exact hlast), ← hrev,
    List.reverse_reverse]

theorem isCont_of_accept (b0 b1 : Nat) (h1 : acceptLo b0 ≤ b1) (h2 : b1 ≤ acceptHi b0) :
    isCont b1 = true := by
  have := acceptLo_ge b0
  have := acceptHi_le b0
  simp only [isCont, Bool.and_eq_true, decide_eq_true_eq]
  omega

/-- The bytes of a rune after its first are continuation bytes. -/
theorem decodeRune_conts (b : Nat) (rest : GoString) :
    ∀ c ∈ rest.take ((decodeRune (b :: rest)).2 - 1), isCont c = true := by
  simp only [decodeRune]
  repeat' split
  all_goals simp_all
  all_goals first
    | (obtain ⟨⟨h1, h2⟩, h3⟩ := ‹_ ∧ isCont _ = true›
       exact isCont_of_accept _ _ h1 h2)
    | (obtain ⟨⟨⟨h1, h2⟩, h3⟩, h4⟩ := ‹_ ∧ isCont _ = true›
       exact isCont_of_accept _ _ h1 h2)

/-- Reading rune by rune meets every rune start: a string that `ContainsFunc`
finds free of white space has no white-space rune at any byte offset. -/
theorem containsSpace_false_at (s : GoString) (k : Nat) (h : containsSpace k s = false)
    (hk : ∀ c ∈ s.take k, isCont c = true) (i : Nat) (hi : i < s.length) :
    isSpace (decodeRune (s.drop i)).1 = false := by
  induction s generalizing k i with
  | nil => simp at hi
  | cons b rest ih =>
    cases k with
    | zero =>
      simp only [containsSpace, Bool.or_eq_false_iff] at h
      cases i with
      | zero => exact h.1
      | succ i =>
        exact ih _ h.2 (decodeRune_conts b rest) i (by simpa using hi)
    | succ k =>
      simp only [containsSpace] at h
      cases i with
      | zero =>
        have hb : isCont b = true := hk b (by simp)
        simp [decodeRune_cont_head b rest hb, isSpace_RuneError]
      | succ i =>
        exact ih k h (fun c hc => hk c (by simp [hc])) i (by simpa using hi)

theorem containsSpace_false_ascii (t : GoString) (h : containsSpace 0 t = false) (c : Nat)
    (hc : c ∈ t) (hlt : c < 0x80) : isSpace c = false := by
  obtain ⟨l1, l2, rfl⟩ := List.mem_iff_append.mp hc
  have := containsSpace_false_at _ 0 h (by simp) l1.length (by simp)
  rwa [List.drop_left, decodeRune_ascii c l2 hlt] at this

theorem containsSpace_false_first (t : GoString) (h : containsSpace 0 t = false) :
    isSpace (decodeRune t).1 = false := by
  cases t with
  | nil => simp [decodeRune, isSpace_RuneError]
  | cons b rest => exact containsSpace_false_at _ 0 h (by simp) 0 (by simp)

theorem containsSpace_false_last (t : GoString) (h : containsSpace 0 t = false) :
    isSpace (decodeLastRune t).1 = false := by
  by_contra hc
  have hc2 : isSpace (decodeLastRuneRev t.reverse).1 = true := by simpa [decodeLastRune] using hc
  obtain ⟨L, rest, e1, e2, e3, -⟩ := decodeLast_space t.reverse hc2
  have ht : t = rest.reverse ++ L := by
    have := congrArg List.reverse e1
    simpa using this
  have hL : 0 < L.length := List.length_pos.mpr e2
  have := containsSpace_false_at t 0 h (by simp) rest.length (by rw [ht]; simp; omega)
  rw [ht, show rest.length = rest.reverse.length by simp, List.drop_left, e3, hc2] at this
  cases this

theorem TrimSpace_of_containsSpace_false (t : GoString) (h : containsSpace 0 t = false) :
    TrimSpace t = t :=
  TrimSpace_of_not_space t (containsSpace_false_first t h) (containsSpace_false_last t h)

theorem indexOf_append (l r : GoString) (x : Nat) (h : x ∉ l) :
    (l ++ x :: r).indexOf? x = some l.length := by
  induction l with
  | nil => simp [List.indexOf?, List.findIdx?]
  | cons c l ih =>
    have hc : ¬ c = x := fun e => h (by simp [e])
    have hl : x ∉ l := fun e => h (by simp [e])
    have := ih hl
    simp only [List.indexOf?] at this ⊢
    simp [List.findIdx?_cons, hc, this]

theorem SplitN2_append (l r : GoString) (x : Nat) (h : x ∉ l) :
    SplitN2 x (l ++ x :: r) = [l, r] := by
  simp [SplitN2, indexOf_append l r x h]

/-- The three rules of the line scan amount to the third: the command text is
what follows the first occurrence of the marker in the lower-cased line. -/
theorem scanLines_cons_of_Index (tbl : Nat → Nat) (l : GoString) (lines : List GoString)
    (idx : Nat) (h : Index (ToLower tbl (TrimSpace l)) marker = some idx) :
    scanLines tbl (l :: lines) = (sliceFrom (TrimSpace l) (idx + 4)).map TrimSpace := by
  by_cases h1 : HasPrefix (ToLower tbl (TrimSpace l)) marker = true
  · rw [Index_zero_of_HasPrefix _ _ h1] at h
    cases h
    simp [scanLines, h1]
  · by_cases h2 : HasPrefix (TrimSpace l) (bytes "Use:") = true
    · exact absurd (HasPrefix_Use_lower tbl _ h2) h1
    · simp [scanLines, h1, h2, h]

theorem asciiLower_ge (c : Nat) (h : asciiLower c < 0x80) : c < 0x80 := by
  unfold asciiLower at h
  split_ifs at h with h1
  · omega
  · exact h

theorem Contains_suffix (s u sub : GoString) (hs : u <:+ s) (h : Contains s sub = false) :
    Contains u sub = false := by
  by_contra hc
  have hc2 : Contains u sub = true := by simpa using hc
  rw [Contains_iff] at hc2
  have : Contains s sub = true := (Contains_iff s sub).mpr (hc2.trans hs.isInfix)
  rw [h] at this
  cases this

/-! ## The registry -/

theorem mapGet_mapSet {σ : Type} (m : ToolMap σ) (k n : GoString) (v : Tool σ) :
    mapGet (mapSet m k v) n = if k = n then some v else mapGet m n := by
  induction m with
  | nil => simp [mapSet, mapGet]
  | cons kv m ih =>
    obtain ⟨k0, v0⟩ := kv
    by_cases h0 : k0 = k
    · subst h0
      by_cases h1 : k0 = n <;> simp [mapSet, mapGet, h1]
    · by_cases h1 : k0 = n
      · subst h1
        have : ¬ k = k0 := fun h => h0 h.symm
        simp [mapSet, mapGet, h0, this]
      · simp [mapSet, mapGet, h0, h1, ih]

theorem mapGet_foldl {σ : Type} (tools : List (Tool σ)) (m : ToolMap σ) (n : GoString) :
    mapGet (tools.foldl (fun toolMap t => mapSet toolMap t.Name t) m) n =
      ((tools.reverse.find? fun t => decide (t.Name = n)).orElse fun _ => mapGet m n) := by
  induction tools generalizing m with
  | nil => simp
  | cons t tools ih =>
    rw [List.foldl_cons, ih, mapGet_mapSet]
    simp only [List.reverse_cons, List.find?_append]
    cases h : tools.reverse.find? fun t => decide (t.Name = n) with
    | some u => simp
    | none =>
      by_cases ht : t.Name = n <;> simp [ht, List.find?]

theorem find_of_nodup {σ : Type} (l : List (Tool σ)) (hnd : (l.map Tool.Name).Nodup)
    (t : Tool σ) (ht : t ∈ l) :
    (l.find? fun u => decide (u.Name = t.Name)) = some t := by
  induction l with
  | nil => simp at ht
  | cons u l ih =>
    rw [List.map_cons, List.nodup_cons] at hnd
    rcases List.mem_cons.mp ht with rfl | hmem
    · simp [List.find?]
    · have hne : ¬ u.Name = t.Name := by
        intro h
        exact hnd.1 (h ▸ List.mem_map_of_mem Tool.Name hmem)
      simp [List.find?, hne, ih hnd.2 hmem]

/-- C4.  For every list of tools passed to `NewAgent` and every name `n`, the
registry maps `n` to the last tool of the list whose `Name()` is exactly `n`
(last write wins) and has no entry for `n` when the list has no such tool; when
the names in the list are pairwise distinct, every tool of the list is found
under its own name. -/
theorem NewAgent_registry {σ : Type} (model : GoString) (tools : List (Tool σ)) :
    (∀ n : GoString, mapGet (NewAgent model tools).Tools n =
        tools.reverse.find? fun t => decide (t.Name = n)) ∧
    ((tools.map Tool.Name).Nodup →
        ∀ t ∈ tools, mapGet (NewAgent model tools).Tools t.Name = some t) := by
  have key : ∀ n : GoString, mapGet (NewAgent model tools).Tools n =
      tools.reverse.find? fun t => decide (t.Name = n) := by
    intro n
    simp [NewAgent, mapGet_foldl, mapGet]
  refine ⟨key, ?_⟩
  intro hnd t ht
  rw [key]
  apply find_of_nodup
  · rw [List.map_reverse]
    exact List.nodup_reverse.mpr hnd
  · exact List.mem_reverse.mpr ht

/-! ## The loop -/

theorem runLoop_of_continues {σ : Type} (tbl : Nat → Nat) (be : Backend σ) (a : Agent σ)
    (k n : Nat) (st stk : LoopState σ) (h : continues tbl be a k st = some stk) :
    runLoop tbl be a (k + n) st = runLoop tbl be a n stk := by
  induction k generalizing st with
  | zero =>
    simp only [continues, Option.some.injEq] at h
    subst h
    simp
  | succ k ih =>
    rw [show k + 1 + n = (k + n) + 1 by omega]
    simp only [continues] at h
    simp only [runLoop]
    cases hb : loopBody tbl be a st with
    | next st1 =>
      rw [hb] at h
      exact ih st1 h
    | stop out st1 =>
      rw [hb] at h
      simp at h

theorem runLoop_eq_none_iff {σ : Type} (tbl : Nat → Nat) (be : Backend σ) (a : Agent σ)
    (fuel : Nat) (st : LoopState σ) :
    runLoop tbl be a fuel st = none ↔ (continues tbl be a fuel st).isSome = true := by
  induction fuel generalizing st with
  | zero => simp [runLoop, continues]
  | succ k ih =>
    simp only [runLoop, continues]
    cases hb : loopBody tbl be a st with
    | next st1 => exact ih st1
    | stop out st1 => simp

theorem runLoop_eq_some_iff {σ : Type} (tbl : Nat → Nat) (be : Backend σ) (a : Agent σ)
    (fuel : Nat) (st : LoopState σ) (res : Outcome × LoopState σ) :
    runLoop tbl be a fuel st = some res ↔
      ∃ k stk, k < fuel ∧ continues tbl be a k st = some stk ∧
        loopBody tbl be a stk = .stop res.1 res.2 := by
  induction fuel generalizing st with
  | zero => simp [runLoop]
  | succ n ih =>
    simp only [runLoop]
    cases hb : loopBody tbl be a st with
    | next st1 =>
      simp only []
      rw [ih st1]
      constructor
      · rintro ⟨k, stk, hk, hc, hl⟩
        exact ⟨k + 1, stk, by omega, by simp [continues, hb, hc], hl⟩
      · rintro ⟨k, stk, hk, hc, hl⟩
        cases k with
        | zero =>
          simp only [continues, Option.some.injEq] at hc
          subst hc
          rw [hb] at hl
          cases hl
        | succ k =>
          simp only [continues, hb] at hc
          exact ⟨k, stk, by omega, hc, hl⟩
    | stop out st1 =>
      simp only [Option.some.injEq]
      constructor
      · rintro rfl
        exact ⟨0, st, by omega, rfl, hb⟩
      · rintro ⟨k, stk, hk, hc, hl⟩
        cases k with
        | zero =>
          simp only [continues, Option.some.injEq] at hc
          subst hc
          rw [hb] at hl
          cases hl
          rfl
        | succ k =>
          simp [continues, hb] at hc

theorem loopBody_think_error {σ : Type} (tbl : Nat → Nat) (be : Backend σ) (a : Agent σ)
    (st : LoopState σ) (reply : GoString) (err : GoError) (w : σ)
    (h : Think be a st.world st.prompt = (some (reply, some err), w)) :
    loopBody tbl be a st = .stop (.returned (some err))
      { prompt := st.prompt, world := w, trace := st.trace ++ [.think st.prompt] } := by
  simp [loopBody, h]

theorem loopBody_think_ok {σ : Type} (tbl : Nat → Nat) (be : Backend σ) (a : Agent σ)
    (st : LoopState σ) (reply : GoString) (w : σ)
    (h : Think be a st.world st.prompt = (some (reply, none), w)) :
    loopBody tbl be a st =
      match ParseCommand tbl (TrimSpace reply) with
      | .panicked => .stop .panicked
          { prompt := st.prompt, world := w,
            trace := st.trace ++ [.think st.prompt, .agentSays (TrimSpace reply)] }
      | .noCommand => .stop (.returned none)
          { prompt := st.prompt, world := w,
            trace := st.trace ++ [.think st.prompt, .agentSays (TrimSpace reply)] ++
              [.finalAnswer (TrimSpace reply)] }
      | .malformed => .next
          { prompt := st.prompt, world := w,
            trace := st.trace ++ [.think st.prompt, .agentSays (TrimSpace reply)] ++
              [.invalidFormat] }
      | .command toolName input => .next
          (dispatch a st.prompt w
            (st.trace ++ [.think st.prompt, .agentSays (TrimSpace reply)]) toolName input) := by
  simp only [loopBody, h]

theorem loopBody_think_panic {σ : Type} (tbl : Nat → Nat) (be : Backend σ) (a : Agent σ)
    (st : LoopState σ) (w : σ) (h : Think be a st.world st.prompt = (none, w)) :
    loopBody tbl be a st = .stop .panicked
      { prompt := st.prompt, world := w, trace := st.trace ++ [.think st.prompt] } := by
  simp [loopBody, h]

theorem dispatch_unknown {σ : Type} (a : Agent σ) (prompt : GoString) (w : σ)
    (tr : List Event) (toolName input : GoString) (h : mapGet a.Tools toolName = none) :
    dispatch a prompt w tr toolName input =
      { prompt := prompt, world := w,
        trace := tr ++ [.usingTool toolName input, .unknownTool toolName] } := by
  simp [dispatch, h]

theorem dispatch_error {σ : Type} (a : Agent σ) (prompt : GoString) (w w1 : σ)
    (tr : List Event) (toolName input out : GoString) (tool : Tool σ) (err : GoError)
    (h : mapGet a.Tools toolName = some tool)
    (hx : tool.Execute w input = ((out, some err), w1)) :
    dispatch a prompt w tr toolName input =
      { prompt := prompt, world := w1,
        trace := tr ++ [.usingTool toolName input, .execute toolName input, .toolError err] } := by
  simp [dispatch, h, hx]

theorem dispatch_ok {σ : Type} (a : Agent σ) (prompt : GoString) (w w1 : σ)
    (tr : List Event) (toolName input out : GoString) (tool : Tool σ)
    (h : mapGet a.Tools toolName = some tool)
    (hx : tool.Execute w input = ((out, none), w1)) :
    dispatch a prompt w tr toolName input =
      { prompt := prompt ++ (bytes "\nTool " ++ toolName ++ bytes " returned: " ++ out ++
          bytes "\nContinue reasoning..."),
        world := w1,
        trace := tr ++ [.usingTool toolName input, .execute toolName input] } := by
  simp [dispatch, h, hx]

theorem dispatch_trace {σ : Type} (a : Agent σ) (prompt : GoString) (w : σ)
    (tr : List Event) (toolName input : GoString) :
    ∃ more, (dispatch a prompt w tr toolName input).trace = tr ++ more := by
  cases h : mapGet a.Tools toolName with
  | none => exact ⟨_, by rw [dispatch_unknown a prompt w tr toolName input h]⟩
  | some tool =>
    rcases hx : tool.Execute w input with ⟨⟨out, _ | e⟩, w1⟩
    · exact ⟨_, by rw [dispatch_ok a prompt w w1 tr toolName input out tool h hx]⟩
    · exact ⟨_, by rw [dispatch_error a prompt w w1 tr toolName input out tool e h hx]⟩

/-- Every pass through the loop body starts with a call of `Think` on the
current prompt. -/
theorem loopBody_calls_Think {σ : Type} (tbl : Nat → Nat) (be : Backend σ) (a : Agent σ)
    (st : LoopState σ) :
    ∃ tr, (loopBody tbl be a st).state.trace = st.trace ++ .think st.prompt :: tr := by
  rcases hT : Think be a st.world st.prompt with ⟨r, w⟩
  rcases r with _ | ⟨reply, _ | err⟩
  · exact ⟨[], by rw [loopBody_think_panic tbl be a st w hT]; rfl⟩
  · rw [loopBody_think_ok tbl be a st reply w hT]
    cases ParseCommand tbl (TrimSpace reply) with
    | panicked => exact ⟨[.agentSays (TrimSpace reply)], by simp [Step.state]⟩
    | noCommand => exact ⟨[.agentSays (TrimSpace reply), .finalAnswer (TrimSpace reply)],
        by simp [Step.state]⟩
    | malformed => exact ⟨[.agentSays (TrimSpace reply), .invalidFormat], by simp [Step.state]⟩
    | command toolName input =>
      obtain ⟨more, hm⟩ := dispatch_trace a st.prompt w
        (st.trace ++ [.think st.prompt, .agentSays (TrimSpace reply)]) toolName input
      exact ⟨.agentSays (TrimSpace reply) :: more, by simp [Step.state, hm]⟩
  · exact ⟨[], by rw [loopBody_think_error tbl be a st reply err w hT]; rfl⟩

theorem toolCalls_append (tr tr2 : List Event) :
    toolCalls (tr ++ tr2) = toolCalls tr ++ toolCalls tr2 := by
  induction tr with
  | nil => rfl
  | cons e tr ih => cases e <;> simp [toolCalls, ih]

theorem thinkCalls_append (tr tr2 : List Event) :
    thinkCalls (tr ++ tr2) = thinkCalls tr ++ thinkCalls tr2 := by
  induction tr with
  | nil => rfl
  | cons e tr ih => cases e <;> simp [thinkCalls, ih]

theorem continues_add {σ : Type} (tbl : Nat → Nat) (be : Backend σ) (a : Agent σ)
    (k n : Nat) (st stk : LoopState σ) (h : continues tbl be a k st = some stk) :
    continues tbl be a (k + n) st = continues tbl be a n stk := by
  induction k generalizing st with
  | zero =>
    simp only [continues, Option.some.injEq] at h
    subst h
    simp
  | succ k ih =>
    rw [show k + 1 + n = (k + n) + 1 by omega]
    simp only [continues] at h ⊢
    cases hb : loopBody tbl be a st with
    | next st1 =>
      rw [hb] at h
      exact ih st1 h
    | stop out st1 =>
      rw [hb] at h
      simp at h

theorem continues_succ {σ : Type} (tbl : Nat → Nat) (be : Backend σ) (a : Agent σ)
    (k : Nat) (st stk : LoopState σ) (h : continues tbl be a k st = some stk) :
    continues tbl be a (k + 1) st =
      match loopBody tbl be a stk with
      | .next st1 => some st1
      | .stop _ _ => none := by
  rw [continues_add tbl be a k 1 st stk h]
  simp only [continues]

theorem continues_prev {σ : Type} (tbl : Nat → Nat) (be : Backend σ) (a : Agent σ)
    (k : Nat) (st : LoopState σ) (h : continues tbl be a (k + 1) st ≠ none) :
    ∃ stk st1, continues tbl be a k st = some stk ∧ loopBody tbl be a stk = .next st1 ∧
      continues tbl be a (k + 1) st = some st1 := by
  induction k generalizing st with
  | zero =>
    simp only [continues] at h ⊢
    cases hb : loopBody tbl be a st with
    | next st1 => exact ⟨st, st1, rfl, hb, rfl⟩
    | stop out st1 => simp [hb] at h
  | succ k ih =>
    cases hb : loopBody tbl be a st with
    | next st1 =>
      have e1 : ∀ n, continues tbl be a (n + 1) st = continues tbl be a n st1 := by
        intro n
        simp [continues, hb]
      rw [e1] at h
      obtain ⟨stk, st2, h1, h2, h3⟩ := ih st1 h
      exact ⟨stk, st2, by rw [e1]; exact h1, h2, by rw [e1]; exact h3⟩
    | stop out st1 =>
      exfalso
      apply h
      simp [continues, hb]

theorem Think_error_iff {σ : Type} (be : Backend σ) (a : Agent σ) (w w1 : σ)
    (prompt reply : GoString) (e : GoError)
    (h : Think be a w prompt = (some (reply, some e), w1)) :
    (be w a.Model prompt).1 = .error e := by
  unfold Think at h
  rcases hb : be w a.Model prompt with ⟨r, w2⟩
  rw [hb] at h
  rcases r with err | choices
  · simp only [Prod.mk.injEq, Option.some.injEq] at h
    obtain ⟨⟨-, h2⟩, -⟩ := h
    simp [h2]
  · cases choices <;> simp at h

/-! ## Claims about the loop -/

/-- C5.  `Run` returns a non-nil error exactly when a call of `Think` returned
one: the loop (started in any state, `Run` starts it in the initial one) ends
with `returned (some e)` if and only if, after some number of `continue`s, the
call of `Think` gave the error `e`; the call of `Think` is then the last event
of the trace, so nothing is executed after it.  When `Think` succeeds, the pass
through the loop body never returns an error, whatever the command, the registry
or the tool do. -/
theorem Run_error_iff_Think_error {σ : Type} (tbl : Nat → Nat) (be : Backend σ)
    (a : Agent σ) :
    (∀ (fuel : Nat) (st st1 : LoopState σ) (e : GoError),
      runLoop tbl be a fuel st = some (.returned (some e), st1) ↔
        ∃ k stk reply, k < fuel ∧ continues tbl be a k st = some stk ∧
          Think be a stk.world stk.prompt = (some (reply, some e), st1.world) ∧
          st1.prompt = stk.prompt ∧ st1.trace = stk.trace ++ [.think stk.prompt]) ∧
    (∀ (stk st1 : LoopState σ) (reply : GoString) (w : σ) (e : GoError),
      Think be a stk.world stk.prompt = (some (reply, none), w) →
        loopBody tbl be a stk ≠ .stop (.returned (some e)) st1) := by
  have ok : ∀ (stk st1 : LoopState σ) (reply : GoString) (w : σ) (e : GoError),
      Think be a stk.world stk.prompt = (some (reply, none), w) →
        loopBody tbl be a stk ≠ .stop (.returned (some e)) st1 := by
    intro stk st1 reply w e hT
    rw [loopBody_think_ok tbl be a stk reply w hT]
    cases ParseCommand tbl (TrimSpace reply) <;> simp
  refine ⟨?_, ok⟩
  intro fuel st st1 e
  rw [runLoop_eq_some_iff]
  constructor
  · rintro ⟨k, stk, hk, hc, hl⟩
    rcases hT : Think be a stk.world stk.prompt with ⟨r, w⟩
    rcases r with _ | ⟨reply, _ | err⟩
    · rw [loopBody_think_panic tbl be a stk w hT] at hl
      simp at hl
    · exact absurd hl (ok stk st1 reply w e hT)
    · rw [loopBody_think_error tbl be a stk reply err w hT] at hl
      simp only [Step.stop.injEq, Outcome.returned.injEq, Option.some.injEq] at hl
      obtain ⟨rfl, rfl⟩ := hl
      exact ⟨k, stk, reply, hk, hc, hT, rfl, rfl⟩
  · rintro ⟨k, stk, reply, hk, hc, hT, hp, htr⟩
    refine ⟨k, stk, hk, hc, ?_⟩
    rw [loopBody_think_error tbl be a stk reply e st1.world hT]
    cases st1
    simp only at hp htr
    simp [hp, htr]

/-- C6.  When the reply parses to the command `(name, arg)`, the registry holds
`tool` under `name` and `tool.Execute(arg)` returns `r` without error, the pass
through the loop body ends in `continue` with the prompt extended by exactly
`"\nTool " ++ name ++ " returned: " ++ r ++ "\nContinue reasoning..."`; the only
call of `Execute` in this pass is the one on `arg`, and the next call of `Think`
gets the extended prompt. -/
theorem tool_result_appended {σ : Type} (tbl : Nat → Nat) (be : Backend σ) (a : Agent σ)
    (st : LoopState σ) (reply name arg r : GoString) (tool : Tool σ) (w w1 : σ)
    (hT : Think be a st.world st.prompt = (some (reply, none), w))
    (hP : ParseCommand tbl (TrimSpace reply) = .command name arg)
    (hG : mapGet a.Tools name = some tool)
    (hX : tool.Execute w arg = ((r, none), w1)) :
    ∃ st1 : LoopState σ,
      loopBody tbl be a st = .next st1 ∧
      st1.prompt = st.prompt ++
        (bytes "\nTool " ++ name ++ bytes " returned: " ++ r ++ bytes "\nContinue reasoning...") ∧
      st1.world = w1 ∧
      st1.trace = st.trace ++ [.think st.prompt, .agentSays (TrimSpace reply),
        .usingTool name arg, .execute name arg] ∧
      toolCalls st1.trace = toolCalls st.trace ++ [(name, arg)] ∧
      ∃ tr, (loopBody tbl be a st1).state.trace = st1.trace ++
        .think (st.prompt ++ (bytes "\nTool " ++ name ++ bytes " returned: " ++ r ++
          bytes "\nContinue reasoning...")) :: tr := by
  refine ⟨LoopState.mk
      (st.prompt ++ (bytes "\nTool " ++ name ++ bytes " returned: " ++ r ++
        bytes "\nContinue reasoning..."))
      w1
      (st.trace ++ [.think st.prompt, .agentSays (TrimSpace reply),
        .usingTool name arg, .execute name arg]), ?_, rfl, rfl, rfl, ?_, ?_⟩
  · rw [loopBody_think_ok tbl be a st reply w hT, hP]
    simp only [dispatch_ok a st.prompt w w1 _ name arg r tool hG hX]
    simp
  · simp [toolCalls_append, toolCalls]
  · exact loopBody_calls_Think tbl be a _

/-- C7.  When the reply is a malformed command, names a tool that is not in the
registry, or names a tool whose `Execute` returns an error, the pass through the
loop body ends in `continue` with the prompt unchanged: the rest of `Run` is the
same loop, with the same agent (and registry), on the same prompt, and its next
call of `Think` gets that prompt. -/
theorem prompt_unchanged_on_failure {σ : Type} (tbl : Nat → Nat) (be : Backend σ)
    (a : Agent σ) (st : LoopState σ) (reply : GoString) (w : σ)
    (hT : Think be a st.world st.prompt = (some (reply, none), w))
    (hcase : ParseCommand tbl (TrimSpace reply) = .malformed ∨
      ∃ name arg, ParseCommand tbl (TrimSpace reply) = .command name arg ∧
        (mapGet a.Tools name = none ∨
          ∃ tool out err w1, mapGet a.Tools name = some tool ∧
            tool.Execute w arg = ((out, some err), w1))) :
    ∃ st1 : LoopState σ,
      loopBody tbl be a st = .next st1 ∧
      st1.prompt = st.prompt ∧
      (∀ fuel, runLoop tbl be a (fuel + 1) st = runLoop tbl be a fuel st1) ∧
      ∃ tr, (loopBody tbl be a st1).state.trace = st1.trace ++ .think st.prompt :: tr := by
  have fin : ∀ st1 : LoopState σ, loopBody tbl be a st = .next st1 → st1.prompt = st.prompt →
      ∃ st1 : LoopState σ,
        loopBody tbl be a st = .next st1 ∧
        st1.prompt = st.prompt ∧
        (∀ fuel, runLoop tbl be a (fuel + 1) st = runLoop tbl be a fuel st1) ∧
        ∃ tr, (loopBody tbl be a st1).state.trace = st1.trace ++ .think st.prompt :: tr := by
    intro st1 h1 h2
    refine ⟨st1, h1, h2, ?_, ?_⟩
    · intro fuel
      simp [runLoop, h1]
    · rw [← h2]
      exact loopBody_calls_Think tbl be a st1
  rcases hcase with hP | ⟨name, arg, hP, hG | ⟨tool, out, err, w1, hG, hX⟩⟩
  · exact fin (LoopState.mk st.prompt w
        (st.trace ++ [.think st.prompt, .agentSays (TrimSpace reply)] ++ [.invalidFormat]))
      (by rw [loopBody_think_ok tbl be a st reply w hT, hP]) rfl
  · refine fin (dispatch a st.prompt w
        (st.trace ++ [.think st.prompt, .agentSays (TrimSpace reply)]) name arg)
      (by rw [loopBody_think_ok tbl be a st reply w hT, hP]) ?_
    rw [dispatch_unknown a st.prompt w _ name arg hG]
  · refine fin (dispatch a st.prompt w
        (st.trace ++ [.think st.prompt, .agentSays (TrimSpace reply)]) name arg)
      (by rw [loopBody_think_ok tbl be a st reply w hT, hP]) ?_
    rw [dispatch_error a st.prompt w w1 _ name arg out tool err hG hX]

theorem loopBody_constant_malformed (tbl : Nat → Nat) (a : Agent Unit) (reply : GoString)
    (hP : ParseCommand tbl (TrimSpace reply) = .malformed) (st : LoopState Unit) :
    loopBody tbl (constantBackend reply) a st = .next
      (LoopState.mk st.prompt ()
        (st.trace ++ [.think st.prompt, .agentSays (TrimSpace reply), .invalidFormat])) := by
  rw [loopBody_think_ok tbl (constantBackend reply) a st reply () rfl, hP]
  simp

theorem continues_constant_malformed (tbl : Nat → Nat) (a : Agent Unit) (reply : GoString)
    (hP : ParseCommand tbl (TrimSpace reply) = .malformed) (N : Nat) (st : LoopState Unit) :
    continues tbl (constantBackend reply) a N st = some
      (LoopState.mk st.prompt ()
        (st.trace ++ (List.replicate N
          [.think st.prompt, .agentSays (TrimSpace reply), .invalidFormat]).flatten)) := by
  induction N generalizing st with
  | zero => simp [continues]
  | succ N ih =>
    rw [continues, loopBody_constant_malformed tbl a reply hP st]
    simp only []
    rw [ih]
    simp [List.replicate_succ]

/-- C9 (as the code has it).  `Run` has no iteration budget: with a model stub
that always replies `"use: calc"` (a malformed command) the loop is still
running after `N` iterations, for every `N`; it has then called `Think` exactly
`N` times, each time with the initial prompt, and has called no tool. -/
theorem Run_unbounded_on_malformed (tbl : Nat → Nat) (a : Agent Unit) (goal : GoString)
    (N : Nat) :
    Run tbl (constantBackend (bytes "use: calc")) a N () goal = none ∧
    ∃ tr, continues tbl (constantBackend (bytes "use: calc")) a N
        (LoopState.mk (initialPrompt a goal) () [.goal goal]) =
          some (LoopState.mk (initialPrompt a goal) () tr) ∧
      thinkCalls tr = List.replicate N (initialPrompt a goal) ∧
      toolCalls tr = [] := by
  have hP : ParseCommand tbl (TrimSpace (bytes "use: calc")) = .malformed := rfl
  have hc := continues_constant_malformed tbl a (bytes "use: calc") hP N
    (LoopState.mk (initialPrompt a goal) () [.goal goal])
  refine ⟨?_, _, hc, ?_, ?_⟩
  · rw [Run, runLoop_eq_none_iff, hc]
    rfl
  · simp only [thinkCalls_append]
    clear hc
    induction N with
    | zero => simp [thinkCalls]
    | succ N ih =>
      simp only [List.replicate_succ, List.flatten_cons, thinkCalls_append] at ih ⊢
      simpa [thinkCalls] using ih
  · simp only [toolCalls_append]
    clear hc
    induction N with
    | zero => simp [toolCalls]
    | succ N ih =>
      simp only [List.replicate_succ, List.flatten_cons, toolCalls_append] at ih ⊢
      simpa [toolCalls] using ih

/-- C9, the claim as stated fails: with the model stub that always replies
`"use: calc"`, `Run` (on the agent and goal of `main`) does not terminate,
whatever the number of iterations. -/
theorem Run_budget_counterexample :
    ¬ ∃ fuel res, Run id (constantBackend (bytes "use: calc")) (mainAgent Unit natFloat)
        fuel () mainGoal = some res := by
  rintro ⟨fuel, res, h⟩
  have hc := continues_constant_malformed id (mainAgent Unit natFloat)
    (bytes "use: calc") rfl fuel
    (LoopState.mk (initialPrompt (mainAgent Unit natFloat) mainGoal) () [.goal mainGoal])
  have hn : Run id (constantBackend (bytes "use: calc")) (mainAgent Unit natFloat)
      fuel () mainGoal = none := by
    rw [Run, runLoop_eq_none_iff, hc]
    rfl
  rw [hn] at h
  cases h

/-- C10, the claim as stated fails: the reply `"I will not use:"` carries the
command marker, and `Run` stops on it, after one model call, with that reply as
the final answer. -/
theorem Run_stops_on_marker_counterexample :
    Contains (bytes "I will not use:") marker = true ∧
    Run id (constantBackend (bytes "I will not use:")) (mainAgent Unit natFloat) 1 () mainGoal =
      some (.returned none,
        LoopState.mk (initialPrompt (mainAgent Unit natFloat) mainGoal) ()
          [.goal mainGoal, .think (initialPrompt (mainAgent Unit natFloat) mainGoal),
            .agentSays (bytes "I will not use:"), .finalAnswer (bytes "I will not use:")]) := by
  constructor
  · rfl
  · rfl

theorem runLoop_mono {σ : Type} (tbl : Nat → Nat) (be : Backend σ) (a : Agent σ)
    (fuel more : Nat) (st : LoopState σ) (res : Outcome × LoopState σ)
    (h : runLoop tbl be a fuel st = some res) :
    runLoop tbl be a (fuel + more) st = some res := by
  rw [runLoop_eq_some_iff] at h ⊢
  obtain ⟨k, stk, hk, hc, hl⟩ := h
  exact ⟨k, stk, by omega, hc, hl⟩

theorem Calculator_nine_times_two (F : Float64Lib) (x y : F.T)
    (h9 : F.sscanf (bytes "9") = some x) (h2 : F.sscanf (bytes "2") = some y)
    (h18 : F.fmt0 (F.mul x y) = bytes "18") :
    Calculator.Execute F (bytes "9*2") = (bytes "18", none) := by
  have hf : findOperator 0 0 ((bytes "9*2").filter fun c => c ≠ 0x20) = some (0x2A, 1) := by
    decide
  have ha : ((bytes "9*2").filter fun c => c ≠ 0x20).take 1 = bytes "9" := by decide
  have hb : ((bytes "9*2").filter fun c => c ≠ 0x20).drop (1 + 1) = bytes "2" := by decide
  have hop : encodeRune 0x2A = bytes "*" := by decide
  have h1 : bytes "*" ≠ bytes "+" := by decide
  have h3 : bytes "*" ≠ bytes "-" := by decide
  have h4 : bytes "9" ≠ [] := by decide
  have h5 : bytes "2" ≠ [] := by decide
  simp only [Calculator.Execute, hf, ha, hb, hop, parseFloat, h4, h5, h9, h2, if_false, h1, h3,
    if_true, h18]

/-- C8.  With the calculator registered under `"calc"` (the agent of `main`) and
a model stub that replies `"use: calc 9*2"` on its first call and `"18"` on its
second, for any float library in which scanning `"9"` and `"2"` succeeds and the
product of the two values prints as `"18"` under `%.0f`: `Calculator.Execute("9*2")`
returns `"18"` without error, and `Run` returns nil in its second iteration (not
in the first), after exactly two calls of `Think` and exactly one call of a tool,
`calc` on `"9*2"`; the second prompt is the first followed by
`"\nTool calc returned: 18\nContinue reasoning..."`, and the final answer is `"18"`. -/
theorem Run_calc_scenario (tbl : Nat → Nat) (F : Float64Lib) (x y : F.T) (goal : GoString)
    (h9 : F.sscanf (bytes "9") = some x) (h2 : F.sscanf (bytes "2") = some y)
    (h18 : F.fmt0 (F.mul x y) = bytes "18") :
    Calculator.Execute F (bytes "9*2") = (bytes "18", none) ∧
    mapGet (mainAgent Nat F).Tools (bytes "calc") = some (Calculator F) ∧
    Run tbl (scriptedBackend [bytes "use: calc 9*2"] (bytes "18")) (mainAgent Nat F) 1 0 goal
      = none ∧
    ∃ st1 : LoopState Nat,
      (∀ more, Run tbl (scriptedBackend [bytes "use: calc 9*2"] (bytes "18")) (mainAgent Nat F)
        (2 + more) 0 goal = some (.returned none, st1)) ∧
      thinkCalls st1.trace = [initialPrompt (mainAgent Nat F) goal,
        initialPrompt (mainAgent Nat F) goal ++
          bytes "\nTool calc returned: 18\nContinue reasoning..."] ∧
      toolCalls st1.trace = [(bytes "calc", bytes "9*2")] ∧
      st1.trace.getLast? = some (.finalAnswer (bytes "18")) := by
  have hX := Calculator_nine_times_two F x y h9 h2 h18
  have hG : mapGet (mainAgent Nat F).Tools (bytes "calc") = some (Calculator F) := by
    simp [mainAgent, NewAgent, mapSet, mapGet, Calculator]
  have hP1 : ParseCommand tbl (TrimSpace (bytes "use: calc 9*2")) =
      .command (bytes "calc") (bytes "9*2") := rfl
  have hP2 : ParseCommand tbl (TrimSpace (bytes "18")) = .noCommand := rfl
  have ht2 : TrimSpace (bytes "18") = bytes "18" := by decide
  have ht1 : TrimSpace (bytes "use: calc 9*2") = bytes "use: calc 9*2" := by decide
  have hE : (Calculator F : Tool Nat).Execute 0 (bytes "9*2") = ((bytes "18", none), 0) := by
    simp [Calculator, hX]
  -- first iteration
  have hb1 : loopBody tbl (scriptedBackend [bytes "use: calc 9*2"] (bytes "18"))
      (mainAgent Nat F) (LoopState.mk (initialPrompt (mainAgent Nat F) goal) 0 [.goal goal]) =
      .next (LoopState.mk (initialPrompt (mainAgent Nat F) goal ++
          (bytes "\nTool " ++ bytes "calc" ++ bytes " returned: " ++ bytes "18" ++
            bytes "\nContinue reasoning...")) 1
        ([.goal goal] ++ [.think (initialPrompt (mainAgent Nat F) goal),
          .agentSays (bytes "use: calc 9*2"), .usingTool (bytes "calc") (bytes "9*2"),
          .execute (bytes "calc") (bytes "9*2")])) := by
    rw [loopBody_think_ok tbl _ _ _ (bytes "use: calc 9*2") 1 (by rfl), hP1]
    simp only [ht1]
    rw [dispatch_ok (mainAgent Nat F) _ 1 1 _ (bytes "calc") (bytes "9*2") (bytes "18")
      (Calculator F) hG (by simp [Calculator, hX])]
    simp
  have hb2 : loopBody tbl (scriptedBackend [bytes "use: calc 9*2"] (bytes "18"))
      (mainAgent Nat F)
      (LoopState.mk (initialPrompt (mainAgent Nat F) goal ++
          (bytes "\nTool " ++ bytes "calc" ++ bytes " returned: " ++ bytes "18" ++
            bytes "\nContinue reasoning...")) 1
        ([.goal goal] ++ [.think (initialPrompt (mainAgent Nat F) goal),
          .agentSays (bytes "use: calc 9*2"), .usingTool (bytes "calc") (bytes "9*2"),
          .execute (bytes "calc") (bytes "9*2")])) =
      .stop (.returned none) (LoopState.mk (initialPrompt (mainAgent Nat F) goal ++
          (bytes "\nTool " ++ bytes "calc" ++ bytes " returned: " ++ bytes "18" ++
            bytes "\nContinue reasoning...")) 2
        ([.goal goal] ++ [.think (initialPrompt (mainAgent Nat F) goal),
          .agentSays (bytes "use: calc 9*2"), .usingTool (bytes "calc") (bytes "9*2"),
          .execute (bytes "calc") (bytes "9*2")] ++
          [.think (initialPrompt (mainAgent Nat F) goal ++
            (bytes "\nTool " ++ bytes "calc" ++ bytes " returned: " ++ bytes "18" ++
              bytes "\nContinue reasoning...")),
            .agentSays (bytes "18"), .finalAnswer (bytes "18")])) := by
    rw [loopBody_think_ok tbl _ _ _ (bytes "18") 2 (by rfl), hP2]
    simp only [ht2]
    simp
  refine ⟨hX, hG, ?_, LoopState.mk (initialPrompt (mainAgent Nat F) goal ++
          (bytes "\nTool " ++ bytes "calc" ++ bytes " returned: " ++ bytes "18" ++
            bytes "\nContinue reasoning...")) 2
        ([.goal goal] ++ [.think (initialPrompt (mainAgent Nat F) goal),
          .agentSays (bytes "use: calc 9*2"), .usingTool (bytes "calc") (bytes "9*2"),
          .execute (bytes "calc") (bytes "9*2")] ++
          [.think (initialPrompt (mainAgent Nat F) goal ++
            (bytes "\nTool " ++ bytes "calc" ++ bytes " returned: " ++ bytes "18" ++
              bytes "\nContinue reasoning...")),
            .agentSays (bytes "18"), .finalAnswer (bytes "18")]), ?_, ?_, ?_, ?_⟩
  · simp only [Run, runLoop, hb1]
  · intro more
    apply runLoop_mono
    simp only [Run, runLoop, hb1, hb2]
  · simp only [thinkCalls_append, thinkCalls]
    have : bytes "\nTool " ++ bytes "calc" ++ bytes " returned: " ++ bytes "18" ++
        bytes "\nContinue reasoning..." =
        bytes "\nTool calc returned: 18\nContinue reasoning..." := by decide
    simp only [List.nil_append, List.cons_append, ← this]
  · simp [toolCalls_append, toolCalls]
  · simp

/-! ## Claims about the command parser -/

/-- C1.  When no line of the trimmed reply contains the marker `use:` under
case-insensitive comparison, the reply is classified as "no command", and the
pass through the loop body ends `Run`: it returns nil after the one call of
`Think`, calls no tool, and the trimmed reply is the final answer. -/
theorem final_answer_without_marker {σ : Type} (tbl : Nat → Nat) (be : Backend σ)
    (a : Agent σ) (st : LoopState σ) (reply : GoString) (more : List GoString) (w : σ)
    (hB : be st.world a.Model st.prompt = (.ok (reply :: more), w))
    (hno : ∀ line ∈ Split 10 (TrimSpace reply), Contains (ToLower tbl line) marker = false) :
    ParseCommand tbl (TrimSpace reply) = .noCommand ∧
    loopBody tbl be a st = .stop (.returned none)
      (LoopState.mk st.prompt w (st.trace ++
        [.think st.prompt, .agentSays (TrimSpace reply), .finalAnswer (TrimSpace reply)])) ∧
    ∀ fuel, runLoop tbl be a (fuel + 1) st = some (.returned none,
      LoopState.mk st.prompt w (st.trace ++
        [.think st.prompt, .agentSays (TrimSpace reply), .finalAnswer (TrimSpace reply)])) := by
  have hP : ParseCommand tbl (TrimSpace reply) = .noCommand := by
    apply ParseCommand_of_scan_nil
    apply scanLines_none_matched
    intro l hl
    by_contra hc
    have := Contains_ToLower_TrimSpace tbl l marker (by simpa using hc)
    rw [hno l hl] at this
    cases this
  have hL : loopBody tbl be a st = .stop (.returned none)
      (LoopState.mk st.prompt w (st.trace ++
        [.think st.prompt, .agentSays (TrimSpace reply), .finalAnswer (TrimSpace reply)])) := by
    rw [loopBody_think_ok tbl be a st reply w (Think_ok be a _ _ _ _ more hB), hP]
    simp
  refine ⟨hP, hL, ?_⟩
  intro fuel
  simp [runLoop, hL]

/-- Witness for C1: the reply `"  The result is 18.\nDone.  "` from the model
stub, on the agent and goal of `main`. -/
theorem final_answer_without_marker_witness :
    ParseCommand id (TrimSpace (bytes "  The result is 18.\nDone.  ")) = .noCommand ∧
    Run id (constantBackend (bytes "  The result is 18.\nDone.  ")) (mainAgent Unit natFloat)
      1 () mainGoal = some (.returned none,
        LoopState.mk (initialPrompt (mainAgent Unit natFloat) mainGoal) ()
          [.goal mainGoal, .think (initialPrompt (mainAgent Unit natFloat) mainGoal),
            .agentSays (bytes "The result is 18.\nDone."),
            .finalAnswer (bytes "The result is 18.\nDone.")]) := by
  have h := final_answer_without_marker id
    (constantBackend (bytes "  The result is 18.\nDone.  ")) (mainAgent Unit natFloat)
    (LoopState.mk (initialPrompt (mainAgent Unit natFloat) mainGoal) () [.goal mainGoal])
    (bytes "  The result is 18.\nDone.  ") [] () rfl (by decide)
  exact ⟨h.1, h.2.2 0⟩

theorem SplitN2_short (sep : Nat) (s : GoString) (h : (SplitN2 sep s).length < 2) :
    SplitN2 sep s = [s] := by
  unfold SplitN2 at h ⊢
  cases hi : s.indexOf? sep with
  | none => rfl
  | some i => simp [hi] at h

theorem ParseCommand_of_scan (tbl : Nat → Nat) (answer cmd : GoString)
    (h : scanLines tbl (Split 10 answer) = some cmd) (hne : cmd ≠ []) :
    ParseCommand tbl answer =
      match SplitN2 32 cmd with
      | [p0, p1] => .command (TrimSpace p0) (TrimSpace p1)
      | _ => .malformed := by
  unfold ParseCommand
  rw [if_pos (outer_check_of_scan tbl answer cmd h hne), h]
  simp only [hne, ne_eq, not_false_eq_true, if_true]

/-- C3 (as the code has it).  When the line scan of the trimmed reply yields the
command text `cmd` (a line matched the marker): if `cmd` is not empty and splits
on the first space into fewer than two segments (a lone tool name, as in
`"use: calc"`), the outcome is "malformed command" and the pass through the loop
body is a `continue` with the prompt unchanged and no tool executed; if `cmd` is
empty (as for the reply `"use:"`), the outcome is "no command" and the reply is
the final answer. -/
theorem malformed_or_final {σ : Type} (tbl : Nat → Nat) (be : Backend σ)
    (a : Agent σ) (st : LoopState σ) (reply cmd : GoString) (more : List GoString) (w : σ)
    (hB : be st.world a.Model st.prompt = (.ok (reply :: more), w))
    (hscan : scanLines tbl (Split 10 (TrimSpace reply)) = some cmd) :
    (cmd ≠ [] → (SplitN2 32 cmd).length < 2 →
      ParseCommand tbl (TrimSpace reply) = .malformed ∧
      loopBody tbl be a st = .next (LoopState.mk st.prompt w (st.trace ++
        [.think st.prompt, .agentSays (TrimSpace reply), .invalidFormat]))) ∧
    (cmd = [] →
      ParseCommand tbl (TrimSpace reply) = .noCommand ∧
      loopBody tbl be a st = .stop (.returned none) (LoopState.mk st.prompt w (st.trace ++
        [.think st.prompt, .agentSays (TrimSpace reply), .finalAnswer (TrimSpace reply)]))) := by
  have hT := Think_ok be a _ _ _ _ more hB
  constructor
  · intro hne hlen
    have hP : ParseCommand tbl (TrimSpace reply) = .malformed := by
      rw [ParseCommand_of_scan tbl _ cmd hscan hne, SplitN2_short 32 cmd hlen]
    refine ⟨hP, ?_⟩
    rw [loopBody_think_ok tbl be a st reply w hT, hP]
    simp
  · intro he
    subst he
    have hP := ParseCommand_of_scan_nil tbl _ hscan
    refine ⟨hP, ?_⟩
    rw [loopBody_think_ok tbl be a st reply w hT, hP]
    simp

/-- Witness for C3: the replies `"use: calc"` (malformed, the loop goes on) and
`"use:"` (final answer) from the model stub, on the agent and goal of `main`. -/
theorem malformed_or_final_witness :
    (ParseCommand id (TrimSpace (bytes "use: calc")) = .malformed ∧
      loopBody id (constantBackend (bytes "use: calc")) (mainAgent Unit natFloat)
          (LoopState.mk (initialPrompt (mainAgent Unit natFloat) mainGoal) () [.goal mainGoal]) =
        .next (LoopState.mk (initialPrompt (mainAgent Unit natFloat) mainGoal) ()
          [.goal mainGoal, .think (initialPrompt (mainAgent Unit natFloat) mainGoal),
            .agentSays (bytes "use: calc"), .invalidFormat])) ∧
    (ParseCommand id (TrimSpace (bytes "use:")) = .noCommand ∧
      loopBody id (constantBackend (bytes "use:")) (mainAgent Unit natFloat)
          (LoopState.mk (initialPrompt (mainAgent Unit natFloat) mainGoal) () [.goal mainGoal]) =
        .stop (.returned none) (LoopState.mk (initialPrompt (mainAgent Unit natFloat) mainGoal) ()
          [.goal mainGoal, .think (initialPrompt (mainAgent Unit natFloat) mainGoal),
            .agentSays (bytes "use:"), .finalAnswer (bytes "use:")])) :=
  ⟨(malformed_or_final id (constantBackend (bytes "use: calc")) (mainAgent Unit natFloat)
      (LoopState.mk (initialPrompt (mainAgent Unit natFloat) mainGoal) () [.goal mainGoal])
      (bytes "use: calc") (bytes "calc") [] () rfl (by decide)).1 (by decide) (by decide),
   (malformed_or_final id (constantBackend (bytes "use:")) (mainAgent Unit natFloat)
      (LoopState.mk (initialPrompt (mainAgent Unit natFloat) mainGoal) () [.goal mainGoal])
      (bytes "use:") [] [] () rfl (by decide)).2 rfl⟩

/-- C3, the claim as stated fails: in the reply `"use:"` the line matches the
marker and the text after it is empty, yet the outcome is "no command", not
"malformed command": `Run` takes the reply as the final answer and returns
after this one model call. -/
theorem empty_command_counterexample :
    HasPrefix (ToLower id (TrimSpace (bytes "use:"))) marker = true ∧
    scanLines id (Split 10 (TrimSpace (bytes "use:"))) = some [] ∧
    ParseCommand id (TrimSpace (bytes "use:")) = .noCommand ∧
    ParseCommand id (TrimSpace (bytes "use:")) ≠ .malformed ∧
    Run id (constantBackend (bytes "use:")) (mainAgent Unit natFloat) 1 () mainGoal =
      some (.returned none,
        LoopState.mk (initialPrompt (mainAgent Unit natFloat) mainGoal) ()
          [.goal mainGoal, .think (initialPrompt (mainAgent Unit natFloat) mainGoal),
            .agentSays (bytes "use:"), .finalAnswer (bytes "use:")]) := by
  refine ⟨by decide, by decide, by decide, by decide, rfl⟩

theorem marker_cases (m : GoString) (hm : m.map asciiLower = marker) :
    ∃ m0 m1 m2 m3, m = [m0, m1, m2, m3] ∧ (m0 = 0x75 ∨ m0 = 0x55) ∧ (m1 = 0x73 ∨ m1 = 0x53) ∧
      (m2 = 0x65 ∨ m2 = 0x45) ∧ m3 = 0x3A := by
  have key : ∀ c v : Nat, asciiLower c = v → (c = v ∨ (c + 0x20 = v ∧ 0x41 ≤ c ∧ c ≤ 0x5A)) := by
    intro c v h
    unfold asciiLower at h
    split_ifs at h with h1
    · simp only [Bool.and_eq_true, decide_eq_true_eq] at h1
      exact Or.inr ⟨h, h1⟩
    · exact Or.inl h
  rw [marker_eq] at hm
  rcases m with _ | ⟨m0, _ | ⟨m1, _ | ⟨m2, _ | ⟨m3, _ | ⟨m4, rest⟩⟩⟩⟩⟩ <;>
    simp only [List.map_nil, List.map_cons, List.cons.injEq, and_true, reduceCtorEq,
      and_false, false_and] at hm
  obtain ⟨h0, h1, h2, h3⟩ := hm
  refine ⟨m0, m1, m2, m3, rfl, ?_, ?_, ?_, ?_⟩
  · rcases key _ _ h0 with h | h <;> omega
  · rcases key _ _ h1 with h | h <;> omega
  · rcases key _ _ h2 with h | h <;> omega
  · rcases key _ _ h3 with h | h <;> omega

/-- C2.  Format-then-parse round trip.  Let `t` be a non-empty tool name without
white space, `a` a non-empty argument without newline and without leading or
trailing white space, `p` an ASCII prefix without newline and without
case-insensitive occurrence of `use:`, and `m` the marker in any capitalisation
(`use:`, `Use:`, ...).  Then the reply `p ++ m ++ (k spaces) ++ t ++ " " ++ a` is
parsed to exactly the command `(t, a)`. -/
theorem format_parse_roundtrip (tbl : Nat → Nat) (p m t a : GoString) (k : Nat)
    (hm : m.map asciiLower = marker)
    (ht : t ≠ []) (htws : containsSpace 0 t = false)
    (ha : a ≠ []) (hanl : 10 ∉ a) (hatrim : TrimSpace a = a)
    (hp : ∀ c ∈ p, c < 0x80) (hpnl : 10 ∉ p)
    (hpm : Contains (ToLower tbl p) marker = false) :
    ParseCommand tbl (TrimSpace (p ++ m ++ List.replicate k 32 ++ t ++ [32] ++ a)) =
      .command t a := by
  obtain ⟨m0, m1, m2, m3, rfl, h0, h1, h2, h3⟩ := marker_cases m hm
  obtain ⟨ha1, ha2⟩ := not_space_of_TrimSpace a ha hatrim
  have ht1 := containsSpace_false_first t htws
  have ht32 : 32 ∉ t := fun h => by
    have := containsSpace_false_ascii t htws 32 h (by omega)
    revert this
    decide
  have ht10 : 10 ∉ t := fun h => by
    have := containsSpace_false_ascii t htws 10 h (by omega)
    revert this
    decide
  -- the pieces
  let sp := List.replicate k 32
  let q := p.dropWhile (fun c => isSpace c)
  have hq : ∀ c ∈ q, c < 0x80 := fun c hc => hp c ((List.dropWhile_suffix _).subset hc)
  have hq10 : 10 ∉ q := fun h => hpnl ((List.dropWhile_suffix _).subset h)
  have hm0 : isSpace m0 = false := by
    rcases h0 with rfl | rfl <;> decide
  have hmlt : ∀ c ∈ [m0, m1, m2, m3], c < 0x80 := by
    intro c hc
    simp only [List.mem_cons, List.mem_singleton, List.not_mem_nil, or_false] at hc
    rcases hc with rfl | rfl | rfl | rfl <;> omega
  have hm10 : 10 ∉ [m0, m1, m2, m3] := by
    simp only [List.mem_cons, List.mem_singleton, List.not_mem_nil, or_false]
    omega
  -- the trimmed reply
  have hR : p ++ [m0, m1, m2, m3] ++ sp ++ t ++ [32] ++ a =
      p ++ (([m0, m1, m2, m3] ++ sp ++ t) ++ 32 :: a) := by simp
  have hfirst : isSpace (decodeRune (([m0, m1, m2, m3] ++ sp ++ t) ++ 32 :: a)).1 = false := by
    simp only [List.cons_append, List.nil_append]
    rw [decodeRune_ascii m0 _ (hmlt m0 (by simp))]
    exact hm0
  have hline : TrimSpace (p ++ [m0, m1, m2, m3] ++ sp ++ t ++ [32] ++ a) =
      q ++ (([m0, m1, m2, m3] ++ sp ++ t) ++ 32 :: a) := by
    rw [hR]
    exact TrimSpace_core p _ a hp hfirst ha ha2
  have hline2 : TrimSpace (q ++ (([m0, m1, m2, m3] ++ sp ++ t) ++ 32 :: a)) =
      q ++ (([m0, m1, m2, m3] ++ sp ++ t) ++ 32 :: a) := by
    rw [TrimSpace_core q _ a hq hfirst ha ha2, List.dropWhile_idempotent]
  have hsp10 : 10 ∉ sp := by
    intro h
    have := List.eq_of_mem_replicate h
    omega
  have hno10 : 10 ∉ q ++ (([m0, m1, m2, m3] ++ sp ++ t) ++ 32 :: a) := by
    simp only [List.mem_append, List.mem_cons, not_or]
    refine ⟨hq10, ⟨⟨?_, hsp10⟩, ht10⟩, by omega, hanl⟩
    simpa using hm10
  -- the lower-cased line and the index of the marker
  have hlow : ToLower tbl (q ++ (([m0, m1, m2, m3] ++ sp ++ t) ++ 32 :: a)) =
      q.map asciiLower ++ marker ++ ToLower tbl (sp ++ t ++ 32 :: a) := by
    have e : q ++ (([m0, m1, m2, m3] ++ sp ++ t) ++ 32 :: a) =
        (q ++ [m0, m1, m2, m3]) ++ (sp ++ t ++ 32 :: a) := by simp
    rw [e, ToLower_ascii_append tbl _ _ (by
      intro c hc
      rcases List.mem_append.mp hc with h | h
      · exact hq c h
      · exact hmlt c h), List.map_append, hm]
  have hqm : Contains (q.map asciiLower) marker = false := by
    have e : ToLower tbl p = p.map asciiLower := by
      have := ToLower_ascii_append tbl p [] hp
      simpa [ToLower] using this
    rw [e] at hpm
    refine Contains_suffix _ _ _ ?_ hpm
    obtain ⟨pre, hpre⟩ := List.dropWhile_suffix (fun c => isSpace c) (l := p)
    exact ⟨pre.map asciiLower, by rw [← List.map_append, hpre]⟩
  have hidx : Index (ToLower tbl (TrimSpace (q ++ (([m0, m1, m2, m3] ++ sp ++ t) ++ 32 :: a))))
      marker = some q.length := by
    rw [hline2, hlow, Index_first_marker _ _ hqm]
    simp
  -- the command text
  have hcmdtrim : TrimSpace (sp ++ (t ++ 32 :: a)) = t ++ 32 :: a := by
    have hspA : ∀ c ∈ sp, c < 0x80 := by
      intro c hc
      have := List.eq_of_mem_replicate hc
      omega
    have hf : isSpace (decodeRune (t ++ 32 :: a)).1 = false := by
      rw [decodeRune_append_start t a 32 ht (by decide)]
      exact ht1
    rw [TrimSpace_core sp t a hspA hf ha ha2]
    have : sp.dropWhile (fun c => isSpace c) = [] := by
      rw [List.dropWhile_eq_nil_iff]
      intro x hx
      have := List.eq_of_mem_replicate hx
      subst this
      decide
    rw [this, List.nil_append]
  have hscan : scanLines tbl (Split 10 (q ++ (([m0, m1, m2, m3] ++ sp ++ t) ++ 32 :: a))) =
      some (t ++ 32 :: a) := by
    rw [Split_of_not_mem 10 _ hno10, scanLines_cons_of_Index tbl _ [] q.length hidx, hline2]
    have hs : sliceFrom (q ++ (([m0, m1, m2, m3] ++ sp ++ t) ++ 32 :: a)) (q.length + 4) =
        some (sp ++ (t ++ 32 :: a)) := by
      have e : q ++ (([m0, m1, m2, m3] ++ sp ++ t) ++ 32 :: a) =
          (q ++ [m0, m1, m2, m3]) ++ (sp ++ (t ++ 32 :: a)) := by simp
      unfold sliceFrom
      rw [if_pos (by simp), e,
        List.drop_left' (by simp)]
    rw [hs, Option.map_some', hcmdtrim]
  rw [hline, ParseCommand_of_scan tbl _ _ hscan (by simp), SplitN2_append t a 32 ht32]
  simp only [TrimSpace_of_containsSpace_false t htws, hatrim]

/-- Witness for C2: the three replies of the specification, `"use: calc 2+2"`,
`"Use:calc 2+2"` and `"please use: calc 2+2 now"`. -/
theorem format_parse_roundtrip_witness :
    ParseCommand id (TrimSpace (bytes "use: calc 2+2")) =
      .command (bytes "calc") (bytes "2+2") ∧
    ParseCommand id (TrimSpace (bytes "Use:calc 2+2")) =
      .command (bytes "calc") (bytes "2+2") ∧
    ParseCommand id (TrimSpace (bytes "please use: calc 2+2 now")) =
      .command (bytes "calc") (bytes "2+2 now") :=
  ⟨format_parse_roundtrip id [] (bytes "use:") (bytes "calc") (bytes "2+2") 1
      (by decide) (by decide) (by decide) (by decide) (by decide) (by decide) (by decide)
      (by decide) (by decide),
   format_parse_roundtrip id [] (bytes "Use:") (bytes "calc") (bytes "2+2") 0
      (by decide) (by decide) (by decide) (by decide) (by decide) (by decide) (by decide)
      (by decide) (by decide),
   format_parse_roundtrip id (bytes "please ") (bytes "use:") (bytes "calc") (bytes "2+2 now") 1
      (by decide) (by decide) (by decide) (by decide) (by decide) (by decide) (by decide)
      (by decide) (by decide)⟩

/-! ## Witnesses: the claims at concrete inputs -/

/-- Witness for C4: two tools with distinct names are both found, and the
lookup is case-sensitive (`"Calc"` is not `"calc"`). -/
theorem NewAgent_registry_witness :
    (([Calculator natFloat, echoTool] : List (Tool Unit)).map Tool.Name).Nodup ∧
    (∀ t ∈ ([Calculator natFloat, echoTool] : List (Tool Unit)),
      mapGet (NewAgent (bytes "llama3") [Calculator natFloat, echoTool]).Tools t.Name = some t) ∧
    mapGet (NewAgent (bytes "llama3") ([Calculator natFloat] : List (Tool Unit))).Tools
      (bytes "Calc") = none :=
  ⟨by decide,
   (NewAgent_registry (bytes "llama3") [Calculator natFloat, echoTool]).2 (by decide),
   by rw [(NewAgent_registry (bytes "llama3") [Calculator natFloat]).1 (bytes "Calc")]; rfl⟩

/-- Witness for C5: a model stub that fails on the first call makes `Run` return
that error after the one call of `Think`, with no tool call. -/
theorem Run_error_iff_Think_error_witness :
    Run id (failingBackend ⟨bytes "connection refused"⟩) (mainAgent Unit natFloat) 1 () mainGoal =
      some (.returned (some ⟨bytes "connection refused"⟩),
        LoopState.mk (initialPrompt (mainAgent Unit natFloat) mainGoal) ()
          [.goal mainGoal, .think (initialPrompt (mainAgent Unit natFloat) mainGoal)]) ∧
    toolCalls [.goal mainGoal, .think (initialPrompt (mainAgent Unit natFloat) mainGoal)] = [] :=
  ⟨((Run_error_iff_Think_error id (failingBackend ⟨bytes "connection refused"⟩)
      (mainAgent Unit natFloat)).1 1
      (LoopState.mk (initialPrompt (mainAgent Unit natFloat) mainGoal) () [.goal mainGoal])
      (LoopState.mk (initialPrompt (mainAgent Unit natFloat) mainGoal) ()
        [.goal mainGoal, .think (initialPrompt (mainAgent Unit natFloat) mainGoal)])
      ⟨bytes "connection refused"⟩).mpr
      ⟨0, _, [], by decide, rfl, rfl, rfl, rfl⟩,
   rfl⟩

/-- Witness for C6: the reply `"use: calc 9*2"` on the agent of `main`. -/
theorem tool_result_appended_witness :
    ∃ st1 : LoopState Unit,
      loopBody id (constantBackend (bytes "use: calc 9*2")) (mainAgent Unit natFloat)
        (LoopState.mk (initialPrompt (mainAgent Unit natFloat) mainGoal) () [.goal mainGoal]) =
          .next st1 ∧
      st1.prompt = initialPrompt (mainAgent Unit natFloat) mainGoal ++
        bytes "\nTool calc returned: 18\nContinue reasoning..." ∧
      toolCalls st1.trace = [(bytes "calc", bytes "9*2")] := by
  obtain ⟨st1, h1, h2, -, -, h5, -⟩ := tool_result_appended id
    (constantBackend (bytes "use: calc 9*2")) (mainAgent Unit natFloat)
    (LoopState.mk (initialPrompt (mainAgent Unit natFloat) mainGoal) () [.goal mainGoal])
    (bytes "use: calc 9*2") (bytes "calc") (bytes "9*2") (bytes "18") (Calculator natFloat) () ()
    rfl rfl rfl rfl
  exact ⟨st1, h1, h2, h5⟩

/-- Witness for C7: on the agent of `main`, the replies `"use: calc"` (malformed),
`"use: Calc 2+2"` (unknown tool) and `"use: calc 1/0"` (the tool returns an
error) each lead to a `continue` with the prompt unchanged. -/
theorem prompt_unchanged_on_failure_witness :
    (∃ st1 : LoopState Unit,
      loopBody id (constantBackend (bytes "use: calc")) (mainAgent Unit natFloat)
        (LoopState.mk (initialPrompt (mainAgent Unit natFloat) mainGoal) () [.goal mainGoal]) =
          .next st1 ∧
      st1.prompt = initialPrompt (mainAgent Unit natFloat) mainGoal) ∧
    (∃ st1 : LoopState Unit,
      loopBody id (constantBackend (bytes "use: Calc 2+2")) (mainAgent Unit natFloat)
        (LoopState.mk (initialPrompt (mainAgent Unit natFloat) mainGoal) () [.goal mainGoal]) =
          .next st1 ∧
      st1.prompt = initialPrompt (mainAgent Unit natFloat) mainGoal) ∧
    (∃ st1 : LoopState Unit,
      loopBody id (constantBackend (bytes "use: calc 1/0")) (mainAgent Unit natFloat)
        (LoopState.mk (initialPrompt (mainAgent Unit natFloat) mainGoal) () [.goal mainGoal]) =
          .next st1 ∧
      st1.prompt = initialPrompt (mainAgent Unit natFloat) mainGoal) := by
  refine ⟨?_, ?_, ?_⟩
  · obtain ⟨st1, h1, h2, -⟩ := prompt_unchanged_on_failure id
      (constantBackend (bytes "use: calc")) (mainAgent Unit natFloat)
      (LoopState.mk (initialPrompt (mainAgent Unit natFloat) mainGoal) () [.goal mainGoal])
      (bytes "use: calc") () rfl (Or.inl rfl)
    exact ⟨st1, h1, h2⟩
  · obtain ⟨st1, h1, h2, -⟩ := prompt_unchanged_on_failure id
      (constantBackend (bytes "use: Calc 2+2")) (mainAgent Unit natFloat)
      (LoopState.mk (initialPrompt (mainAgent Unit natFloat) mainGoal) () [.goal mainGoal])
      (bytes "use: Calc 2+2") () rfl
      (Or.inr ⟨bytes "Calc", bytes "2+2", rfl, Or.inl rfl⟩)
    exact ⟨st1, h1, h2⟩
  · obtain ⟨st1, h1, h2, -⟩ := prompt_unchanged_on_failure id
      (constantBackend (bytes "use: calc 1/0")) (mainAgent Unit natFloat)
      (LoopState.mk (initialPrompt (mainAgent Unit natFloat) mainGoal) () [.goal mainGoal])
      (bytes "use: calc 1/0") () rfl
      (Or.inr ⟨bytes "calc", bytes "1/0", rfl,
        Or.inr ⟨Calculator natFloat, [], ⟨bytes "divide by zero"⟩, (), rfl, rfl⟩⟩)
    exact ⟨st1, h1, h2⟩

/-- Witness for C8: the scenario with the stand-in float library, where `"9"`
and `"2"` scan as 9 and 2 and their product prints as `"18"`. -/
theorem Run_calc_scenario_witness :
    Calculator.Execute natFloat (bytes "9*2") = (bytes "18", none) ∧
    Run id (scriptedBackend [bytes "use: calc 9*2"] (bytes "18")) (mainAgent Nat natFloat)
      1 0 mainGoal = none ∧
    ∃ st1 : LoopState Nat,
      Run id (scriptedBackend [bytes "use: calc 9*2"] (bytes "18")) (mainAgent Nat natFloat)
        2 0 mainGoal = some (.returned none, st1) ∧
      toolCalls st1.trace = [(bytes "calc", bytes "9*2")] ∧
      st1.trace.getLast? = some (.finalAnswer (bytes "18")) := by
  obtain ⟨h1, -, h3, st1, h4, -, h6, h7⟩ :=
    Run_calc_scenario id natFloat (9 : Nat) (2 : Nat) mainGoal rfl rfl rfl
  exact ⟨h1, h3, st1, h4 0, h6, h7⟩

/-! ## The model client -/

/-- C11 at the failing input.  For a response with at least one choice `Think`
returns the message content of the first choice and a nil error; for a response
without choices and without error it returns nothing at all: `resp.Choices[0]`
panics, and so does `Run`. -/
theorem Think_panics_without_choice :
    (∀ (σ : Type) (be : Backend σ) (a : Agent σ) (w w1 : σ) (prompt choice : GoString)
      (more : List GoString), be w a.Model prompt = (.ok (choice :: more), w1) →
      Think be a w prompt = (some (choice, none), w1)) ∧
    (∀ (σ : Type) (be : Backend σ) (a : Agent σ) (w w1 : σ) (prompt : GoString),
      be w a.Model prompt = (.ok [], w1) → Think be a w prompt = (none, w1)) ∧
    Think emptyBackend (mainAgent Unit natFloat) ()
      (initialPrompt (mainAgent Unit natFloat) mainGoal) = (none, ()) ∧
    Run id emptyBackend (mainAgent Unit natFloat) 1 () mainGoal =
      some (.panicked,
        LoopState.mk (initialPrompt (mainAgent Unit natFloat) mainGoal) ()
          [.goal mainGoal, .think (initialPrompt (mainAgent Unit natFloat) mainGoal)]) := by
  refine ⟨?_, ?_, rfl, rfl⟩
  · intro σ be a w w1 prompt choice more h
    simp [Think, h]
  · intro σ be a w w1 prompt h
    simp [Think, h]

/-! ## The line scan: redundancy of the start-of-line rules, first match wins -/

theorem scanLinesIndexOnly_cons_none (tbl : Nat → Nat) (l : GoString) (lines : List GoString)
    (h : Index (ToLower tbl (TrimSpace l)) marker = none) :
    scanLinesIndexOnly tbl (l :: lines) = scanLinesIndexOnly tbl lines := by
  simp [scanLinesIndexOnly, h]

theorem scanLinesIndexOnly_cons_some (tbl : Nat → Nat) (l : GoString) (lines : List GoString)
    (idx : Nat) (h : Index (ToLower tbl (TrimSpace l)) marker = some idx) :
    scanLinesIndexOnly tbl (l :: lines) = (sliceFrom (TrimSpace l) (idx + 4)).map TrimSpace := by
  simp [scanLinesIndexOnly, h]

/-- C18.  The two start-of-line checks are redundant: on every list of lines the
three-rule scan of `Run` yields the same command text (or the same panic) as
the scan that keeps only the `strings.Index` rule on the lower-cased line; and
whenever a line starts with `Use:`, its lower-cased form starts with `use:`, so
the first rule has already fired and the `Use:` branch never does. -/
theorem start_of_line_rules_redundant (tbl : Nat → Nat) :
    (∀ lines : List GoString, scanLines tbl lines = scanLinesIndexOnly tbl lines) ∧
    (∀ line : GoString, HasPrefix line (bytes "Use:") = true →
      HasPrefix (ToLower tbl line) marker = true) := by
  refine ⟨?_, fun line h => HasPrefix_Use_lower tbl line h⟩
  intro lines
  induction lines with
  | nil => rfl
  | cons l lines ih =>
    cases h : Index (ToLower tbl (TrimSpace l)) marker with
    | none =>
      rw [scanLinesIndexOnly_cons_none tbl l lines h,
        scanLines_cons_of_not_Contains tbl l lines ((Index_eq_none_iff _ _).mp h), ih]
    | some idx =>
      rw [scanLinesIndexOnly_cons_some tbl l lines idx h, scanLines_cons_of_Index tbl l lines idx h]

theorem scanLines_append_of_not_Contains (tbl : Nat → Nat) (pre lines : List GoString)
    (h : ∀ x ∈ pre, Contains (ToLower tbl (TrimSpace x)) marker = false) :
    scanLines tbl (pre ++ lines) = scanLines tbl lines := by
  induction pre with
  | nil => rfl
  | cons x pre ih =>
    rw [List.cons_append, scanLines_cons_of_not_Contains tbl x _ (h x (by simp))]
    exact ih fun y hy => h y (by simp [hy])

theorem scanLines_first_match (tbl : Nat → Nat) (pre post : List GoString) (l : GoString)
    (hpre : ∀ x ∈ pre, Contains (ToLower tbl (TrimSpace x)) marker = false)
    (hl : Contains (ToLower tbl (TrimSpace l)) marker = true) :
    scanLines tbl (pre ++ l :: post) = scanLines tbl [l] := by
  rw [scanLines_append_of_not_Contains tbl pre _ hpre]
  obtain ⟨idx, hidx⟩ := Option.isSome_iff_exists.mp (by rw [Index_isSome]; exact hl)
  rw [scanLines_cons_of_Index tbl l post idx hidx, scanLines_cons_of_Index tbl l [] idx hidx]

theorem not_mem_of_mem_Split (sep : Nat) (s l : GoString) (h : l ∈ Split sep s) : sep ∉ l := by
  induction s generalizing l with
  | nil =>
    simp only [Split, List.mem_singleton] at h
    subst h
    simp
  | cons c cs ih =>
    simp only [Split] at h
    split_ifs at h with hc
    · rcases List.mem_cons.mp h with rfl | h2
      · simp
      · exact ih l h2
    · cases hs : Split sep cs with
      | nil => 
        rw [hs] at h
        simp only [List.mem_singleton] at h
        subst h
        simpa using Ne.symm hc
      | cons l0 ls =>
        rw [hs] at h
        rcases List.mem_cons.mp h with rfl | h2
        · have := ih l0 (by rw [hs]; simp)
          simp only [List.mem_cons, not_or]
          exact ⟨Ne.symm hc, this⟩
        · exact ih l (by rw [hs]; simp [h2])

/-- The result of `ParseCommand` as a function of the line scan, when the test
of line 82 succeeds. -/
theorem ParseCommand_of_outer (tbl : Nat → Nat) (answer : GoString)
    (h : (Contains answer marker || Contains (ToLower tbl answer) marker) = true) :
    ParseCommand tbl answer =
      match scanLines tbl (Split 10 answer) with
      | none => .panicked
      | some toolCommand =>
        if toolCommand ≠ [] then
          match SplitN2 32 toolCommand with
          | [p0, p1] => .command (TrimSpace p0) (TrimSpace p1)
          | _ => .malformed
        else .noCommand := by
  unfold ParseCommand
  rw [if_pos h]

theorem outer_check_of_line (tbl : Nat → Nat) (answer l : GoString) (hl : l ∈ Split 10 answer)
    (hc : Contains (ToLower tbl (TrimSpace l)) marker = true) :
    (Contains answer marker || Contains (ToLower tbl answer) marker) = true := by
  have := Contains_ToLower_line tbl answer l marker hl (Contains_ToLower_TrimSpace tbl l marker hc)
  simp [this]

/-- The parse of an answer is the parse of its first matching line alone. -/
theorem ParseCommand_first_match (tbl : Nat → Nat) (answer l : GoString)
    (pre post : List GoString) (hs : Split 10 answer = pre ++ l :: post)
    (hpre : ∀ x ∈ pre, Contains (ToLower tbl (TrimSpace x)) marker = false)
    (hl : Contains (ToLower tbl (TrimSpace l)) marker = true) :
    ParseCommand tbl answer = ParseCommand tbl l := by
  have hmem : l ∈ Split 10 answer := by rw [hs]; simp
  have h10 : Split 10 l = [l] := Split_of_not_mem 10 l (not_mem_of_mem_Split 10 answer l hmem)
  rw [ParseCommand_of_outer tbl answer (outer_check_of_line tbl answer l hmem hl),
    ParseCommand_of_outer tbl l (outer_check_of_line tbl l l (by rw [h10]; simp) hl),
    hs, h10, scanLines_first_match tbl pre post l hpre hl]

/-- C16.  The command is taken from the first line that matches (whose trimmed,
lower-cased form contains the marker), and no later line has any influence: two
answers whose lines agree up to and including the first matching line `l` are
parsed alike, whatever lines follow, and both are parsed as the line `l` alone
is; this holds also when `l` carries no usable command. -/
theorem first_matching_line_decides (tbl : Nat → Nat) (answer1 answer2 l : GoString)
    (pre post1 post2 : List GoString)
    (h1 : Split 10 answer1 = pre ++ l :: post1) (h2 : Split 10 answer2 = pre ++ l :: post2)
    (hpre : ∀ x ∈ pre, Contains (ToLower tbl (TrimSpace x)) marker = false)
    (hl : Contains (ToLower tbl (TrimSpace l)) marker = true) :
    ParseCommand tbl answer1 = ParseCommand tbl answer2 ∧
    ParseCommand tbl answer1 = ParseCommand tbl l ∧
    scanLines tbl (Split 10 answer1) = scanLines tbl [l] := by
  refine ⟨?_, ParseCommand_first_match tbl answer1 l pre post1 h1 hpre hl, ?_⟩
  · rw [ParseCommand_first_match tbl answer1 l pre post1 h1 hpre hl,
      ParseCommand_first_match tbl answer2 l pre post2 h2 hpre hl]
  · rw [h1, scanLines_first_match tbl pre post1 l hpre hl]

/-- Witness for C16: after the line `"use:"` a later well-formed command line is
not looked at (the answer is final, as for `"use:"` alone), and after
`"Use: calc 2+2"` a later line does not change the command. -/
theorem first_matching_line_decides_witness :
    (ParseCommand id (bytes "I think\nuse:\nuse: calc 2+2") = ParseCommand id (bytes "I think\nuse:") ∧
      ParseCommand id (bytes "I think\nuse:\nuse: calc 2+2") = .noCommand) ∧
    (ParseCommand id (bytes "Use: calc 2+2\nuse: echo hi") = ParseCommand id (bytes "Use: calc 2+2") ∧
      ParseCommand id (bytes "Use: calc 2+2\nuse: echo hi") = .command (bytes "calc") (bytes "2+2")) :=
  ⟨⟨(first_matching_line_decides id (bytes "I think\nuse:\nuse: calc 2+2") (bytes "I think\nuse:")
        (bytes "use:") [bytes "I think"] [bytes "use: calc 2+2"] [] (by decide) (by decide)
        (by decide) (by decide)).1, by decide⟩,
   ⟨(first_matching_line_decides id (bytes "Use: calc 2+2\nuse: echo hi") (bytes "Use: calc 2+2")
        (bytes "Use: calc 2+2") [] [bytes "use: echo hi"] [] (by decide) (by decide)
        (by decide) (by decide)).1, by decide⟩⟩

/-! ## No command is dropped -/

/-- Non-empty command text is never dropped: the pass through the loop body is
a `continue` in which exactly one thing is reported for the command (an invalid
format, an unknown tool, or the execution of the tool found in the registry),
and no final answer is printed. -/
theorem nonempty_command_reported {σ : Type} (tbl : Nat → Nat) (be : Backend σ)
    (a : Agent σ) (st : LoopState σ) (reply cmd : GoString) (more : List GoString) (w : σ)
    (hB : be st.world a.Model st.prompt = (.ok (reply :: more), w))
    (hscan : scanLines tbl (Split 10 (TrimSpace reply)) = some cmd) (hne : cmd ≠ []) :
    ∃ (st1 : LoopState σ) (tail : List Event),
      loopBody tbl be a st = .next st1 ∧
      st1.trace = st.trace ++ [.think st.prompt, .agentSays (TrimSpace reply)] ++ tail ∧
      reported tail = 1 ∧ finalAnswers tail = [] ∧
      ((ParseCommand tbl (TrimSpace reply) = .malformed ∧ tail = [.invalidFormat]) ∨
       (∃ name input, ParseCommand tbl (TrimSpace reply) = .command name input ∧
          mapGet a.Tools name = none ∧ tail = [.usingTool name input, .unknownTool name]) ∨
       (∃ name input tool, ParseCommand tbl (TrimSpace reply) = .command name input ∧
          mapGet a.Tools name = some tool ∧
          (tail = [.usingTool name input, .execute name input] ∨
            ∃ err, tail = [.usingTool name input, .execute name input, .toolError err]))) := by
  have hT := Think_ok be a _ _ _ _ more hB
  have hP := ParseCommand_of_scan tbl _ cmd hscan hne
  rw [loopBody_think_ok tbl be a st reply w hT]
  cases hS : SplitN2 32 cmd with
  | nil =>
    rw [hS] at hP
    rw [hP]
    exact ⟨_, [.invalidFormat], rfl, rfl, rfl, rfl, Or.inl ⟨rfl, rfl⟩⟩
  | cons p0 ps =>
    cases ps with
    | nil =>
      rw [hS] at hP
      rw [hP]
      exact ⟨_, [.invalidFormat], rfl, rfl, rfl, rfl, Or.inl ⟨rfl, rfl⟩⟩
    | cons p1 ps2 =>
      cases ps2 with
      | cons p2 ps3 =>
        rw [hS] at hP
        rw [hP]
        exact ⟨_, [.invalidFormat], rfl, rfl, rfl, rfl, Or.inl ⟨rfl, rfl⟩⟩
      | nil =>
        rw [hS] at hP
        rw [hP]
        simp only []
        cases hG : mapGet a.Tools (TrimSpace p0) with
        | none =>
          rw [dispatch_unknown a st.prompt w _ _ _ hG]
          exact ⟨_, [.usingTool (TrimSpace p0) (TrimSpace p1), .unknownTool (TrimSpace p0)],
            rfl, by simp, rfl, rfl, Or.inr (Or.inl ⟨_, _, rfl, hG, rfl⟩)⟩
        | some tool =>
          rcases hX : tool.Execute w (TrimSpace p1) with ⟨⟨out, _ | err⟩, w1⟩
          · rw [dispatch_ok a st.prompt w w1 _ _ _ out tool hG hX]
            exact ⟨_, [.usingTool (TrimSpace p0) (TrimSpace p1),
                .execute (TrimSpace p0) (TrimSpace p1)],
              rfl, by simp, rfl, rfl, Or.inr (Or.inr ⟨_, _, tool, rfl, hG, Or.inl rfl⟩)⟩
          · rw [dispatch_error a st.prompt w w1 _ _ _ out tool err hG hX]
            exact ⟨_, [.usingTool (TrimSpace p0) (TrimSpace p1),
                .execute (TrimSpace p0) (TrimSpace p1), .toolError err],
              rfl, by simp, rfl, rfl, Or.inr (Or.inr ⟨_, _, tool, rfl, hG, Or.inr ⟨err, rfl⟩⟩)⟩

/-- C14, the claim as stated fails: the reply `"Done.\nUSE:"` contains the
command marker, yet nothing is reported for it (no tool execution, no unknown
tool, no invalid format) and the reply is printed as the final answer. -/
theorem marker_reply_final_counterexample :
    Contains (ToLower id (bytes "Done.\nUSE:")) marker = true ∧
    ∃ tr, Run id (constantBackend (bytes "Done.\nUSE:")) (mainAgent Unit natFloat) 1 () mainGoal =
        some (.returned none,
          LoopState.mk (initialPrompt (mainAgent Unit natFloat) mainGoal) () tr) ∧
      reported tr = 0 ∧ finalAnswers tr = [bytes "Done.\nUSE:"] :=
  ⟨by decide, _, rfl, rfl, rfl⟩

/-! ## The index of the lower-cased line applied to the line itself -/

/-- C15 at the failing inputs.  `İ` (two bytes) and the Kelvin sign (three
bytes) have one-byte lower-case forms, so the index of the marker in the
lower-cased line is too small for the line itself: for `"İuse: calc 1+1"` the
scan extracts `": calc 1+1"`, and for the same line with the Kelvin sign
(U+212A) in the place of `İ` it extracts `"e: calc 1+1"`, where the text after
the marker is `"calc 1+1"`; the parsed tool names are `":"` and `"e:"`. -/
theorem shifted_slice_after_lowercase :
    ToLower lowerExcerpt (bytes "\u0130use: calc 1+1") = bytes "iuse: calc 1+1" ∧
    Index (ToLower lowerExcerpt (bytes "\u0130use: calc 1+1")) marker = some 1 ∧
    Index (bytes "\u0130use: calc 1+1") marker = some 2 ∧
    scanLines lowerExcerpt [bytes "\u0130use: calc 1+1"] = some (bytes ": calc 1+1") ∧
    ParseCommand lowerExcerpt (bytes "\u0130use: calc 1+1") = .command (bytes ":") (bytes "calc 1+1") ∧
    scanLines lowerExcerpt [bytes "\u212Ause: calc 1+1"] = some (bytes "e: calc 1+1") ∧
    ParseCommand lowerExcerpt (bytes "\u212Ause: calc 1+1") =
      .command (bytes "e:") (bytes "calc 1+1") := by
  refine ⟨by decide, by decide, by decide, by decide, by decide, by decide, by decide⟩

/-- C17 at the failing input.  `Ⱥ` has two bytes and its lower-case form `ⱥ`
three: for the reply `"Ⱥuse:"` (six bytes) the marker is found at index 3 of
the lower-cased line, and `line[idx+4:]` is `line[7:]`, out of range: the scan
panics, and `Run` with it. -/
theorem slice_out_of_range :
    (bytes "\u023Ause:").length = 6 ∧
    Index (ToLower lowerExcerpt (TrimSpace (bytes "\u023Ause:"))) marker = some 3 ∧
    sliceFrom (TrimSpace (bytes "\u023Ause:")) (3 + 4) = none ∧
    ParseCommand lowerExcerpt (TrimSpace (bytes "\u023Ause:")) = .panicked ∧
    Run lowerExcerpt (constantBackend (bytes "\u023Ause:")) (mainAgent Unit natFloat) 1 () mainGoal =
      some (.panicked,
        LoopState.mk (initialPrompt (mainAgent Unit natFloat) mainGoal) ()
          [.goal mainGoal, .think (initialPrompt (mainAgent Unit natFloat) mainGoal),
            .agentSays (bytes "\u023Ause:")]) := by
  refine ⟨by decide, by decide, by decide, by decide, rfl⟩

/-! ## The operator search of the calculator -/

/-- A rune that does not start with an ASCII byte is none of `+ - * /`. -/
theorem isOperator_decodeRune_of_not_ascii (b : Nat) (rest : GoString) (h : ¬ b < 0x80) :
    isOperator (decodeRune (b :: rest)).1 = false := by
  simp only [decodeRune]
  repeat' split
  all_goals simp_all [isOperator, RuneError]
  all_goals first
    | omega
    | (simp only [acceptLo] at *
       split_ifs at * <;> omega)

/-- A continuation byte or any other byte from `0x80` on is none of `+ - * /`. -/
theorem isOperator_of_not_ascii (b : Nat) (h : ¬ b < 0x80) : isOperator b = false := by
  simp [isOperator]; omega

theorem isCont_not_ascii (c : Nat) (h : isCont c = true) : ¬ c < 0x80 := by
  simp [isCont] at h; omega

/-- The rune loop of `Calculator.Execute` finds what a scan of the bytes finds:
the operators are ASCII, and no byte inside a rune is ASCII. -/
theorem findOperator_eq_firstOperator (s : GoString) :
    ∀ skip i, (∀ c ∈ s.take skip, isCont c = true) →
      findOperator skip i s = firstOperator i s := by
  induction s with
  | nil => intro skip i _; cases skip <;> simp [findOperator, firstOperator]
  | cons b rest ih =>
    intro skip i h
    cases skip with
    | zero =>
      by_cases hb : b < 0x80
      · simp only [findOperator, firstOperator, decodeRune_ascii b rest hb]
        split
        · rfl
        · exact ih 0 (i + 1) (by simp)
      · simp only [findOperator, firstOperator, isOperator_decodeRune_of_not_ascii b rest hb,
          isOperator_of_not_ascii b hb, Bool.false_and, Bool.false_eq_true, if_false]
        exact ih _ (i + 1) (decodeRune_conts b rest)
    | succ k =>
      have hb : isCont b = true := h b (by simp)
      simp only [findOperator, firstOperator, isOperator_of_not_ascii b (isCont_not_ascii b hb),
        Bool.false_and, Bool.false_eq_true, if_false]
      exact ih k (i + 1) (fun c hc => h c (by simp [hc]))

/-- `Calculator.Execute` is the operator search on the input without spaces,
followed by lines 40-66 on the two sides of the operator found. -/
theorem Execute_eq_operate (F : Float64Lib) (input : GoString) :
    Calculator.Execute F input =
      match findOperator 0 0 (deleteSpaces input) with
      | none => ([], some ⟨bytes "no operator found"⟩)
      | some (char, opIndex) =>
        Calculator.operate F ((deleteSpaces input).take opIndex) char
          ((deleteSpaces input).drop (opIndex + 1)) := rfl

theorem firstOperator_none (s : GoString) :
    ∀ i, (∀ d ∈ s, isOperator d = false) → firstOperator i s = none := by
  induction s with
  | nil => intro i _; rfl
  | cons b rest ih =>
    intro i h
    simp only [firstOperator, h b (by simp), Bool.false_and, Bool.false_eq_true, if_false]
    exact ih (i + 1) (fun d hd => h d (by simp [hd]))

theorem firstOperator_append (a b : GoString) (c : Nat) (hc : isOperator c = true) :
    ∀ i, 0 < i → (∀ d ∈ a, isOperator d = false) →
      firstOperator i (a ++ c :: b) = some (c, i + a.length) := by
  induction a with
  | nil => intro i hi _; simp [firstOperator, hc, hi]
  | cons x a ih =>
    intro i hi h
    simp only [List.cons_append, firstOperator, h x (by simp), Bool.false_and,
      Bool.false_eq_true, if_false, List.length_cons]
    have e := ih (i + 1) (by omega) (fun d hd => h d (by simp [hd]))
    rw [show i + (a.length + 1) = i + 1 + a.length by omega]
    exact e

/-- A string has no operator, or splits at its first operator. -/
theorem exists_first_operator (s : GoString) :
    (∀ d ∈ s, isOperator d = false) ∨
      ∃ a c b, s = a ++ c :: b ∧ isOperator c = true ∧ ∀ d ∈ a, isOperator d = false := by
  induction s with
  | nil => left; simp
  | cons x t ih =>
    by_cases hx : isOperator x = true
    · right; exact ⟨[], x, t, rfl, hx, by simp⟩
    · rcases ih with h | ⟨a, c, b, hs, hc, ha⟩
      · left
        intro d hd
        rcases List.mem_cons.1 hd with rfl | hd
        · simpa using hx
        · exact h d hd
      · right
        refine ⟨x :: a, c, b, by simp [hs], hc, ?_⟩
        intro d hd
        rcases List.mem_cons.1 hd with rfl | hd
        · simpa using hx
        · exact ha d hd

/-- The operator search on a string with no operator after its first byte. -/
theorem findOperator_none_of_tail (s : GoString) (h : ∀ d ∈ s.tail, isOperator d = false) :
    findOperator 0 0 s = none := by
  rw [findOperator_eq_firstOperator s 0 0 (by simp)]
  cases s with
  | nil => rfl
  | cons x t =>
    simp only [firstOperator, Nat.lt_irrefl, decide_False, Bool.and_false, Bool.false_eq_true,
      if_false]
    exact firstOperator_none t 1 h

/-- The operator search on a string split at its first operator after the first
byte. -/
theorem findOperator_of_split (a b : GoString) (c : Nat) (ha : a ≠ [])
    (hc : isOperator c = true) (h : ∀ d ∈ a.tail, isOperator d = false) :
    findOperator 0 0 (a ++ c :: b) = some (c, a.length) := by
  rw [findOperator_eq_firstOperator _ 0 0 (by simp)]
  cases a with
  | nil => exact absurd rfl ha
  | cons x t =>
    simp only [List.cons_append, firstOperator, Nat.lt_irrefl, decide_False, Bool.and_false,
      Bool.false_eq_true, if_false, List.length_cons]
    have e := firstOperator_append t b c hc 1 (by omega) h
    rw [show t.length + 1 = 1 + t.length by omega]
    exact e

/-- C20.  `Calculator.Execute` splits its input, with every space deleted, at the
first of the characters `+ - * /` after the first byte: when no byte after the
first is one of them the answer is the error "no operator found" with an empty
result; when the input without spaces is `a`, then an operator `c`, then `b`,
with `a` non-empty and free of operators after its first byte, the answer is
that of lines 40-66 for the left operand `a`, the operator `c` and the right
operand `b`; and one of the two cases always holds. -/
theorem Execute_splits_at_first_operator (F : Float64Lib) (input : GoString) :
    ((∀ d ∈ (deleteSpaces input).tail, isOperator d = false) →
      Calculator.Execute F input = ([], some ⟨bytes "no operator found"⟩)) ∧
    (∀ a c b, deleteSpaces input = a ++ c :: b → a ≠ [] → isOperator c = true →
      (∀ d ∈ a.tail, isOperator d = false) →
      Calculator.Execute F input = Calculator.operate F a c b) ∧
    ((∀ d ∈ (deleteSpaces input).tail, isOperator d = false) ∨
      ∃ a c b, deleteSpaces input = a ++ c :: b ∧ a ≠ [] ∧ isOperator c = true ∧
        ∀ d ∈ a.tail, isOperator d = false) := by
  refine ⟨?_, ?_, ?_⟩
  · intro h
    rw [Execute_eq_operate, findOperator_none_of_tail _ h]
  · intro a c b hs ha hc h
    rw [Execute_eq_operate, hs, findOperator_of_split a b c ha hc h]
    simp
  · cases hs : deleteSpaces input with
    | nil => left; simp
    | cons x t =>
      rcases exists_first_operator t with h | ⟨a, c, b, ht, hc, ha⟩
      · left; simpa using h
      · right
        exact ⟨x :: a, c, b, by simp [ht], by simp, hc, by simpa using ha⟩

/-- C20 on the inputs `"-3+2"`, `""`, `"42"`, `"-42"` and `" + "`: the first
splits into `"-3"`, `+` and `"2"` and gives `"-1"`, the others have no operator
after the first byte. -/
theorem Execute_splits_at_first_operator_witness :
    Calculator.Execute decFloat (bytes "-3+2") =
      Calculator.operate decFloat (bytes "-3") 0x2B (bytes "2") ∧
    Calculator.operate decFloat (bytes "-3") 0x2B (bytes "2") = (bytes "-1", none) ∧
    Calculator.Execute decFloat (bytes "") = ([], some ⟨bytes "no operator found"⟩) ∧
    Calculator.Execute decFloat (bytes "42") = ([], some ⟨bytes "no operator found"⟩) ∧
    Calculator.Execute decFloat (bytes "-42") = ([], some ⟨bytes "no operator found"⟩) ∧
    Calculator.Execute decFloat (bytes " + ") = ([], some ⟨bytes "no operator found"⟩) :=
  ⟨(Execute_splits_at_first_operator decFloat (bytes "-3+2")).2.1 (bytes "-3") 0x2B (bytes "2")
      (by decide) (by decide) (by decide) (by decide),
    by decide,
    (Execute_splits_at_first_operator decFloat (bytes "")).1 (by decide),
    (Execute_splits_at_first_operator decFloat (bytes "42")).1 (by decide),
    (Execute_splits_at_first_operator decFloat (bytes "-42")).1 (by decide),
    (Execute_splits_at_first_operator decFloat (bytes " + ")).1 (by decide)⟩

/-! ## Division and the printing of results -/

theorem deleteSpaces_append (a b : GoString) :
    deleteSpaces (a ++ b) = deleteSpaces a ++ deleteSpaces b := by
  simp [deleteSpaces]

theorem take_split (a b : GoString) (c : Nat) : (a ++ c :: b).take a.length = a := by
  simp

theorem drop_split (a b : GoString) (c : Nat) : (a ++ c :: b).drop (a.length + 1) = b := by
  induction a with
  | nil => rfl
  | cons x a ih => simp [ih]

/-- Lines 40-66 for the operator `/` on operands that parse. -/
theorem operate_div (F : Float64Lib) (aStr bStr : GoString) (x y : F.T)
    (hx : parseFloat F aStr = .ok x) (hy : parseFloat F bStr = .ok y) :
    Calculator.operate F aStr 0x2F bStr =
      if F.isZero y = true then ([], some ⟨bytes "divide by zero"⟩)
      else if F.int64Exact (F.div x y) = true then (F.fmt0 (F.div x y), none)
      else (F.fmt2 (F.div x y), none) := by
  have e : encodeRune 0x2F = [0x2F] := by decide
  have e1 : ¬ ([0x2F] : GoString) = bytes "+" := by decide
  have e2 : ¬ ([0x2F] : GoString) = bytes "-" := by decide
  have e3 : ¬ ([0x2F] : GoString) = bytes "*" := by decide
  have e4 : ([0x2F] : GoString) = bytes "/" := by decide
  simp only [Calculator.operate, hx, hy, e]
  rw [if_neg e1, if_neg e2, if_neg e3, if_pos e4]

/-- The division of `Calculator.Execute` on `a/b`, when `a` without spaces has
no operator after its first byte and both operands parse. -/
theorem Execute_division (F : Float64Lib) (a b : GoString) (x y : F.T)
    (hop : ∀ d ∈ (deleteSpaces a).tail, isOperator d = false)
    (hx : parseFloat F (deleteSpaces a) = .ok x)
    (hy : parseFloat F (deleteSpaces b) = .ok y) :
    Calculator.Execute F (a ++ bytes "/" ++ b) =
      if F.isZero y = true then ([], some ⟨bytes "divide by zero"⟩)
      else if F.int64Exact (F.div x y) = true then (F.fmt0 (F.div x y), none)
      else (F.fmt2 (F.div x y), none) := by
  have ha : deleteSpaces a ≠ [] := by
    intro h
    rw [h] at hx
    simp [parseFloat] at hx
  have hs : deleteSpaces (a ++ bytes "/" ++ b) = deleteSpaces a ++ 0x2F :: deleteSpaces b := by
    rw [deleteSpaces_append, deleteSpaces_append]
    have : deleteSpaces (bytes "/") = [0x2F] := by decide
    rw [this]; simp
  rw [Execute_eq_operate, hs, findOperator_of_split _ _ _ ha (by decide) hop]
  simp only [take_split, drop_split]
  exact operate_div F _ _ x y hx hy

/-- C12, amended.  For every input `a/b` in which `a`, spaces deleted, has none
of `+ - * /` after its first byte and `parseFloat` accepts `a` and `b`, spaces
deleted, with the values `x` and `y`: when `y` equals zero `Calculator.Execute`
returns the empty result with the error "divide by zero", and when `y` is not
zero it returns no error. -/
theorem division_by_zero_reported (F : Float64Lib) (a b : GoString) (x y : F.T)
    (hop : ∀ d ∈ (deleteSpaces a).tail, isOperator d = false)
    (hx : parseFloat F (deleteSpaces a) = .ok x)
    (hy : parseFloat F (deleteSpaces b) = .ok y) :
    (F.isZero y = true →
      Calculator.Execute F (a ++ bytes "/" ++ b) = ([], some ⟨bytes "divide by zero"⟩)) ∧
    (F.isZero y = false → (Calculator.Execute F (a ++ bytes "/" ++ b)).2 = none) := by
  rw [Execute_division F a b x y hop hx hy]
  constructor
  · intro h
    rw [if_pos h]
  · intro h
    rw [if_neg (by simp [h])]
    split_ifs <;> rfl

/-- C12, amended, on `"0/0"`, `"5 / -0"` and `"1/4"`: the first two report the
division by zero, the third returns no error. -/
theorem division_by_zero_reported_witness :
    Calculator.Execute decFloat (bytes "0" ++ bytes "/" ++ bytes "0") =
      ([], some ⟨bytes "divide by zero"⟩) ∧
    Calculator.Execute decFloat (bytes "5 " ++ bytes "/" ++ bytes " -0") =
      ([], some ⟨bytes "divide by zero"⟩) ∧
    (Calculator.Execute decFloat (bytes "1" ++ bytes "/" ++ bytes "4")).2 = none :=
  ⟨(division_by_zero_reported decFloat (bytes "0") (bytes "0") ⟨false, 0, 0⟩ ⟨false, 0, 0⟩
      (by decide) rfl rfl).1 rfl,
    (division_by_zero_reported decFloat (bytes "5 ") (bytes " -0") ⟨false, 5, 0⟩ ⟨true, 0, 0⟩
      (by decide) rfl rfl).1 rfl,
    (division_by_zero_reported decFloat (bytes "1") (bytes "4") ⟨false, 1, 0⟩ ⟨false, 4, 0⟩
      (by decide) rfl rfl).2 rfl⟩

/-- C12 as stated fails at `"1e+3/0"`, `"1e+3/2"` and `"1-2/0"`.  The dividends
`"1e+3"` and `"1-2"` are accepted by `parseFloat` (as 1000, and as 1 with the
rest ignored) and so are the divisors, but the operator search stops at the
first `+` or `-` after the first byte: `"1e+3/0"` and `"1e+3/2"` answer
"invalid first number: 1e", whatever the divisor, and `"1-2/0"` answers `"-1"`
with no error though the divisor is zero. -/
theorem division_operand_with_operator_counterexample :
    parseFloat decFloat (bytes "1e+3") = .ok ⟨false, 1000, 0⟩ ∧
    parseFloat decFloat (bytes "1-2") = .ok ⟨false, 1, 0⟩ ∧
    parseFloat decFloat (bytes "0") = .ok ⟨false, 0, 0⟩ ∧
    parseFloat decFloat (bytes "2") = .ok ⟨false, 2, 0⟩ ∧
    Calculator.Execute decFloat (bytes "1e+3" ++ bytes "/" ++ bytes "0") =
      ([], some ⟨bytes "invalid first number: 1e"⟩) ∧
    Calculator.Execute decFloat (bytes "1e+3" ++ bytes "/" ++ bytes "2") =
      ([], some ⟨bytes "invalid first number: 1e"⟩) ∧
    Calculator.Execute decFloat (bytes "1-2" ++ bytes "/" ++ bytes "0") = (bytes "-1", none) :=
  ⟨rfl, rfl, rfl, rfl, by decide, by decide, by decide⟩

/-- C13 at the failing input.  For every float library the operators `+`, `-`
and `*` print their result with `%.0f` and never with two decimal places,
whether the result is an integer or not; with decimal arithmetic `"0.5+0.25"`
gives `"1"`, `"0.5-0.25"` gives `"0"` and `"1.5*1.5"` gives `"2"`, while the
division `"1/4"` gives `"0.25"`. -/
theorem sum_printed_without_decimals :
    (∀ (F : Float64Lib) (aStr bStr : GoString) (x y : F.T),
      parseFloat F aStr = .ok x → parseFloat F bStr = .ok y →
      Calculator.operate F aStr 0x2B bStr = (F.fmt0 (F.add x y), none) ∧
      Calculator.operate F aStr 0x2D bStr = (F.fmt0 (F.sub x y), none) ∧
      Calculator.operate F aStr 0x2A bStr = (F.fmt0 (F.mul x y), none)) ∧
    Calculator.Execute decFloat (bytes "0.5+0.25") =
      Calculator.operate decFloat (bytes "0.5") 0x2B (bytes "0.25") ∧
    decFloat.add ⟨false, 5, 1⟩ ⟨false, 25, 2⟩ = ⟨false, 75, 2⟩ ∧
    Calculator.Execute decFloat (bytes "0.5+0.25") = (bytes "1", none) ∧
    Calculator.Execute decFloat (bytes "0.5-0.25") = (bytes "0", none) ∧
    Calculator.Execute decFloat (bytes "1.5*1.5") = (bytes "2", none) ∧
    Calculator.Execute decFloat (bytes "1/4") = (bytes "0.25", none) := by
  refine ⟨?_, by decide, rfl, by decide, by decide, by decide, by decide⟩
  intro F aStr bStr x y hx hy
  refine ⟨?_, ?_, ?_⟩
  · have e : encodeRune 0x2B = bytes "+" := by decide
    simp only [Calculator.operate, hx, hy, e, if_true]
  · have e : encodeRune 0x2D = bytes "-" := by decide
    have e1 : ¬ bytes "-" = bytes "+" := by decide
    simp only [Calculator.operate, hx, hy, e]
    rw [if_neg e1, if_pos trivial]
  · have e : encodeRune 0x2A = bytes "*" := by decide
    have e1 : ¬ bytes "*" = bytes "+" := by decide
    have e2 : ¬ bytes "*" = bytes "-" := by decide
    simp only [Calculator.operate, hx, hy, e]
    rw [if_neg e1, if_neg e2, if_pos trivial]

/-! ## What `TrimSpace` returns -/

/-- A rune that is white space and fills the string `L` is what
`DecodeLastRuneInString` finds at the end of any string that ends in `L`. -/
theorem decodeLastRuneRev_of_space (L pre : GoString)
    (h : isSpace (decodeRune L).1 = true) (hw : (decodeRune L).2 = L.length) :
    decodeLastRuneRev (L.reverse ++ pre) = decodeRune L := by
  obtain ⟨b0, L1, rfl, hs⟩ := runeStart_of_space L h
  have hc := decodeRune_conts b0 L1
  have h4 := decodeRune_width_le_four (b0 :: L1)
  rw [hw] at hc h4
  simp only [List.length_cons, Nat.add_sub_cancel, List.take_length] at hc
  rcases L1 with _ | ⟨b1, _ | ⟨b2, _ | ⟨b3, _ | ⟨b4, rest⟩⟩⟩⟩
  · by_cases hb : b0 < 0x80
    · simp [decodeLastRuneRev, hb, decodeRune]
    · rw [decodeRune_single b0 hb] at h
      simp [isSpace_RuneError] at h
  · have c1 := isCont_not_ascii b1 (hc b1 (by simp))
    simp [decodeLastRuneRev, c1, hs, lastCheck, hw]
  · have c1 : runeStart b1 = false := by simp [runeStart, hc b1 (by simp)]
    have c2 := isCont_not_ascii b2 (hc b2 (by simp))
    simp [decodeLastRuneRev, c1, c2, hs, lastCheck, hw]
  · have c1 : runeStart b1 = false := by simp [runeStart, hc b1 (by simp)]
    have c2 : runeStart b2 = false := by simp [runeStart, hc b2 (by simp)]
    have c3 := isCont_not_ascii b3 (hc b3 (by simp))
    simp [decodeLastRuneRev, c1, c2, c3, hs, lastCheck, hw]
  · simp at h4

/-- White space found at the end of a string is found there whatever stands
before the string. -/
theorem decodeLastRuneRev_append_of_space (rs more : GoString)
    (h : isSpace (decodeLastRuneRev rs).1 = true) :
    decodeLastRuneRev (rs ++ more) = decodeLastRuneRev rs := by
  obtain ⟨L, rest, hrs, _, hd, hw⟩ := decodeLast_space rs h
  have h1 : isSpace (decodeRune L).1 = true := by rw [hd]; exact h
  have h2 : (decodeRune L).2 = L.length := by rw [hd]; exact hw
  rw [← hd, hrs, List.append_assoc]
  exact decodeLastRuneRev_of_space L (rest ++ more) h1 h2

/-- `TrimLeftFunc` leaves nothing, or a string that starts with no white space. -/
theorem trimLeftSpace_first (n : Nat) :
    ∀ s : GoString, s.length ≤ n →
      trimLeftSpace n s = [] ∨ isSpace (decodeRune (trimLeftSpace n s)).1 = false := by
  induction n with
  | zero =>
    intro s hs
    left
    have : s = [] := List.length_eq_zero.1 (by omega)
    simp [trimLeftSpace, this]
  | succ n ih =>
    intro s hs
    cases s with
    | nil => left; rfl
    | cons b rest =>
      simp only [trimLeftSpace]
      split_ifs with h
      · apply ih
        have := decodeRune_width_pos b rest
        simp only [List.length_drop, List.length_cons] at hs ⊢
        omega
      · right; simpa using h

/-- The width of the last rune of a non-empty string is positive. -/
theorem decodeLastRuneRev_width_pos_of_space (rs : GoString)
    (h : isSpace (decodeLastRuneRev rs).1 = true) : 0 < (decodeLastRuneRev rs).2 := by
  obtain ⟨L, rest, _, hL, _, hw⟩ := decodeLast_space rs h
  rw [hw]
  exact List.length_pos.2 hL

/-- `TrimRightFunc` leaves nothing, or a string that ends with no white space. -/
theorem trimRightSpaceRev_last (n : Nat) :
    ∀ rs : GoString, rs.length ≤ n →
      trimRightSpaceRev n rs = [] ∨
        isSpace (decodeLastRuneRev (trimRightSpaceRev n rs)).1 = false := by
  induction n with
  | zero =>
    intro rs hs
    left
    have : rs = [] := List.length_eq_zero.1 (by omega)
    simp [trimRightSpaceRev, this]
  | succ n ih =>
    intro rs hs
    cases rs with
    | nil => left; rfl
    | cons b rest =>
      simp only [trimRightSpaceRev]
      split_ifs with h
      · apply ih
        have := decodeLastRuneRev_width_pos_of_space _ h
        simp only [List.length_drop, List.length_cons] at hs ⊢
        omega
      · right; simpa using h

/-- Trimming on the right keeps a first rune that is no white space. -/
theorem trimRightSpaceRev_first (n : Nat) :
    ∀ l : GoString, l ≠ [] → isSpace (decodeRune l).1 = false →
      trimRightSpaceRev n l.reverse ≠ [] ∧
        isSpace (decodeRune (trimRightSpaceRev n l.reverse).reverse).1 = false := by
  induction n with
  | zero =>
    intro l hl h
    simp only [trimRightSpaceRev, List.reverse_reverse]
    exact ⟨by simpa using hl, h⟩
  | succ n ih =>
    intro l hl h
    cases hr : l.reverse with
    | nil => exact absurd (List.reverse_eq_nil_iff.1 hr) hl
    | cons b rest0 =>
      simp only [trimRightSpaceRev]
      split_ifs with hsp
      · obtain ⟨L, rest, hrs, hL, hd, hw⟩ := decodeLast_space _ hsp
        have hl2 : l = rest.reverse ++ L := by
          have := congrArg List.reverse hr
          rw [List.reverse_reverse, hrs] at this
          simpa using this
        have hLs : isSpace (decodeRune L).1 = true := by rw [hd]; exact hsp
        obtain ⟨c, L1, hc, hstart⟩ := runeStart_of_space L hLs
        have hrest : rest ≠ [] := by
          intro e
          rw [e] at hl2
          simp only [List.reverse_nil, List.nil_append] at hl2
          rw [hl2, hLs] at h
          exact absurd h (by simp)
        have hdrop : (b :: rest0).drop (decodeLastRuneRev (b :: rest0)).2 = rest := by
          rw [hw, hrs]
          simp
        rw [hdrop]
        have hfirst : decodeRune rest.reverse = decodeRune l := by
          rw [hl2, hc]
          exact (decodeRune_append_start rest.reverse L1 c (by simpa using hrest) hstart).symm
        have := ih rest.reverse (by simpa using hrest) (by rw [hfirst]; exact h)
        simpa using this
      · rw [← hr, List.reverse_reverse]
        exact ⟨by rw [hr]; simp, h⟩

/-- Trimming on the left keeps a last rune that is no white space. -/
theorem trimLeftSpace_last (n : Nat) :
    ∀ s : GoString, s ≠ [] → isSpace (decodeLastRune s).1 = false →
      trimLeftSpace n s ≠ [] ∧ isSpace (decodeLastRune (trimLeftSpace n s)).1 = false := by
  induction n with
  | zero => intro s hs h; exact ⟨hs, h⟩
  | succ n ih =>
    intro s hs h
    cases s with
    | nil => exact absurd rfl hs
    | cons b rest =>
      simp only [trimLeftSpace]
      split_ifs with hsp
      · have hsplit : b :: rest = (b :: rest).take (decodeRune (b :: rest)).2 ++
            (b :: rest).drop (decodeRune (b :: rest)).2 := (List.take_append_drop _ _).symm
        have hne : (b :: rest).drop (decodeRune (b :: rest)).2 ≠ [] := by
          intro e
          have hlen : (b :: rest).length ≤ (decodeRune (b :: rest)).2 := by
            simpa [List.drop_eq_nil_iff] using e
          have hw : (decodeRune (b :: rest)).2 = (b :: rest).length :=
            Nat.le_antisymm (decodeRune_width_le _) hlen
          have := decodeLastRuneRev_of_space (b :: rest) [] hsp hw
          rw [List.append_nil] at this
          unfold decodeLastRune at h
          rw [this, hsp] at h
          exact absurd h (by simp)
        have hlast : isSpace (decodeLastRune ((b :: rest).drop (decodeRune (b :: rest)).2)).1
            = false := by
          by_contra hc
          have hc2 : isSpace (decodeLastRuneRev
              ((b :: rest).drop (decodeRune (b :: rest)).2).reverse).1 = true := by
            simpa [decodeLastRune] using hc
          have := decodeLastRuneRev_append_of_space _
            ((b :: rest).take (decodeRune (b :: rest)).2).reverse hc2
          rw [← List.reverse_append, ← hsplit] at this
          unfold decodeLastRune at h
          rw [this, hc2] at h
          exact absurd h (by simp)
        exact ih _ hne hlast
      · exact ⟨hs, h⟩

/-- What `TrimSpace` returns is empty or has no white space at either end. -/
theorem TrimSpace_ends (s : GoString) :
    TrimSpace s = [] ∨
      (isSpace (decodeRune (TrimSpace s)).1 = false ∧
        isSpace (decodeLastRune (TrimSpace s)).1 = false) := by
  unfold TrimSpace
  rcases trimLeftSpace_first s.length s (Nat.le_refl _) with h | h
  · left; simp [h, trimRightSpaceRev]
  · by_cases hl : trimLeftSpace s.length s = []
    · left; simp [hl, trimRightSpaceRev]
    · right
      obtain ⟨h1, h2⟩ := trimRightSpaceRev_first (trimLeftSpace s.length s).length _ hl h
      refine ⟨h2, ?_⟩
      rcases trimRightSpaceRev_last (trimLeftSpace s.length s).length
        (trimLeftSpace s.length s).reverse (by simp) with h3 | h3
      · exact absurd h3 h1
      · simpa [decodeLastRune] using h3

/-- A string that starts with no white space is not trimmed to nothing. -/
theorem TrimSpace_ne_nil_of_first (s : GoString) (hs : s ≠ [])
    (h : isSpace (decodeRune s).1 = false) : TrimSpace s ≠ [] := by
  unfold TrimSpace
  rw [trimLeftSpace_of_not_space _ s h]
  have := (trimRightSpaceRev_first s.length s hs h).1
  simpa using this

/-- A string that ends with no white space is not trimmed to nothing. -/
theorem TrimSpace_ne_nil_of_last (s : GoString) (hs : s ≠ [])
    (h : isSpace (decodeLastRune s).1 = false) : TrimSpace s ≠ [] := by
  unfold TrimSpace
  obtain ⟨h1, h2⟩ := trimLeftSpace_last s.length s hs h
  simp only
  rw [trimRightSpaceRev_of_not_space _ _ (by simpa [decodeLastRune] using h2)]
  simpa using h1

theorem trimLeftSpace_suffix (n : Nat) : ∀ s : GoString, trimLeftSpace n s <:+ s := by
  induction n with
  | zero => intro s; exact List.suffix_refl s
  | succ n ih =>
    intro s
    cases s with
    | nil => exact List.suffix_refl _
    | cons b rest =>
      simp only [trimLeftSpace]
      split_ifs with h
      · exact (ih _).trans (List.drop_suffix _ _)
      · exact List.suffix_refl _

theorem trimRightSpaceRev_suffix (n : Nat) : ∀ rs : GoString, trimRightSpaceRev n rs <:+ rs := by
  induction n with
  | zero => intro s; exact List.suffix_refl s
  | succ n ih =>
    intro s
    cases s with
    | nil => exact List.suffix_refl _
    | cons b rest =>
      simp only [trimRightSpaceRev]
      split_ifs with h
      · exact (ih _).trans (List.drop_suffix _ _)
      · exact List.suffix_refl _

/-- Every byte of `TrimSpace s` is a byte of `s`. -/
theorem mem_of_mem_TrimSpace (s : GoString) (c : Nat) (h : c ∈ TrimSpace s) : c ∈ s := by
  unfold TrimSpace at h
  rw [List.mem_reverse] at h
  have h1 := (trimRightSpaceRev_suffix _ _).subset h
  rw [List.mem_reverse] at h1
  exact (trimLeftSpace_suffix _ _).subset h1

/-! ## The parts of a well-formed command -/

/-- The command text that the line scan extracts is empty or a result of
`TrimSpace`. -/
theorem scanLines_some_form (tbl : Nat → Nat) (lines : List GoString) (cmd : GoString)
    (h : scanLines tbl lines = some cmd) : cmd = [] ∨ ∃ X, cmd = TrimSpace X := by
  have key : ∀ (line : GoString) (k : Nat), (sliceFrom line k).map TrimSpace = some cmd →
      ∃ X, cmd = TrimSpace X := by
    intro line k hk
    unfold sliceFrom at hk
    split_ifs at hk
    · exact ⟨line.drop k, by simpa using hk.symm⟩
    · simp at hk
  induction lines with
  | nil =>
    left
    simpa [scanLines] using h.symm
  | cons l lines ih =>
    simp only [scanLines] at h
    split_ifs at h
    · exact Or.inr (key _ _ h)
    · exact Or.inr (key _ _ h)
    · split at h
      · exact Or.inr (key _ _ h)
      · exact ih h

theorem SplitN2_of_not_mem (sep : Nat) (s : GoString) (h : sep ∉ s) : SplitN2 sep s = [s] := by
  have : s.indexOf? sep = none := by
    simp only [List.indexOf?, List.findIdx?_eq_none_iff]
    intro x hx
    simp only [beq_iff_eq, Bool.not_eq_true, beq_eq_false_iff_ne]
    rintro rfl
    exact h hx
  simp [SplitN2, this]

/-- The two parts of `SplitN(s, sep, 2)` stand before and after the first
separator. -/
theorem SplitN2_pair (sep : Nat) (s p0 p1 : GoString) (h : SplitN2 sep s = [p0, p1]) :
    s = p0 ++ sep :: p1 ∧ sep ∉ p0 := by
  rcases exists_first_sep sep s with hn | ⟨l0, rest, hs, hl⟩
  · rw [SplitN2_of_not_mem sep s hn] at h
    simp at h
  · rw [hs, SplitN2_append l0 rest sep hl] at h
    simp only [List.cons.injEq, and_true] at h
    obtain ⟨rfl, rfl⟩ := h
    exact ⟨hs, hl⟩

/-- The shape of a well-formed command: the tool name and the argument are the
trimmed parts of a trimmed, non-empty command text around its first space. -/
theorem ParseCommand_command (tbl : Nat → Nat) (answer name input : GoString)
    (h : ParseCommand tbl answer = .command name input) :
    ∃ X p0 p1, TrimSpace X ≠ [] ∧ TrimSpace X = p0 ++ 32 :: p1 ∧ 32 ∉ p0 ∧
      name = TrimSpace p0 ∧ input = TrimSpace p1 := by
  unfold ParseCommand at h
  split_ifs at h with hc
  cases hs : scanLines tbl (Split 10 answer) with
  | none => simp [hs] at h
  | some cmd =>
    simp only [hs] at h
    split_ifs at h with hne
    rcases scanLines_some_form tbl _ cmd hs with he | ⟨X, hX⟩
    · exact absurd he hne
    · split at h
      · rename_i p0 p1 hsp
        obtain ⟨h1, h2⟩ := SplitN2_pair 32 cmd p0 p1 hsp
        simp only [Parsed.command.injEq] at h
        exact ⟨X, p0, p1, by rw [← hX]; exact hne, by rw [← hX]; exact h1, h2, h.1.symm,
          h.2.symm⟩
      · simp at h

/-- The tool name and the argument of a well-formed command are not empty and
have no white space at either end, and the name has no space character. -/
theorem command_parts (tbl : Nat → Nat) (answer name input : GoString)
    (h : ParseCommand tbl answer = .command name input) :
    name ≠ [] ∧ 32 ∉ name ∧
      isSpace (decodeRune name).1 = false ∧ isSpace (decodeLastRune name).1 = false ∧
      input ≠ [] ∧
      isSpace (decodeRune input).1 = false ∧ isSpace (decodeLastRune input).1 = false := by
  obtain ⟨X, p0, p1, hne, hsplit, hmem, rfl, rfl⟩ := ParseCommand_command tbl answer name input h
  have hends : isSpace (decodeRune (TrimSpace X)).1 = false ∧
      isSpace (decodeLastRune (TrimSpace X)).1 = false := by
    rcases TrimSpace_ends X with h0 | h0
    · exact absurd h0 hne
    · exact h0
  rw [hsplit] at hends
  obtain ⟨hf, hl⟩ := hends
  have hp0 : p0 ≠ [] := by
    rintro rfl
    simp [decodeRune, isSpace] at hf
  have hp1 : p1 ≠ [] := by
    rintro rfl
    simp [decodeLastRune, decodeLastRuneRev, isSpace] at hl
  have hf0 : isSpace (decodeRune p0).1 = false := by
    rw [← decodeRune_append_start p0 p1 32 hp0 (by decide)]
    exact hf
  have hl1 : isSpace (decodeLastRune p1).1 = false := by
    unfold decodeLastRune at hl ⊢
    rw [List.reverse_append, List.reverse_cons, List.append_assoc, List.singleton_append,
      decodeLastRuneRev_append_ascii p1.reverse p0.reverse 32 (by simpa using hp1)
        (by decide)] at hl
    exact hl
  have n0 := TrimSpace_ne_nil_of_first p0 hp0 hf0
  have n1 := TrimSpace_ne_nil_of_last p1 hp1 hl1
  have e0 := (TrimSpace_ends p0).resolve_left n0
  have e1 := (TrimSpace_ends p1).resolve_left n1
  exact ⟨n0, fun hm => hmem (mem_of_mem_TrimSpace p0 32 hm), e0.1, e0.2, n1, e1.1, e1.2⟩

/-- The calls of `Execute` that `dispatch` adds to a trace have the argument it
was given. -/
theorem dispatch_toolCalls {σ : Type} (a : Agent σ) (prompt : GoString) (w : σ)
    (tr : List Event) (toolName input : GoString) :
    ∀ c ∈ toolCalls (dispatch a prompt w tr toolName input).trace,
      c ∈ toolCalls tr ∨ c.2 = input := by
  intro c hc
  cases h : mapGet a.Tools toolName with
  | none =>
    rw [dispatch_unknown a prompt w tr toolName input h] at hc
    simp only [toolCalls_append, toolCalls, List.append_nil] at hc
    exact Or.inl hc
  | some tool =>
    rcases hx : tool.Execute w input with ⟨⟨out, _ | e⟩, w1⟩
    · rw [dispatch_ok a prompt w w1 tr toolName input out tool h hx] at hc
      simp only [toolCalls_append, toolCalls, List.mem_append, List.mem_singleton] at hc
      rcases hc with hc | rfl
      · exact Or.inl hc
      · exact Or.inr rfl
    · rw [dispatch_error a prompt w w1 tr toolName input out tool e h hx] at hc
      simp only [toolCalls_append, toolCalls, List.mem_append, List.mem_singleton] at hc
      rcases hc with hc | rfl
      · exact Or.inl hc
      · exact Or.inr rfl

/-- One pass through the loop body calls `Execute` at most with a non-empty
argument. -/
theorem loopBody_toolCalls {σ : Type} (tbl : Nat → Nat) (be : Backend σ) (a : Agent σ)
    (st : LoopState σ) :
    ∀ c ∈ toolCalls (loopBody tbl be a st).state.trace, c ∈ toolCalls st.trace ∨ c.2 ≠ [] := by
  intro c hc
  unfold loopBody at hc
  rcases hT : Think be a st.world st.prompt with ⟨_ | ⟨reply, _ | err⟩, w⟩
  · simp only [hT, Step.state, toolCalls_append, toolCalls, List.append_nil] at hc
    exact Or.inl hc
  · simp only [hT] at hc
    cases hP : ParseCommand tbl (TrimSpace reply) with
    | noCommand =>
      simp only [hP, Step.state, toolCalls_append, toolCalls, List.append_nil] at hc
      exact Or.inl hc
    | malformed =>
      simp only [hP, Step.state, toolCalls_append, toolCalls, List.append_nil] at hc
      exact Or.inl hc
    | panicked =>
      simp only [hP, Step.state, toolCalls_append, toolCalls, List.append_nil] at hc
      exact Or.inl hc
    | command toolName input =>
      simp only [hP, Step.state] at hc
      rcases dispatch_toolCalls a st.prompt w _ toolName input c hc with h1 | h1
      · simp only [toolCalls_append, toolCalls, List.append_nil] at h1
        exact Or.inl h1
      · right
        rw [h1]
        exact (command_parts tbl _ toolName input hP).2.2.2.2.1
  · simp only [hT, Step.state, toolCalls_append, toolCalls, List.append_nil] at hc
    exact Or.inl hc

/-- No state that the loop reaches has a call of `Execute` with an empty
argument, when the state it starts from has none. -/
theorem continues_toolCalls {σ : Type} (tbl : Nat → Nat) (be : Backend σ) (a : Agent σ)
    (k : Nat) : ∀ st0 st : LoopState σ, continues tbl be a k st0 = some st →
      (∀ c ∈ toolCalls st0.trace, c.2 ≠ []) → ∀ c ∈ toolCalls st.trace, c.2 ≠ [] := by
  induction k with
  | zero =>
    intro st0 st h h0
    simp only [continues, Option.some.injEq] at h
    rw [← h]; exact h0
  | succ k ih =>
    intro st0 st h h0
    simp only [continues] at h
    cases hb : loopBody tbl be a st0 with
    | stop out st1 => simp [hb] at h
    | next st1 =>
      simp only [hb] at h
      refine ih st1 st h ?_
      intro c hc
      have := loopBody_toolCalls tbl be a st0 c (by rw [hb]; exact hc)
      rcases this with h1 | h1
      · exact h0 c h1
      · exact h1

/-- C19.  A reply parsed into a well-formed command has a tool name that is not
empty, holds no space character and has no white space at either end, and an
argument that is not empty and has no white space at either end; and in every
state that `Run` reaches, and in the state in which it ends, every call of a
tool's `Execute` was made with a non-empty argument. -/
theorem well_formed_command_parts :
    (∀ (tbl : Nat → Nat) (answer name input : GoString),
      ParseCommand tbl answer = .command name input →
      name ≠ [] ∧ 32 ∉ name ∧
      isSpace (decodeRune name).1 = false ∧ isSpace (decodeLastRune name).1 = false ∧
      input ≠ [] ∧
      isSpace (decodeRune input).1 = false ∧ isSpace (decodeLastRune input).1 = false) ∧
    (∀ (σ : Type) (tbl : Nat → Nat) (be : Backend σ) (a : Agent σ) (w : σ) (goal : GoString)
      (k : Nat) (st : LoopState σ),
      continues tbl be a k (LoopState.mk (initialPrompt a goal) w [.goal goal]) = some st →
      ∀ c ∈ toolCalls st.trace, c.2 ≠ []) ∧
    (∀ (σ : Type) (tbl : Nat → Nat) (be : Backend σ) (a : Agent σ) (w : σ) (goal : GoString)
      (fuel : Nat) (res : Outcome × LoopState σ),
      Run tbl be a fuel w goal = some res → ∀ c ∈ toolCalls res.2.trace, c.2 ≠ []) := by
  refine ⟨command_parts, ?_, ?_⟩
  · intro σ tbl be a w goal k st h
    exact continues_toolCalls tbl be a k _ st h (by simp [toolCalls])
  · intro σ tbl be a w goal fuel res h
    obtain ⟨k, stk, _, hk, hb⟩ := (runLoop_eq_some_iff tbl be a fuel _ res).1 h
    have h0 := continues_toolCalls tbl be a k _ stk hk (by simp [toolCalls])
    intro c hc
    have := loopBody_toolCalls tbl be a stk c (by rw [hb]; exact hc)
    rcases this with h1 | h1
    · exact h0 c h1
    · exact h1

/-- C19 on the reply `"use:  calc\t 1 + 1 "`: the command text `"calc\t 1 + 1"`
is split at its first space into `"calc\t"` and `"1 + 1"`, and the tool name
is `"calc"`, the argument `"1 + 1"`. -/
theorem well_formed_command_parts_witness :
    ParseCommand lowerExcerpt (TrimSpace (bytes "use:  calc\t 1 + 1 ")) =
      .command (bytes "calc") (bytes "1 + 1") ∧
    bytes "calc" ≠ [] ∧ 32 ∉ bytes "calc" ∧
    isSpace (decodeRune (bytes "calc")).1 = false ∧
    isSpace (decodeLastRune (bytes "calc")).1 = false ∧
    bytes "1 + 1" ≠ [] ∧
    isSpace (decodeRune (bytes "1 + 1")).1 = false ∧
    isSpace (decodeLastRune (bytes "1 + 1")).1 = false :=
  ⟨by decide,
    well_formed_command_parts.1 lowerExcerpt (TrimSpace (bytes "use:  calc\t 1 + 1 "))
      (bytes "calc") (bytes "1 + 1") (by decide)⟩

/-! ## The command text that the line scan extracts -/

/-- A list of lines has no line with the marker, or a first one. -/
theorem exists_first_match (tbl : Nat → Nat) (lines : List GoString) :
    (∀ l ∈ lines, Contains (ToLower tbl (TrimSpace l)) marker = false) ∨
      ∃ pre l post, lines = pre ++ l :: post ∧
        (∀ x ∈ pre, Contains (ToLower tbl (TrimSpace x)) marker = false) ∧
        Contains (ToLower tbl (TrimSpace l)) marker = true := by
  induction lines with
  | nil => left; simp
  | cons x t ih =>
    by_cases hx : Contains (ToLower tbl (TrimSpace x)) marker = true
    · right; exact ⟨[], x, t, rfl, by simp, hx⟩
    · have hx2 : Contains (ToLower tbl (TrimSpace x)) marker = false := by simpa using hx
      rcases ih with h | ⟨pre, l, post, hl, hpre, hc⟩
      · left
        intro l hl
        rcases List.mem_cons.1 hl with rfl | hl
        · exact hx2
        · exact h l hl
      · right
        refine ⟨x :: pre, l, post, by simp [hl], ?_, hc⟩
        intro y hy
        rcases List.mem_cons.1 hy with rfl | hy
        · exact hx2
        · exact hpre y hy

/-- The scan stops at the first line with the marker and slices that line at the
index of the marker in its lower-cased form. -/
theorem scanLines_at_first_match (tbl : Nat → Nat) (pre post : List GoString) (l : GoString)
    (idx : Nat) (hpre : ∀ x ∈ pre, Contains (ToLower tbl (TrimSpace x)) marker = false)
    (hidx : Index (ToLower tbl (TrimSpace l)) marker = some idx) :
    scanLines tbl (pre ++ l :: post) = (sliceFrom (TrimSpace l) (idx + 4)).map TrimSpace := by
  rw [scanLines_append_of_not_Contains tbl pre _ hpre, scanLines_cons_of_Index tbl l post idx hidx]

theorem Index_of_Contains (s sub : GoString) (h : Contains s sub = true) :
    ∃ idx, Index s sub = some idx :=
  Option.isSome_iff_exists.mp (by rw [Index_isSome]; exact h)

theorem Contains_of_Index (s sub : GoString) (idx : Nat) (h : Index s sub = some idx) :
    Contains s sub = true := by
  rw [← Index_isSome, h]; rfl

/-- The scan extracts no command text exactly when no line has the marker, or
the slice of the first such line is in range and is trimmed to nothing. -/
theorem scanLines_nil_iff (tbl : Nat → Nat) (lines : List GoString) :
    scanLines tbl lines = some [] ↔
      (∀ l ∈ lines, Contains (ToLower tbl (TrimSpace l)) marker = false) ∨
      ∃ pre l post idx, lines = pre ++ l :: post ∧
        (∀ x ∈ pre, Contains (ToLower tbl (TrimSpace x)) marker = false) ∧
        Index (ToLower tbl (TrimSpace l)) marker = some idx ∧
        idx + 4 ≤ (TrimSpace l).length ∧ TrimSpace ((TrimSpace l).drop (idx + 4)) = [] := by
  constructor
  · intro h
    rcases exists_first_match tbl lines with h0 | ⟨pre, l, post, hl, hpre, hc⟩
    · exact Or.inl h0
    · right
      obtain ⟨idx, hidx⟩ := Index_of_Contains _ _ hc
      rw [hl, scanLines_at_first_match tbl pre post l idx hpre hidx] at h
      unfold sliceFrom at h
      split_ifs at h with hle
      · exact ⟨pre, l, post, idx, hl, hpre, hidx, hle, by simpa using h⟩
      · simp at h
  · rintro (h0 | ⟨pre, l, post, idx, hl, hpre, hidx, hle, ht⟩)
    · exact scanLines_none_matched tbl lines h0
    · rw [hl, scanLines_at_first_match tbl pre post l idx hpre hidx]
      simp [sliceFrom, hle, ht]

/-- The scan panics exactly when the slice of the first line with the marker is
out of range. -/
theorem scanLines_none_iff (tbl : Nat → Nat) (lines : List GoString) :
    scanLines tbl lines = none ↔
      ∃ pre l post idx, lines = pre ++ l :: post ∧
        (∀ x ∈ pre, Contains (ToLower tbl (TrimSpace x)) marker = false) ∧
        Index (ToLower tbl (TrimSpace l)) marker = some idx ∧
        (TrimSpace l).length < idx + 4 := by
  constructor
  · intro h
    rcases exists_first_match tbl lines with h0 | ⟨pre, l, post, hl, hpre, hc⟩
    · rw [scanLines_none_matched tbl lines h0] at h
      cases h
    · obtain ⟨idx, hidx⟩ := Index_of_Contains _ _ hc
      rw [hl, scanLines_at_first_match tbl pre post l idx hpre hidx] at h
      unfold sliceFrom at h
      split_ifs at h with hle
      · simp at h
      · exact ⟨pre, l, post, idx, hl, hpre, hidx, by omega⟩
  · rintro ⟨pre, l, post, idx, hl, hpre, hidx, hlt⟩
    rw [hl, scanLines_at_first_match tbl pre post l idx hpre hidx]
    have : ¬ idx + 4 ≤ (TrimSpace l).length := by omega
    simp [sliceFrom, this]

/-- The outer check of line 82 holds when the scan does not come out empty. -/
theorem outer_check_of_scan_ne (tbl : Nat → Nat) (answer : GoString)
    (h : scanLines tbl (Split 10 answer) ≠ some []) :
    (Contains answer marker || Contains (ToLower tbl answer) marker) = true := by
  rcases exists_first_match tbl (Split 10 answer) with h0 | ⟨pre, l, post, hl, -, hc⟩
  · exact absurd (scanLines_none_matched tbl _ h0) h
  · exact outer_check_of_line tbl answer l (by rw [hl]; simp) hc

/-- The parser finds no command exactly when the scan extracts no text. -/
theorem ParseCommand_noCommand_iff (tbl : Nat → Nat) (answer : GoString) :
    ParseCommand tbl answer = .noCommand ↔ scanLines tbl (Split 10 answer) = some [] := by
  constructor
  · intro h
    by_contra hne
    rw [ParseCommand_of_outer tbl answer (outer_check_of_scan_ne tbl answer hne)] at h
    cases hs : scanLines tbl (Split 10 answer) with
    | none => rw [hs] at h; simp at h
    | some cmd =>
      rw [hs] at h hne
      have hc : cmd ≠ [] := fun e => hne (by rw [e])
      simp only [hc, ne_eq, not_false_eq_true, if_true] at h
      split at h <;> simp at h
  · exact ParseCommand_of_scan_nil tbl answer

/-- The parser panics when the scan does. -/
theorem ParseCommand_of_scan_none (tbl : Nat → Nat) (answer : GoString)
    (h : scanLines tbl (Split 10 answer) = none) : ParseCommand tbl answer = .panicked := by
  rw [ParseCommand_of_outer tbl answer (outer_check_of_scan_ne tbl answer (by rw [h]; simp)), h]

/-- C10 (as the code has it).  For a model that never returns an error, `Run`
returns in its iteration `k` (after model call number `k + 1`) if and only if
the loop reaches that iteration and the reply there yields no command text
(`ParseCommand` gives `noCommand`).  The loop goes on to another model call
exactly after the replies that yield a well-formed or a malformed command.  A
reply yields no command text exactly when no line of it, trimmed and
lower-cased, contains the marker, or when at the first such line the slice
`line[idx+4:]` of the trimmed line, `idx` being the index of the marker in the
lower-cased line, is in range and is trimmed to the empty string. -/
theorem Run_returns_iff_no_command {σ : Type} (tbl : Nat → Nat) (be : Backend σ)
    (a : Agent σ) (hne : ∀ w m p e, (be w m p).1 ≠ .error e) (st : LoopState σ) :
    (∀ (k : Nat) (st1 : LoopState σ),
      ((∃ err, runLoop tbl be a (k + 1) st = some (.returned err, st1)) ∧
          runLoop tbl be a k st = none) ↔
        ∃ stk reply w, continues tbl be a k st = some stk ∧
          Think be a stk.world stk.prompt = (some (reply, none), w) ∧
          ParseCommand tbl (TrimSpace reply) = .noCommand ∧
          st1 = LoopState.mk stk.prompt w (stk.trace ++
            [.think stk.prompt, .agentSays (TrimSpace reply), .finalAnswer (TrimSpace reply)])) ∧
    (∀ (k : Nat) (stk : LoopState σ), continues tbl be a k st = some stk →
      ((continues tbl be a (k + 1) st).isSome = true ↔
        ∃ reply w, Think be a stk.world stk.prompt = (some (reply, none), w) ∧
          (ParseCommand tbl (TrimSpace reply) = .malformed ∨
            ∃ name arg, ParseCommand tbl (TrimSpace reply) = .command name arg))) ∧
    (∀ answer : GoString, ParseCommand tbl answer = .noCommand ↔
      ((∀ l ∈ Split 10 answer, Contains (ToLower tbl (TrimSpace l)) marker = false) ∨
        ∃ pre l post idx, Split 10 answer = pre ++ l :: post ∧
          (∀ x ∈ pre, Contains (ToLower tbl (TrimSpace x)) marker = false) ∧
          Index (ToLower tbl (TrimSpace l)) marker = some idx ∧
          idx + 4 ≤ (TrimSpace l).length ∧
          TrimSpace ((TrimSpace l).drop (idx + 4)) = [])) := by
  refine ⟨?_, ?_, ?_⟩
  · intro k st1
    constructor
    · rintro ⟨⟨err, hr⟩, hn⟩
      rw [runLoop_eq_none_iff] at hn
      rw [runLoop_eq_some_iff] at hr
      obtain ⟨j, stj, hj, hcj, hl⟩ := hr
      have hjk : j = k := by
        by_contra hne2
        have hlt : j < k := by omega
        have := continues_add tbl be a j (k - j) st stj hcj
        rw [show j + (k - j) = k by omega] at this
        rw [this] at hn
        obtain ⟨m, hm⟩ : ∃ m, k - j = m + 1 := ⟨k - j - 1, by omega⟩
        rw [hm, continues, hl] at hn
        simp at hn
      subst hjk
      rcases hT : Think be a stj.world stj.prompt with ⟨r, w⟩
      rcases r with _ | ⟨reply, _ | e⟩
      · rw [loopBody_think_panic tbl be a stj w hT] at hl
        simp at hl
      · refine ⟨stj, reply, w, hcj, hT, ?_⟩
        rw [loopBody_think_ok tbl be a stj reply w hT] at hl
        cases hP : ParseCommand tbl (TrimSpace reply) with
        | noCommand =>
          rw [hP] at hl
          simp only [Step.stop.injEq] at hl
          refine ⟨rfl, ?_⟩
          rw [← hl.2]
          simp
        | malformed => rw [hP] at hl; simp at hl
        | command n i => rw [hP] at hl; simp at hl
        | panicked => rw [hP] at hl; simp at hl
      · exact absurd (Think_error_iff be a _ _ _ _ e hT) (hne _ _ _ e)
    · rintro ⟨stk, reply, w, hc, hT, hP, rfl⟩
      have hl : loopBody tbl be a stk = .stop (.returned none)
          (LoopState.mk stk.prompt w (stk.trace ++
            [.think stk.prompt, .agentSays (TrimSpace reply),
              .finalAnswer (TrimSpace reply)])) := by
        rw [loopBody_think_ok tbl be a stk reply w hT, hP]
        simp
      refine ⟨⟨none, ?_⟩, ?_⟩
      · rw [runLoop_eq_some_iff]
        exact ⟨k, stk, by omega, hc, hl⟩
      · rw [runLoop_eq_none_iff, hc]
        rfl
  · intro k stk hc
    rw [continues_succ tbl be a k st stk hc]
    rcases hT : Think be a stk.world stk.prompt with ⟨r, w⟩
    rcases r with _ | ⟨reply, _ | e⟩
    · rw [loopBody_think_panic tbl be a stk w hT]
      simp
    · rw [loopBody_think_ok tbl be a stk reply w hT]
      cases hP : ParseCommand tbl (TrimSpace reply) with
      | noCommand =>
        simp only [Option.isSome_none, Bool.false_eq_true, false_iff]
        rintro ⟨reply2, w2, h2, h3⟩
        simp only [Prod.mk.injEq, Option.some.injEq, and_true] at h2
        obtain ⟨rfl, -⟩ := h2
        rw [hP] at h3
        simp at h3
      | panicked =>
        simp only [Option.isSome_none, Bool.false_eq_true, false_iff]
        rintro ⟨reply2, w2, h2, h3⟩
        simp only [Prod.mk.injEq, Option.some.injEq, and_true] at h2
        obtain ⟨rfl, -⟩ := h2
        rw [hP] at h3
        simp at h3
      | malformed =>
        simp only [Option.isSome_some, true_iff]
        exact ⟨reply, w, rfl, Or.inl hP⟩
      | command n i =>
        simp only [Option.isSome_some, true_iff]
        exact ⟨reply, w, rfl, Or.inr ⟨n, i, hP⟩⟩
    · exact absurd (Think_error_iff be a _ _ _ _ e hT) (hne _ _ _ e)
  · intro answer
    rw [ParseCommand_noCommand_iff, scanLines_nil_iff]

/-- Witness for C10: a model stub that never fails and replies `"18"`: `Run`
returns in its first iteration.  The reply `"Ⱥuse:x"` yields no command text
either: the marker is at index 3 of the lower-cased line and the slice
`line[7:]` of the line of 7 bytes is empty. -/
theorem Run_returns_iff_no_command_witness :
    (∀ (w : Unit) (m p : GoString) (e : GoError),
      (constantBackend (bytes "18") w m p).1 ≠ .error e) ∧
    (∃ err, runLoop id (constantBackend (bytes "18")) (mainAgent Unit natFloat) (0 + 1)
        (LoopState.mk (initialPrompt (mainAgent Unit natFloat) mainGoal) () [.goal mainGoal]) =
      some (.returned err,
        LoopState.mk (initialPrompt (mainAgent Unit natFloat) mainGoal) ()
          ([.goal mainGoal] ++ [.think (initialPrompt (mainAgent Unit natFloat) mainGoal),
            .agentSays (TrimSpace (bytes "18")), .finalAnswer (TrimSpace (bytes "18"))]))) ∧
    runLoop id (constantBackend (bytes "18")) (mainAgent Unit natFloat) 0
        (LoopState.mk (initialPrompt (mainAgent Unit natFloat) mainGoal) () [.goal mainGoal]) =
      none ∧
    ParseCommand lowerExcerpt (bytes "\u023Ause:x") = .noCommand := by
  have hne : ∀ (w : Unit) (m p : GoString) (e : GoError),
      (constantBackend (bytes "18") w m p).1 ≠ .error e := by
    intro w m p e h
    cases h
  have h := ((Run_returns_iff_no_command id (constantBackend (bytes "18"))
    (mainAgent Unit natFloat) hne
    (LoopState.mk (initialPrompt (mainAgent Unit natFloat) mainGoal) () [.goal mainGoal])).1 0
    (LoopState.mk (initialPrompt (mainAgent Unit natFloat) mainGoal) ()
      ([.goal mainGoal] ++ [.think (initialPrompt (mainAgent Unit natFloat) mainGoal),
        .agentSays (TrimSpace (bytes "18")), .finalAnswer (TrimSpace (bytes "18"))]))).mpr
    ⟨_, bytes "18", (), rfl, rfl, rfl, rfl⟩
  have h2 := ((Run_returns_iff_no_command lowerExcerpt (constantBackend (bytes "18"))
    (mainAgent Unit natFloat) hne
    (LoopState.mk (initialPrompt (mainAgent Unit natFloat) mainGoal) ()
      [.goal mainGoal])).2.2 (bytes "\u023Ause:x")).mpr
    (Or.inr ⟨[], bytes "\u023Ause:x", [], 3, by decide, by simp, by decide, by decide,
      by decide⟩)
  exact ⟨hne, h.1, h.2, h2⟩

/-! ## What becomes of the extracted command text -/

/-- C14 (as the code has it).  After a reply of the model, what the loop does
follows the command text that the line scan extracts.  For non-empty text the
pass is a `continue` in which exactly one thing is reported for the command: an
invalid format, an unknown tool (the name is looked up exactly as written), or
the execution of the tool found in the registry; and no final answer is
printed.  For empty text the reply is printed as the final answer and `Run`
returns, with nothing reported.  When the scan panics, so does the pass.  The
text extracted is empty when no line, trimmed and lower-cased, contains the
marker; else it is the trimmed slice `line[idx+4:]` of the first such line,
trimmed, `idx` being the index of the marker in the lower-cased line, and the
scan panics when that slice is out of range. -/
theorem command_outcome_reported {σ : Type} (tbl : Nat → Nat) (be : Backend σ)
    (a : Agent σ) (st : LoopState σ) (reply : GoString) (more : List GoString) (w : σ)
    (hB : be st.world a.Model st.prompt = (.ok (reply :: more), w)) :
    (∀ cmd, scanLines tbl (Split 10 (TrimSpace reply)) = some cmd → cmd ≠ [] →
      ∃ (st1 : LoopState σ) (tail : List Event),
        loopBody tbl be a st = .next st1 ∧
        st1.trace = st.trace ++ [.think st.prompt, .agentSays (TrimSpace reply)] ++ tail ∧
        reported tail = 1 ∧ finalAnswers tail = [] ∧
        ((ParseCommand tbl (TrimSpace reply) = .malformed ∧ tail = [.invalidFormat]) ∨
         (∃ name input, ParseCommand tbl (TrimSpace reply) = .command name input ∧
            mapGet a.Tools name = none ∧
            tail = [.usingTool name input, .unknownTool name]) ∨
         (∃ name input tool, ParseCommand tbl (TrimSpace reply) = .command name input ∧
            mapGet a.Tools name = some tool ∧
            (tail = [.usingTool name input, .execute name input] ∨
              ∃ err, tail = [.usingTool name input, .execute name input, .toolError err])))) ∧
    (scanLines tbl (Split 10 (TrimSpace reply)) = some [] →
      loopBody tbl be a st = .stop (.returned none)
        (LoopState.mk st.prompt w (st.trace ++ [.think st.prompt, .agentSays (TrimSpace reply),
          .finalAnswer (TrimSpace reply)])) ∧
      reported [.finalAnswer (TrimSpace reply)] = 0) ∧
    (scanLines tbl (Split 10 (TrimSpace reply)) = none →
      loopBody tbl be a st = .stop .panicked
        (LoopState.mk st.prompt w
          (st.trace ++ [.think st.prompt, .agentSays (TrimSpace reply)]))) ∧
    ((∀ l ∈ Split 10 (TrimSpace reply), Contains (ToLower tbl (TrimSpace l)) marker = false) →
      scanLines tbl (Split 10 (TrimSpace reply)) = some []) ∧
    (∀ pre l post idx, Split 10 (TrimSpace reply) = pre ++ l :: post →
      (∀ x ∈ pre, Contains (ToLower tbl (TrimSpace x)) marker = false) →
      Index (ToLower tbl (TrimSpace l)) marker = some idx →
      scanLines tbl (Split 10 (TrimSpace reply)) =
        (sliceFrom (TrimSpace l) (idx + 4)).map TrimSpace) ∧
    ((∀ l ∈ Split 10 (TrimSpace reply), Contains (ToLower tbl (TrimSpace l)) marker = false) ∨
      ∃ pre l post idx, Split 10 (TrimSpace reply) = pre ++ l :: post ∧
        (∀ x ∈ pre, Contains (ToLower tbl (TrimSpace x)) marker = false) ∧
        Index (ToLower tbl (TrimSpace l)) marker = some idx) := by
  have hT : Think be a st.world st.prompt = (some (reply, none), w) := by
    simp [Think, hB]
  refine ⟨?_, ?_, ?_, ?_, ?_, ?_⟩
  · intro cmd hscan hne
    exact nonempty_command_reported tbl be a st reply cmd more w hB hscan hne
  · intro h
    refine ⟨?_, rfl⟩
    rw [loopBody_think_ok tbl be a st reply w hT, ParseCommand_of_scan_nil tbl _ h]
    simp
  · intro h
    rw [loopBody_think_ok tbl be a st reply w hT, ParseCommand_of_scan_none tbl _ h]
  · intro h
    exact scanLines_none_matched tbl _ h
  · intro pre l post idx hl hpre hidx
    rw [hl]
    exact scanLines_at_first_match tbl pre post l idx hpre hidx
  · rcases exists_first_match tbl (Split 10 (TrimSpace reply)) with h | ⟨pre, l, post, hl, hp, hc⟩
    · exact Or.inl h
    · obtain ⟨idx, hidx⟩ := Index_of_Contains _ _ hc
      exact Or.inr ⟨pre, l, post, idx, hl, hp, hidx⟩

/-- Witness for C14.  With only `calc` registered, the reply `"use: Calc 2+2"`
is reported as the unknown tool `Calc`; from the reply `"İuse:"` the scan
extracts `":"`, which is reported as an invalid format; the reply `"use:"`, from
which nothing is extracted, is the final answer. -/
theorem command_outcome_reported_witness :
    (∃ st1 : LoopState Unit,
      loopBody id (constantBackend (bytes "use: Calc 2+2")) (mainAgent Unit natFloat)
        (LoopState.mk (initialPrompt (mainAgent Unit natFloat) mainGoal) () [.goal mainGoal]) =
          .next st1 ∧
      st1.trace = [.goal mainGoal, .think (initialPrompt (mainAgent Unit natFloat) mainGoal),
        .agentSays (bytes "use: Calc 2+2"), .usingTool (bytes "Calc") (bytes "2+2"),
        .unknownTool (bytes "Calc")]) ∧
    (∃ st1 : LoopState Unit,
      loopBody lowerExcerpt (constantBackend (bytes "\u0130use:")) (mainAgent Unit natFloat)
        (LoopState.mk (initialPrompt (mainAgent Unit natFloat) mainGoal) () [.goal mainGoal]) =
          .next st1 ∧
      st1.trace = [.goal mainGoal, .think (initialPrompt (mainAgent Unit natFloat) mainGoal),
        .agentSays (bytes "\u0130use:"), .invalidFormat]) ∧
    loopBody id (constantBackend (bytes "use:")) (mainAgent Unit natFloat)
        (LoopState.mk (initialPrompt (mainAgent Unit natFloat) mainGoal) () [.goal mainGoal]) =
      .stop (.returned none)
        (LoopState.mk (initialPrompt (mainAgent Unit natFloat) mainGoal) ()
          ([.goal mainGoal] ++ [.think (initialPrompt (mainAgent Unit natFloat) mainGoal),
            .agentSays (TrimSpace (bytes "use:")), .finalAnswer (TrimSpace (bytes "use:"))])) := by
  refine ⟨?_, ?_, ?_⟩
  · obtain ⟨st1, tail, h1, h2, -, -, -⟩ := (command_outcome_reported id
      (constantBackend (bytes "use: Calc 2+2")) (mainAgent Unit natFloat)
      (LoopState.mk (initialPrompt (mainAgent Unit natFloat) mainGoal) () [.goal mainGoal])
      (bytes "use: Calc 2+2") [] () rfl).1 (bytes "Calc 2+2") (by decide) (by decide)
    refine ⟨st1, h1, ?_⟩
    have h3 : loopBody id (constantBackend (bytes "use: Calc 2+2")) (mainAgent Unit natFloat)
        (LoopState.mk (initialPrompt (mainAgent Unit natFloat) mainGoal) () [.goal mainGoal]) =
        .next (LoopState.mk (initialPrompt (mainAgent Unit natFloat) mainGoal) ()
          [.goal mainGoal, .think (initialPrompt (mainAgent Unit natFloat) mainGoal),
            .agentSays (bytes "use: Calc 2+2"), .usingTool (bytes "Calc") (bytes "2+2"),
            .unknownTool (bytes "Calc")]) := rfl
    rw [h3] at h1
    cases h1
    rfl
  · obtain ⟨st1, tail, h1, h2, -, -, -⟩ := (command_outcome_reported lowerExcerpt
      (constantBackend (bytes "\u0130use:")) (mainAgent Unit natFloat)
      (LoopState.mk (initialPrompt (mainAgent Unit natFloat) mainGoal) () [.goal mainGoal])
      (bytes "\u0130use:") [] () rfl).1 (bytes ":") (by decide) (by decide)
    refine ⟨st1, h1, ?_⟩
    have h3 : loopBody lowerExcerpt (constantBackend (bytes "\u0130use:"))
        (mainAgent Unit natFloat)
        (LoopState.mk (initialPrompt (mainAgent Unit natFloat) mainGoal) () [.goal mainGoal]) =
        .next (LoopState.mk (initialPrompt (mainAgent Unit natFloat) mainGoal) ()
          [.goal mainGoal, .think (initialPrompt (mainAgent Unit natFloat) mainGoal),
            .agentSays (bytes "\u0130use:"), .invalidFormat]) := rfl
    rw [h3] at h1
    cases h1
    rfl
  · exact ((command_outcome_reported id (constantBackend (bytes "use:"))
      (mainAgent Unit natFloat)
      (LoopState.mk (initialPrompt (mainAgent Unit natFloat) mainGoal) () [.goal mainGoal])
      (bytes "use:") [] () rfl).2.1 (by decide)).1

end AiAgent
